import Mathlib

/-!
# SurfStore: a shallow embedding of the servers and of the sync pass of the client

The Go sources embedded here are

* `pkg/surfstore/MetaStore.go`   (`MetaStore`, `GetFileInfoMap`, `UpdateFile`,
  `GetBlockStoreAddr`, `NewMetaStore`)
* `pkg/surfstore/BlockStore.go`  (`BlockStore`, `GetBlock`, `PutBlock`, `HasBlocks`, `NewBlockStore`)
* `pkg/surfstore/SurfstoreUtils.go` (`CheckValidFile`, `CompareSlices`, `DivideBlocks`,
  `GenerateBlockHashList`, `LocalSyncDB`, `writeBlockstoLocal`, `downloadBlocks`, `uploadBlocks`,
  `ServerSync`, `ClientSync`)
* `pkg/surfstore/SurfstoreHelper.go` (`WriteMetaFile`, `LoadMetaFromMetaFile` and their queries)

Conventions of the embedding.

* A Go `map[string]V` is an association list `GoMap V` with at most one use of a key when it is
  built with `GoMap.set` from the empty map; `m[k]` is `GoMap.get`, `m[k] = v` is `GoMap.set`.
* A Go `int32` is an `Int`, and `+` on it is `add32`, which wraps around modulo `2 ^ 32`.
* A handler with a pointer receiver takes the store and gives back the store it leaves behind,
  the reply and the error (`none` is Go's `nil` error).
* `GetBlockHashString` is SHA-256 rendered in hex; it is a parameter `H` of every definition that
  hashes.
* A sync pass runs on a `World`: the base directory, the table of `index.db`, the two servers and
  the events of the pass. The methods of the RPC client, whose source is not among the four
  files, are modelled from the specification: a call runs the handler of the server.
* `bufio.Reader.Read` is modelled after the Go library: it hands out buffered bytes when there are
  any, and makes at most one read of the file otherwise.
-/

set_option linter.dupNamespace false

namespace SurfStore

/-! ## Go maps -/

/-- A Go `map[string]V`, as the list of its key/value pairs. -/
abbrev GoMap (V : Type) := List (String × V)

namespace GoMap

/-- The `v, ok := m[k]` of Go: the value under `k`, when there is one. -/
def get {V : Type} : GoMap V → String → Option V
  | [], _ => none
  | (k, v) :: rest, key => if k = key then some v else get rest key

/-- The `m[k] = v` of Go: replaces the value under `k`, or adds the pair. -/
def set {V : Type} : GoMap V → String → V → GoMap V
  | [], key, val => [(key, val)]
  | (k, v) :: rest, key, val =>
    if k = key then (k, val) :: rest else (k, v) :: set rest key val

/-- The keys of the map. -/
def keys {V : Type} (m : GoMap V) : List String := m.map Prod.fst

/-- The `_, ok := m[k]` of Go. -/
def has {V : Type} (m : GoMap V) (key : String) : Bool := (m.get key).isSome

end GoMap

/-! ## int32 -/

/-- The value an `int32` holds after a result `n` is stored in it (two's complement). -/
def wrap32 (n : Int) : Int := (n + 2147483648) % 4294967296 - 2147483648

/-- Go's `a + b` at type `int32`. -/
def add32 (a b : Int) : Int := wrap32 (a + b)

/-- The values of an `int32`. -/
def isInt32 (n : Int) : Prop := -2147483648 ≤ n ∧ n ≤ 2147483647

instance (n : Int) : Decidable (isInt32 n) := by
  unfold isInt32; infer_instance

/-! ## The messages -/

/-- The `FileMetaData` message. -/
structure FileMetaData where
  Filename : String
  Version : Int
  BlockHashList : List String
  deriving DecidableEq, Repr

/-- The `Version` message. -/
structure Version where
  Version : Int
  deriving DecidableEq, Repr

/-- The `Block` message. -/
structure Block where
  BlockData : List UInt8
  BlockSize : Int
  deriving DecidableEq, Repr

/-- The `Success` message. -/
structure Success where
  Flag : Bool
  deriving DecidableEq, Repr

/-- The `BlockHashes` message. -/
structure BlockHashes where
  Hashes : List String
  deriving DecidableEq, Repr

/-! ## MetaStore.go -/

/-- The `MetaStore` struct. A stored `*FileMetaData` is never nil: `UpdateFile`, the only writer,
reads `fileMetaData.Filename` before it stores the pointer. -/
structure MetaStore where
  FileMetaMap : GoMap FileMetaData
  BlockStoreAddr : String
  deriving DecidableEq, Repr

/-- What a `MetaStore.UpdateFile` call leaves behind and returns. -/
structure UpdateFileResult where
  store : MetaStore
  reply : Version
  err : Option String
  deriving DecidableEq, Repr

/-- The Go `NewMetaStore`. -/
def NewMetaStore (blockStoreAddr : String) : MetaStore :=
  { FileMetaMap := [], BlockStoreAddr := blockStoreAddr }

/-- The Go `(m *MetaStore) UpdateFile`. -/
def MetaStore.UpdateFile (m : MetaStore) (fileMetaData : FileMetaData) : UpdateFileResult :=
  let fName := fileMetaData.Filename
  match m.FileMetaMap.get fName with
  | some cur =>
    if fileMetaData.Version = add32 cur.Version 1 then
      { store := { m with FileMetaMap := m.FileMetaMap.set fName fileMetaData },
        reply := { Version := fileMetaData.Version }, err := none }
    else
      { store := m, reply := { Version := -1 },
        err := some "the version being tried to store is incorrect" }
  | none =>
    { store := { m with FileMetaMap := m.FileMetaMap.set fName fileMetaData },
      reply := { Version := fileMetaData.Version }, err := none }

/-- The store after a sequence of `UpdateFile` calls, in order. -/
def MetaStore.run (m : MetaStore) (calls : List FileMetaData) : MetaStore :=
  calls.foldl (fun s p => (s.UpdateFile p).store) m

/-! ## BlockStore.go -/

/-- The `BlockHash` message. -/
structure BlockHash where
  Hash : String
  deriving DecidableEq, Repr

/-- The `BlockStore` struct. A stored `*Block` may be nil (`none`): `GetBlock` tests the pointer it
finds, not the presence of the key. -/
structure BlockStore where
  BlockMap : GoMap (Option Block)
  deriving DecidableEq, Repr

/-- What a `BlockStore.GetBlock` call leaves behind and returns. -/
structure GetBlockResult where
  store : BlockStore
  reply : Block
  err : Option String
  deriving DecidableEq, Repr

/-- What a `BlockStore.PutBlock` call leaves behind and returns. -/
structure PutBlockResult where
  store : BlockStore
  reply : Success
  err : Option String
  deriving DecidableEq, Repr

/-- What a `BlockStore.HasBlocks` call leaves behind and returns; the reply is nil on an error. -/
structure HasBlocksResult where
  store : BlockStore
  reply : Option BlockHashes
  err : Option String
  deriving DecidableEq, Repr

/-- The Go `NewBlockStore`. -/
def NewBlockStore : BlockStore := { BlockMap := [] }

/-- The Go `(bs *BlockStore) GetBlock`. `bs.BlockMap[blockHash.Hash]` is nil when the key is
absent and when the pointer stored under it is nil. -/
def BlockStore.GetBlock (bs : BlockStore) (blockHash : BlockHash) : GetBlockResult :=
  match bs.BlockMap.get blockHash.Hash with
  | some (some retrievedBlock) =>
    { store := bs,
      reply := { BlockData := retrievedBlock.BlockData, BlockSize := retrievedBlock.BlockSize },
      err := none }
  | _ =>
    { store := bs, reply := { BlockData := [], BlockSize := 0 },
      err := some "no such hash value found" }

/-- The Go `(bs *BlockStore) PutBlock`; `H` is `GetBlockHashString`, `none` is a nil `*Block`. -/
def BlockStore.PutBlock (H : List UInt8 → String) (bs : BlockStore) (block : Option Block) :
    PutBlockResult :=
  match block with
  | some b =>
    let blockKey := H b.BlockData
    { store := { BlockMap := bs.BlockMap.set blockKey (some b) },
      reply := { Flag := true }, err := none }
  | none =>
    { store := bs, reply := { Flag := false }, err := some "no Block found" }

/-- The loop of `HasBlocks`: one step appends `keyIn` to the output when it is a key. -/
def BlockStore.hasBlocksLoop (bs : BlockStore) (hashesIn : List String) : List String :=
  hashesIn.foldl (fun out keyIn => if bs.BlockMap.has keyIn then out ++ [keyIn] else out) []

/-- The Go `(bs *BlockStore) HasBlocks`. -/
def BlockStore.HasBlocks (bs : BlockStore) (blockHashesIn : BlockHashes) : HasBlocksResult :=
  let out := bs.hasBlocksLoop blockHashesIn.Hashes
  if out.length = 0 then
    { store := bs, reply := none, err := some "no subset found" }
  else
    { store := bs, reply := some { Hashes := out }, err := none }

/-- The store after a sequence of `PutBlock` calls, in order. -/
def BlockStore.run (H : List UInt8 → String) (bs : BlockStore) (blocks : List (Option Block)) :
    BlockStore :=
  blocks.foldl (fun s b => (s.PutBlock H b).store) bs

/-! ## SurfstoreUtils.go: helpers -/

/-- An entry of `ioutil.ReadDir(client.BaseDir)`, with the bytes `os.Open` finds under the name. -/
structure FileInfo where
  Name : String
  IsDir : Bool
  Data : List UInt8
  deriving DecidableEq, Repr

/-- The Go `CheckValidFile`. -/
def CheckValidFile (fileName : FileInfo) : Bool :=
  if fileName.Name = "index.db" || fileName.IsDir then false else true

/-- The Go `CompareSlices`: the lengths agree and `slice1[i] == slice2[i]` at every index. -/
def CompareSlices (slice1 slice2 : List String) : Bool :=
  if slice1.length ≠ slice2.length then false
  else slice1.enum.all (fun p => decide (slice2.get? p.1 = some p.2))

/-- The size of the buffer of `bufio.NewReader` (`defaultBufSize`). -/
def defaultBufSize : Nat := 4096

/-- A `bufio.Reader` over an open file: the bytes buffered and not yet handed out, and the bytes
of the file not yet read. -/
structure Reader where
  buf : List UInt8
  rd : List UInt8
  deriving DecidableEq, Repr

/-- The `br.Read(p)` of `bufio.Reader` with `len(p) = n`, while no read of the file has failed:
the bytes copied into `p` (`none` for `io.EOF`) and the reader afterwards. The bytes come from the
buffer when it holds any, else from one read of the file: into `p` itself when `p` is at least as
long as the buffer, into the buffer otherwise. -/
def Reader.Read (b : Reader) (n : Nat) : Option (List UInt8) × Reader :=
  if n = 0 then (some [], b)
  else if b.buf = [] then
    if b.rd = [] then (none, b)
    else if defaultBufSize ≤ n then (some (b.rd.take n), { b with rd := b.rd.drop n })
    else
      let filled := b.rd.take defaultBufSize
      (some (filled.take n), { buf := filled.drop n, rd := b.rd.drop defaultBufSize })
  else (some (b.buf.take n), { b with buf := b.buf.drop n })

/-- The `for` loop of `DivideBlocks`, run for at most `fuel` reads; `none` when the reads are
used up before `io.EOF`. -/
def DivideBlocks.loop (blockSize : Nat) : Nat → Reader → List Block → Option (List Block)
  | 0, _, _ => none
  | fuel + 1, br, blocksList =>
    match br.Read blockSize with
    | (none, _) => some blocksList
    | (some blockBuffer, br2) =>
      DivideBlocks.loop blockSize fuel br2
        (blocksList ++ [{ BlockData := blockBuffer, BlockSize := wrap32 blockBuffer.length }])

/-- The Go `DivideBlocks` on a readable file holding the bytes `f` (no read fails but with
`io.EOF`). The loop gets one read per byte and one more for `io.EOF`, which is enough for every
positive block size (`DivideBlocks_returns`); `none` stands for a loop that never ends, as with
block size 0 (`DivideBlocks_zero`). -/
def DivideBlocks (f : List UInt8) (blockSize : Nat) : Option (List Block) :=
  DivideBlocks.loop blockSize (f.length + 1) { buf := [], rd := f } []

/-- The loop of `GenerateBlockHashList`: `none` when a block of size 0 is met. -/
def GenerateBlockHashList.loop (H : List UInt8 → String) :
    List Block → List String → Option (List String)
  | [], blockHashList => some blockHashList
  | block :: rest, blockHashList =>
    if block.BlockSize = 0 then none
    else GenerateBlockHashList.loop H rest (blockHashList ++ [H block.BlockData])

/-- The Go `GenerateBlockHashList`: the hash list (nil, here `[]`, on an error) and the error. -/
def GenerateBlockHashList (H : List UInt8 → String) (blocksList : List Block) :
    List String × Option String :=
  if blocksList.length = 0 then ([], some "empty Block List received")
  else
    match GenerateBlockHashList.loop H blocksList [] with
    | none => ([], some "block of size 0 received")
    | some blockHashList => (blockHashList, none)

/-! ## SurfstoreUtils.go: `LocalSyncDB` -/

/-- The body of the first loop of `LocalSyncDB` for one directory entry; `none` when
`DivideBlocks` does not return. The errors of `DivideBlocks` and `GenerateBlockHashList` are
dropped, as in the source. -/
def LocalSyncDB.scanStep (H : List UInt8 → String) (blockSize : Nat)
    (metaMapDB metaMapLocal : GoMap FileMetaData) (localFileName : FileInfo) :
    Option (GoMap FileMetaData) :=
  if CheckValidFile localFileName then
    match DivideBlocks localFileName.Data blockSize with
    | none => none
    | some blocksList =>
      let blockHashListLocal := (GenerateBlockHashList H blocksList).1
      match metaMapDB.get localFileName.Name with
      | some metaDataDB =>
        if !CompareSlices metaDataDB.BlockHashList blockHashListLocal then
          some (metaMapLocal.set localFileName.Name
            { Filename := localFileName.Name, Version := add32 metaDataDB.Version 1,
              BlockHashList := blockHashListLocal })
        else
          some (metaMapLocal.set localFileName.Name
            { Filename := localFileName.Name, Version := metaDataDB.Version,
              BlockHashList := blockHashListLocal })
      | none =>
        some (metaMapLocal.set localFileName.Name
          { Filename := localFileName.Name, Version := 1, BlockHashList := blockHashListLocal })
  else some metaMapLocal

/-- The first loop of `LocalSyncDB`, over the directory listing. -/
def LocalSyncDB.scan (H : List UInt8 → String) (blockSize : Nat) (metaMapDB : GoMap FileMetaData) :
    List FileInfo → GoMap FileMetaData → Option (GoMap FileMetaData)
  | [], metaMapLocal => some metaMapLocal
  | localFileName :: rest, metaMapLocal =>
    match LocalSyncDB.scanStep H blockSize metaMapDB metaMapLocal localFileName with
    | none => none
    | some next => LocalSyncDB.scan H blockSize metaMapDB rest next

/-- The body of the second loop of `LocalSyncDB` for one value `m` of `metaMapDB`; `none` when
`metaMapDB[m.Filename]` is nil and its `BlockHashList` is read. -/
def LocalSyncDB.deletedStep (metaMapDB metaMapLocal : GoMap FileMetaData) (m : FileMetaData) :
    Option (GoMap FileMetaData) :=
  if metaMapLocal.has m.Filename then some metaMapLocal
  else
    match metaMapDB.get m.Filename with
    | none => none
    | some dbEntry =>
      let version :=
        if dbEntry.BlockHashList.length = 1 ∧ dbEntry.BlockHashList.get? 0 = some "0"
        then m.Version else add32 m.Version 1
      some (metaMapLocal.set m.Filename
        { Filename := m.Filename, Version := version, BlockHashList := ["0"] })

/-- The second loop of `LocalSyncDB`, over the values of `metaMapDB` in the order of the list (Go
fixes no order; every order is the order of some list). -/
def LocalSyncDB.deleted (metaMapDB : GoMap FileMetaData) :
    List (String × FileMetaData) → GoMap FileMetaData → Option (GoMap FileMetaData)
  | [], metaMapLocal => some metaMapLocal
  | (_, m) :: rest, metaMapLocal =>
    match LocalSyncDB.deletedStep metaMapDB metaMapLocal m with
    | none => none
    | some next => LocalSyncDB.deleted metaMapDB rest next

/-- The Go `LocalSyncDB`, on the listing `localFilesList` of the base directory, the block size of
the client and the map `metaMapDB` that `LoadMetaFromMetaFile` returned. The directory and its
files are readable (else `CheckFatalError` ends the process). `none` when the call does not return
a map: `DivideBlocks` does not return, or a nil entry of `metaMapDB` is read. -/
def LocalSyncDB (H : List UInt8 → String) (blockSize : Nat) (localFilesList : List FileInfo)
    (metaMapDB : GoMap FileMetaData) : Option (GoMap FileMetaData) :=
  match LocalSyncDB.scan H blockSize metaMapDB localFilesList [] with
  | none => none
  | some metaMapLocal => LocalSyncDB.deleted metaMapDB metaMapDB metaMapLocal

/-- The hash list `blockHashListLocal` that `LocalSyncDB` computes for a file holding `data`. -/
def localHashes (H : List UInt8 → String) (blockSize : Nat) (data : List UInt8) : List String :=
  match DivideBlocks data blockSize with
  | none => []
  | some blocksList => (GenerateBlockHashList H blocksList).1

/-- Every key of the map is the `Filename` of the entry under it, as in every map that
`LoadMetaFromMetaFile` and `UpdateFile` build. -/
def keyed (m : GoMap FileMetaData) : Prop := ∀ kv ∈ m, kv.1 = kv.2.Filename

instance (m : GoMap FileMetaData) : Decidable (keyed m) := by
  unfold keyed; infer_instance

/-! ## Phase B in the words of the specification -/

/-- The entry Phase B of the specification gives a scanned file `name` with local hash list
`hashes`: the indexed version when the file is indexed with the same hash list, the indexed
version + 1 (an `int32` sum) when it is indexed with another list, and 1 when it is not indexed. -/
def specScannedEntry (indexMap : GoMap FileMetaData) (name : String) (hashes : List String) :
    FileMetaData :=
  { Filename := name,
    Version :=
      match indexMap.get name with
      | some indexed => if indexed.BlockHashList = hashes then indexed.Version
                        else add32 indexed.Version 1
      | none => 1,
    BlockHashList := hashes }

/-- The entry Phase B of the specification gives a file `name` that is indexed as `indexed` and
missing from the scan: the tombstone, at the indexed version when the indexed entry is already the
tombstone and at the indexed version + 1 (an `int32` sum) otherwise. -/
def specDeletedEntry (name : String) (indexed : FileMetaData) : FileMetaData :=
  { Filename := name,
    Version := if indexed.BlockHashList = ["0"] then indexed.Version
               else add32 indexed.Version 1,
    BlockHashList := ["0"] }

/-! ## Invariants and example inputs -/

/-- Every stored version is an `int32`. -/
def MetaStore.versionsInt32 (m : MetaStore) : Prop :=
  ∀ g e, m.FileMetaMap.get g = some e → isInt32 e.Version

/-- No nil pointer is stored. -/
def BlockStore.noNil (bs : BlockStore) : Prop := ∀ k, bs.BlockMap.get k ≠ some none

/-- The SHA-256 digest of the empty byte string, in hex. -/
def emptyDigest : String := "e3b0c44298fc1c149afbf4c8996fb92427ae41e4649b934ca495991b7852b855"

/-- A stand-in for `GetBlockHashString` on the example inputs: the empty byte string has its
SHA-256 digest, and other data are told apart by their length only. -/
def exampleHash (d : List UInt8) : String :=
  if d.length = 0 then emptyDigest else if d.length = 1 then "h1" else "h2"

/-! ## SurfstoreHelper.go: the table `indexes` of `index.db` -/

/-- A row of the table `indexes`: `(fileName, version, hashIndex, hashValue)`. -/
structure IndexRow where
  fileName : String
  version : Int
  hashIndex : Nat
  hashValue : String
  deriving DecidableEq, Repr

/-- The rows the inner loop of `WriteMetaFile` inserts for one entry `m`: one row
`(m.Filename, m.Version, hIdx, hVal)` for each `hIdx, hVal := range m.BlockHashList`. -/
def WriteMetaFile.rowsOf (m : FileMetaData) : List IndexRow :=
  m.BlockHashList.enum.map
    (fun p => { fileName := m.Filename, version := m.Version, hashIndex := p.1, hashValue := p.2 })

/-- The Go `WriteMetaFile`: the table of the new `index.db` (the old file is removed first), rows
in the order of the inserts. The database calls succeed. -/
def WriteMetaFile : GoMap FileMetaData → List IndexRow
  | [] => []
  | (_, m) :: rest => WriteMetaFile.rowsOf m ++ WriteMetaFile rest

/-- The query `getDistinctFileName`: `SELECT DISTINCT fileName, version FROM INDEXES`. -/
def getDistinctFileName (table : List IndexRow) : List (String × Int) :=
  (table.map (fun r => (r.fileName, r.version))).dedup

/-- The query `getTuplesByFileName`:
`SELECT hashIndex, hashValue FROM INDEXES WHERE FILENAME = ? ORDER BY hashIndex`. -/
def getTuplesByFileName (table : List IndexRow) (fileName : String) : List (Nat × String) :=
  ((table.filter (fun r => decide (r.fileName = fileName))).map
    (fun r => (r.hashIndex, r.hashValue))).insertionSort (fun a b => a.1 ≤ b.1)

/-- The Go `LoadMetaFromMetaFile` on an `index.db` that holds `table` (`[]` when there is no such
file): one entry for each row of `getDistinctFileName`, its hash list read by
`getTuplesByFileName`. The database calls succeed. -/
def LoadMetaFromMetaFile (table : List IndexRow) : GoMap FileMetaData :=
  (getDistinctFileName table).foldl
    (fun fileMetaMap fv =>
      fileMetaMap.set fv.1
        { Filename := fv.1, Version := fv.2,
          BlockHashList := (getTuplesByFileName table fv.1).map Prod.snd })
    []

/-! ## The base directory -/

/-- The entry of the base directory under a name. -/
def Dir.find (dir : List FileInfo) (name : String) : Option FileInfo :=
  dir.find? (fun fi => decide (fi.Name = name))

/-- The directory after the regular file `name` is given the content `data`, in place when the
name exists and as a new entry otherwise. -/
def Dir.write : List FileInfo → String → List UInt8 → List FileInfo
  | [], name, data => [{ Name := name, IsDir := false, Data := data }]
  | fi :: rest, name, data =>
    if fi.Name = name then { Name := name, IsDir := false, Data := data } :: rest
    else fi :: Dir.write rest name data

/-- The name can be the name of an entry of a directory: it is not empty, not `.` and not `..`,
holds no path separator and no NUL, and is at most 255 bytes long (the `NAME_MAX` of the usual
file systems). `ioutil.ReadDir` lists only such names. -/
def isFileName (name : String) : Bool :=
  decide (name ≠ "" ∧ name ≠ "." ∧ name ≠ ".." ∧ '/' ∉ name.toList ∧
    Char.ofNat 0 ∉ name.toList ∧ name.utf8ByteSize ≤ 255)

/-- The `os.Create(client.BaseDir + "/" + name)`: the file is created, or truncated when it
exists; `none` for an error: the name is the name of a directory of the base directory, or it is
no file name (`""`, `.` and `..` name directories, a NUL or an overlong name is refused by the
system). A name with a path separator reaches below or outside the base directory, which the
listing does not show: it is not modelled, and given `none` too. -/
def osCreate (dir : List FileInfo) (name : String) : Option (List FileInfo) :=
  if isFileName name then
    match Dir.find dir name with
    | some fi => if fi.IsDir then none else some (Dir.write dir name [])
    | none => some (Dir.write dir name [])
  else none

/-- The `os.Stat(client.BaseDir + "/" + name)` as `uploadBlocks` reads it: `some none` when the
error is `os.ErrNotExist`, `some (some fi)` when the name is found, and `none` for another error
(a NUL, an overlong name), after which `os.Open` fails too. The names `""`, `.` and `..` are found
as directories. A name with a path separator is not modelled, and given `none`. -/
def osStat (dir : List FileInfo) (name : String) : Option (Option FileInfo) :=
  if isFileName name then some (Dir.find dir name)
  else if name = "" ∨ name = "." ∨ name = ".." then
    some (some { Name := name, IsDir := true, Data := [] })
  else none

/-- The `os.Remove(client.BaseDir + "/" + name)` of a file. -/
def osRemove (dir : List FileInfo) (name : String) : List FileInfo :=
  dir.filter (fun fi => !decide (fi.Name = name))

/-! ## MetaStore.go: the other handlers -/

/-- The `FileInfoMap` message. -/
structure FileInfoMap where
  FileInfoMap : GoMap FileMetaData
  deriving DecidableEq, Repr

/-- The `BlockStoreAddr` message. -/
structure BlockStoreAddr where
  Addr : String
  deriving DecidableEq, Repr

/-- The Go `(m *MetaStore) GetFileInfoMap`: the reply and the error. A `GoMap` is never the nil
map (`NewMetaStore` makes the map), so the branch of the nil map is not taken. -/
def MetaStore.GetFileInfoMap (m : MetaStore) :
    Option SurfStore.FileInfoMap × Option String :=
  (some { FileInfoMap := m.FileMetaMap }, none)

/-- The Go `(m *MetaStore) GetBlockStoreAddr`: the reply (nil on an error) and the error. -/
def MetaStore.GetBlockStoreAddr (m : MetaStore) :
    Option SurfStore.BlockStoreAddr × Option String :=
  if m.BlockStoreAddr = "" then (none, some "no blockStoreAddress found")
  else (some { Addr := m.BlockStoreAddr }, none)

/-! ## The client, its servers and its calls -/

/-- What a sync pass does that the maps do not show: the calls of `downloadBlocks` and
`uploadBlocks` (with the `Filename` of their argument) and the RPCs, in the order they are
issued. -/
inductive Event where
  | downloadBlocks (filename : String)
  | uploadBlocks (filename : String)
  | GetFileInfoMap
  | GetBlockStoreAddr
  | GetBlock (blockHash : String)
  | PutBlock (block : Block) (succeeded : Bool)
  | UpdateFile (fileMetaData : FileMetaData) (accepted : Bool)
  deriving DecidableEq, Repr

/-- The state a sync pass of one client runs on: the entries of `client.BaseDir`, the table held
by its `index.db`, the two servers, and the events of the pass so far. The table is kept apart
from the entries: the file calls of the pass act on `dir`, the database calls on `index`. -/
structure World where
  dir : List FileInfo
  index : List IndexRow
  metaStore : MetaStore
  blockStore : BlockStore
  trace : List Event
  deriving DecidableEq, Repr

/-- What a call of the RPC client leaves behind and returns: the world, the value of the result
parameter after the call, and the error. -/
structure RPCResult (α : Type) where
  world : World
  out : α
  err : Option String

/-- Modelled from the spec: `RPCClient.GetFileInfoMap`, whose source (the gRPC client) is not among
the sources; §9 has the client talk to the server "through an abstract RPC capability exposing
{GetBlock, PutBlock, HasBlocks, GetFileInfoMap, UpdateFile, GetBlockStoreAddr}", with the
signatures of §6. The call runs the handler of the MetaStore and stores the map of the reply in
the result parameter; on an error the result parameter keeps its value. -/
def RPCClient.GetFileInfoMap (w : World) (serverFileInfoMap : GoMap FileMetaData) :
    RPCResult (GoMap FileMetaData) :=
  let w1 := { w with trace := w.trace ++ [Event.GetFileInfoMap] }
  match w.metaStore.GetFileInfoMap with
  | (some reply, none) => { world := w1, out := reply.FileInfoMap, err := none }
  | (_, err) => { world := w1, out := serverFileInfoMap, err := err }

/-- Modelled from the spec: `RPCClient.GetBlockStoreAddr`, whose source is not among the sources
(§6: `GetBlockStoreAddr() → BlockStoreAddr{addr: string}`; §4.2: "Fails with `Unconfigured` if
unset"). The call runs the handler of the MetaStore and stores the address of the reply in the
result parameter; on an error the result parameter keeps its value. -/
def RPCClient.GetBlockStoreAddr (w : World) (blockStoreAddr : String) : RPCResult String :=
  let w1 := { w with trace := w.trace ++ [Event.GetBlockStoreAddr] }
  match w.metaStore.GetBlockStoreAddr with
  | (some reply, none) => { world := w1, out := reply.Addr, err := none }
  | (_, err) => { world := w1, out := blockStoreAddr, err := err }

/-- Modelled from the spec: `RPCClient.GetBlock`, whose source is not among the sources (§6:
`GetBlock(BlockHash{hash: string}) → Block{data: bytes, size: int32}`; §7: a `Transport` error of
an RPC). The address the MetaStore is configured with, when set, is the address of the BlockStore;
a call to the empty address reaches no server and fails. Otherwise the call runs the handler of
the BlockStore and copies the reply into the result parameter; on an error the result parameter
keeps its value. -/
def RPCClient.GetBlock (w : World) (blockHash : String) (blockStoreAddr : String) (block : Block) :
    RPCResult Block :=
  let w1 := { w with trace := w.trace ++ [Event.GetBlock blockHash] }
  if blockStoreAddr = "" then { world := w1, out := block, err := some "transport" }
  else
    let r := w.blockStore.GetBlock { Hash := blockHash }
    match r.err with
    | none => { world := { w1 with blockStore := r.store }, out := r.reply, err := none }
    | some e => { world := { w1 with blockStore := r.store }, out := block, err := some e }

/-- Modelled from the spec: `RPCClient.PutBlock`, whose source is not among the sources (§6:
`PutBlock(Block) → Success{flag: bool}`; §7: a `Transport` error of an RPC). A call to the empty
address reaches no server and fails. Otherwise the call runs the handler of the BlockStore and
stores the flag of the reply in the result parameter; on an error the result parameter keeps its
value. -/
def RPCClient.PutBlock (H : List UInt8 → String) (w : World) (block : Block)
    (blockStoreAddr : String) (succ : Bool) : RPCResult Bool :=
  if blockStoreAddr = "" then
    { world := { w with trace := w.trace ++ [Event.PutBlock block false] }, out := succ,
      err := some "transport" }
  else
    let r := w.blockStore.PutBlock H (some block)
    match r.err with
    | none =>
      { world := { w with blockStore := r.store,
                          trace := w.trace ++ [Event.PutBlock block true] },
        out := r.reply.Flag, err := none }
    | some e =>
      { world := { w with blockStore := r.store,
                          trace := w.trace ++ [Event.PutBlock block false] },
        out := succ, err := some e }

/-- Modelled from the spec: `RPCClient.UpdateFile`, whose source is not among the sources (§6:
`UpdateFile(FileMetaData{filename, version, blockHashList}) → Version{version: int32}`, "`version
= -1` signals conflict (alongside the error channel)"). The call runs the handler of the MetaStore
and stores the version of the reply in the result parameter; on an error the result parameter
keeps its value. -/
def RPCClient.UpdateFile (w : World) (fileMetaData : FileMetaData) (latestVersion : Int) :
    RPCResult Int :=
  let r := w.metaStore.UpdateFile fileMetaData
  match r.err with
  | none =>
    { world := { w with metaStore := r.store,
                        trace := w.trace ++ [Event.UpdateFile fileMetaData true] },
      out := r.reply.Version, err := none }
  | some e =>
    { world := { w with metaStore := r.store,
                        trace := w.trace ++ [Event.UpdateFile fileMetaData false] },
      out := latestVersion, err := some e }

/-! ## SurfstoreUtils.go: Phase C and Phase D -/

/-- The Go `writeBlockstoLocal`. -/
def writeBlockstoLocal (fileInfoMapLocal : GoMap FileMetaData) (serverMeta : FileMetaData) :
    GoMap FileMetaData :=
  fileInfoMapLocal.set serverMeta.Filename
    { Filename := serverMeta.Filename, Version := serverMeta.Version,
      BlockHashList := serverMeta.BlockHashList }

/-- The `for` loop of `downloadBlocks`: the world after the `GetBlock` calls, and `data` when the
loop ends (`none` when a hash `"0"` makes the function return before the write). The error of
`GetBlock` is printed and nothing else, as in the source. -/
def downloadBlocks.loop (blockStoreAddr : String) :
    World → List String → List UInt8 → World × Option (List UInt8)
  | w, [], data => (w, some data)
  | w, hashVal :: rest, data =>
    if hashVal = "0" then (w, none)
    else
      let r := RPCClient.GetBlock w hashVal blockStoreAddr { BlockData := [], BlockSize := 0 }
      downloadBlocks.loop blockStoreAddr r.world rest (data ++ r.out.BlockData)

/-- The Go `downloadBlocks`; `none` when `CheckFatalError` ends the process after `os.Create`. The
file is created before the test for a deleted file; the `os.Remove` of the file, which is still
open, succeeds (as on a POSIX system), and so does `WriteString`. -/
def downloadBlocks (w : World) (m : FileMetaData) : Option World :=
  let w0 := { w with trace := w.trace ++ [Event.downloadBlocks m.Filename] }
  match osCreate w0.dir m.Filename with
  | none => none
  | some created =>
    let w1 := { w0 with dir := created }
    if m.BlockHashList.length = 1 ∧ m.BlockHashList.get? 0 = some "0" then
      some { w1 with dir := osRemove w1.dir m.Filename }
    else
      let r := RPCClient.GetBlockStoreAddr w1 ""
      match downloadBlocks.loop r.out r.world m.BlockHashList [] with
      | (w2, none) => some w2
      | (w2, some data) => some { w2 with dir := Dir.write w2.dir m.Filename data }

/-- The `for` loop of `uploadBlocks`: for each block a `PutBlock` and then an `UpdateFile`, whose
result parameter is `&metaLocal.Version`. The errors are printed and nothing else, as in the
source. -/
def uploadBlocks.loop (H : List UInt8 → String) (blockStoreAddr : String) :
    World → List Block → FileMetaData → World × FileMetaData
  | w, [], metaLocal => (w, metaLocal)
  | w, block :: rest, metaLocal =>
    let r1 := RPCClient.PutBlock H w block blockStoreAddr false
    let r2 := RPCClient.UpdateFile r1.world metaLocal metaLocal.Version
    uploadBlocks.loop H blockStoreAddr r2.world rest { metaLocal with Version := r2.out }

/-- The Go `uploadBlocks`: the world and `*metaLocal` after the call; `none` when `os.Open` fails
after an error of `os.Stat` other than `os.ErrNotExist` (`CheckFatalError` ends the process) and
when `DivideBlocks` does not return. A name that `os.Stat` does not find gets the one
`UpdateFile`; the read of a directory fails, so that `DivideBlocks` gives no block for it (and
does not return with block size 0, where no read is made). -/
def uploadBlocks (H : List UInt8 → String) (blockSize : Nat) (w : World) (metaLocal : FileMetaData) :
    Option (World × FileMetaData) :=
  let w0 := { w with trace := w.trace ++ [Event.uploadBlocks metaLocal.Filename] }
  match osStat w0.dir metaLocal.Filename with
  | none => none
  | some none =>
    let r := RPCClient.UpdateFile w0 metaLocal metaLocal.Version
    some (r.world, { metaLocal with Version := r.out })
  | some (some fi) =>
    match (if fi.IsDir then (if blockSize = 0 then none else some [])
           else DivideBlocks fi.Data blockSize) with
    | none => none
    | some blocksList =>
      let r := RPCClient.GetBlockStoreAddr w0 ""
      some (uploadBlocks.loop H r.out r.world blocksList metaLocal)

/-- The first loop of `ServerSync`, over the values of `fileInfoMapServer` in the order of the
list: the world and `fileInfoMapLocal` after it; `none` when a `downloadBlocks` ends the
process. -/
def ServerSync.downloadLoop :
    World → List (String × FileMetaData) → GoMap FileMetaData →
      Option (World × GoMap FileMetaData)
  | w, [], fileInfoMapLocal => some (w, fileInfoMapLocal)
  | w, (_, metaServer) :: rest, fileInfoMapLocal =>
    match fileInfoMapLocal.get metaServer.Filename with
    | some metaLocal =>
      if metaServer.Version ≥ metaLocal.Version then
        match downloadBlocks w metaServer with
        | none => none
        | some w2 =>
          ServerSync.downloadLoop w2 rest (writeBlockstoLocal fileInfoMapLocal metaServer)
      else ServerSync.downloadLoop w rest fileInfoMapLocal
    | none =>
      match downloadBlocks w metaServer with
      | none => none
      | some w2 =>
        ServerSync.downloadLoop w2 rest (writeBlockstoLocal fileInfoMapLocal metaServer)

/-- The second loop of `ServerSync`, over the values of `fileInfoMapLocal` in the order of the
list: the world after it, and the entries of the map, each under its key with what `uploadBlocks`
left in it (the values of the map are pointers). `none` when an `uploadBlocks` does not
return. -/
def ServerSync.uploadLoop (H : List UInt8 → String) (blockSize : Nat)
    (fileInfoMapServer : GoMap FileMetaData) :
    World → List (String × FileMetaData) → Option (World × GoMap FileMetaData)
  | w, [] => some (w, [])
  | w, (key, metaLocal) :: rest =>
    match fileInfoMapServer.get metaLocal.Filename with
    | some metaServer =>
      if metaServer.Version < metaLocal.Version then
        match uploadBlocks H blockSize w metaLocal with
        | none => none
        | some (w2, metaLocal2) =>
          match ServerSync.uploadLoop H blockSize fileInfoMapServer w2 rest with
          | none => none
          | some (w3, others) => some (w3, (key, metaLocal2) :: others)
      else
        match ServerSync.uploadLoop H blockSize fileInfoMapServer w rest with
        | none => none
        | some (w3, others) => some (w3, (key, metaLocal) :: others)
    | none =>
      match uploadBlocks H blockSize w metaLocal with
      | none => none
      | some (w2, metaLocal2) =>
        match ServerSync.uploadLoop H blockSize fileInfoMapServer w2 rest with
        | none => none
        | some (w3, others) => some (w3, (key, metaLocal2) :: others)

/-- The Go `ServerSync`: the world after the call and the map it returns (its error is always
nil); `none` when the call does not return. -/
def ServerSync (H : List UInt8 → String) (blockSize : Nat) (w : World)
    (fileInfoMapLocal : GoMap FileMetaData) : Option (World × GoMap FileMetaData) :=
  let r := RPCClient.GetFileInfoMap w []
  match ServerSync.downloadLoop r.world r.out fileInfoMapLocal with
  | none => none
  | some (w1, merged) => ServerSync.uploadLoop H blockSize r.out w1 merged

/-- The Go `ClientSync`: the world after the pass, with the table that `WriteMetaFile` leaves in
`index.db`; `none` when the pass does not return. -/
def ClientSync (H : List UInt8 → String) (blockSize : Nat) (w : World) : Option World :=
  match LocalSyncDB H blockSize w.dir (LoadMetaFromMetaFile w.index) with
  | none => none
  | some fileInfoMapLocal =>
    match ServerSync H blockSize w fileInfoMapLocal with
    | none => none
    | some (w1, synced) => some { w1 with index := WriteMetaFile synced }

/-! ## Reading the events of a pass -/

/-- The filenames `downloadBlocks` was called with, in order. -/
def downloadsOf (trace : List Event) : List String :=
  trace.filterMap (fun e => match e with
    | Event.downloadBlocks f => some f
    | _ => none)

/-- The filenames `uploadBlocks` was called with, in order. -/
def uploadsOf (trace : List Event) : List String :=
  trace.filterMap (fun e => match e with
    | Event.uploadBlocks f => some f
    | _ => none)

/-- The outcomes of the `UpdateFile` calls issued for the filename `f`, in order: `true` for an
accepted call, `false` for a rejected one. -/
def updatesOf (f : String) (trace : List Event) : List Bool :=
  trace.filterMap (fun e => match e with
    | Event.UpdateFile m accepted => if m.Filename = f then some accepted else none
    | _ => none)

/-- The `PutBlock` and `UpdateFile` calls issued, in order. -/
def writesOf (trace : List Event) : List Event :=
  trace.filter (fun e => match e with
    | Event.PutBlock _ _ => true
    | Event.UpdateFile _ _ => true
    | _ => false)

/-- The block store has a block to return for the digest: `GetBlock` succeeds on it. -/
def BlockStore.holds (bs : BlockStore) (digest : String) : Prop :=
  (bs.GetBlock { Hash := digest }).err = none

instance (bs : BlockStore) (digest : String) : Decidable (bs.holds digest) := by
  unfold BlockStore.holds; infer_instance

/-- The bytes of the blocks that `GetBlock` returns for the digests, one after the other. -/
def composition (bs : BlockStore) (digests : List String) : List UInt8 :=
  (digests.map (fun d => (bs.GetBlock { Hash := d }).reply.BlockData)).flatten

/-! ## Go maps keyed by filename, and directories -/

/-- A Go map keyed by the filenames of its entries: every key is the `Filename` of its entry, and
no key is used twice. -/
def keyedMap (m : GoMap FileMetaData) : Prop := keyed m ∧ m.keys.Nodup

instance (m : GoMap FileMetaData) : Decidable (keyedMap m) := by
  unfold keyedMap; infer_instance

/-- The name is the name of a directory of the base directory. -/
def Dir.isDir (dir : List FileInfo) (name : String) : Bool :=
  match Dir.find dir name with
  | some fi => fi.IsDir
  | none => false

/-- The test of the first loop of `ServerSync` for one server entry: the file is absent from
`fileInfoMapLocal`, or its server version is greater than or equal to its local version. -/
def serverWins (fileInfoMapLocal : GoMap FileMetaData) (metaServer : FileMetaData) : Bool :=
  match fileInfoMapLocal.get metaServer.Filename with
  | some metaLocal => decide (metaServer.Version ≥ metaLocal.Version)
  | none => true

/-- The test of the second loop of `ServerSync` for one local entry: the file is absent from
`fileInfoMapServer`, or its server version is less than its local version. -/
def localWins (fileInfoMapServer : GoMap FileMetaData) (metaLocal : FileMetaData) : Bool :=
  match fileInfoMapServer.get metaLocal.Filename with
  | some metaServer => decide (metaServer.Version < metaLocal.Version)
  | none => true

/-! ## Go maps: lookup after update -/

theorem GoMap.get_set_same {V : Type} (m : GoMap V) (k : String) (v : V) :
    (m.set k v).get k = some v := by
  induction m with
  | nil => simp [GoMap.set, GoMap.get]
  | cons hd tl ih =>
    obtain ⟨a, b⟩ := hd
    by_cases h : a = k
    · simp [GoMap.set, GoMap.get, h]
    · simp [GoMap.set, GoMap.get, h, ih]

theorem GoMap.get_set_other {V : Type} (m : GoMap V) (k k2 : String) (v : V) (hne : k2 ≠ k) :
    (m.set k v).get k2 = m.get k2 := by
  induction m with
  | nil =>
    have : ¬ k = k2 := fun h => hne h.symm
    simp [GoMap.set, GoMap.get, this]
  | cons hd tl ih =>
    obtain ⟨a, b⟩ := hd
    by_cases h : a = k
    · subst h
      have : ¬ a = k2 := fun h => hne h.symm
      simp [GoMap.set, GoMap.get, this]
    · by_cases h2 : a = k2
      · subst h2
        simp [GoMap.set, GoMap.get, h]
      · simp [GoMap.set, GoMap.get, h, h2, ih]

/-! ## `UpdateFile`, branch by branch -/

theorem UpdateFile_absent (m : MetaStore) (p : FileMetaData)
    (h : m.FileMetaMap.get p.Filename = none) :
    m.UpdateFile p =
      { store := { m with FileMetaMap := m.FileMetaMap.set p.Filename p },
        reply := { Version := p.Version }, err := none } := by
  simp only [MetaStore.UpdateFile, h]

theorem UpdateFile_next (m : MetaStore) (p cur : FileMetaData)
    (h : m.FileMetaMap.get p.Filename = some cur) (hv : p.Version = add32 cur.Version 1) :
    m.UpdateFile p =
      { store := { m with FileMetaMap := m.FileMetaMap.set p.Filename p },
        reply := { Version := p.Version }, err := none } := by
  simp only [MetaStore.UpdateFile, h, hv, if_true]

theorem UpdateFile_stale (m : MetaStore) (p cur : FileMetaData)
    (h : m.FileMetaMap.get p.Filename = some cur) (hv : p.Version ≠ add32 cur.Version 1) :
    m.UpdateFile p =
      { store := m, reply := { Version := -1 },
        err := some "the version being tried to store is incorrect" } := by
  simp only [MetaStore.UpdateFile, h, hv, if_false]

/-! ## C1, C2: the check-and-set of `UpdateFile` -/

/-- C1. `UpdateFile` accepts a proposal (returns no error) exactly when the store has no entry for
`proposed.Filename` or the stored entry's version + 1 (the `int32` sum the code computes) equals
`proposed.Version`; on acceptance the entry under that filename is the proposal itself, the entry
under every other filename is what it was, the block store address is kept, and the reply is
`proposed.Version`. -/
theorem UpdateFile_accepts_iff (m : MetaStore) (proposed : FileMetaData) :
    ((m.UpdateFile proposed).err = none ↔
        (m.FileMetaMap.get proposed.Filename = none ∨
          ∃ cur, m.FileMetaMap.get proposed.Filename = some cur ∧
            add32 cur.Version 1 = proposed.Version)) ∧
    ((m.UpdateFile proposed).err = none →
        (m.UpdateFile proposed).store.FileMetaMap.get proposed.Filename = some proposed ∧
        (∀ g, g ≠ proposed.Filename →
          (m.UpdateFile proposed).store.FileMetaMap.get g = m.FileMetaMap.get g) ∧
        (m.UpdateFile proposed).store.BlockStoreAddr = m.BlockStoreAddr ∧
        (m.UpdateFile proposed).reply = { Version := proposed.Version }) := by
  cases hget : m.FileMetaMap.get proposed.Filename with
  | none =>
    rw [UpdateFile_absent m proposed hget]
    refine ⟨⟨fun _ => Or.inl rfl, fun _ => rfl⟩, fun _ => ⟨?_, ?_, rfl, rfl⟩⟩
    · exact GoMap.get_set_same _ _ _
    · intro g hg; exact GoMap.get_set_other _ _ _ _ hg
  | some cur =>
    by_cases hv : proposed.Version = add32 cur.Version 1
    · rw [UpdateFile_next m proposed cur hget hv]
      refine ⟨⟨fun _ => Or.inr ⟨cur, rfl, hv.symm⟩, fun _ => rfl⟩, fun _ => ⟨?_, ?_, rfl, rfl⟩⟩
      · exact GoMap.get_set_same _ _ _
      · intro g hg; exact GoMap.get_set_other _ _ _ _ hg
    · rw [UpdateFile_stale m proposed cur hget hv]
      refine ⟨⟨fun h => by simp at h, ?_⟩, fun h => by simp at h⟩
      rintro (h | ⟨c, hc, hc2⟩)
      · simp at h
      · simp only [Option.some.injEq] at hc
        subst hc
        exact absurd hc2.symm hv

/-- C2. When the store holds an entry for `proposed.Filename` and `proposed.Version` is not the
stored version + 1 (the `int32` sum the code computes), `UpdateFile` replies version -1 with an
error and leaves the store, hence the whole metadata map and the stored entry, as it was. -/
theorem UpdateFile_rejects (m : MetaStore) (proposed cur : FileMetaData)
    (hcur : m.FileMetaMap.get proposed.Filename = some cur)
    (hver : proposed.Version ≠ add32 cur.Version 1) :
    (m.UpdateFile proposed).reply = { Version := -1 } ∧
    (m.UpdateFile proposed).err ≠ none ∧
    (m.UpdateFile proposed).store = m ∧
    (m.UpdateFile proposed).store.FileMetaMap = m.FileMetaMap ∧
    (m.UpdateFile proposed).store.FileMetaMap.get proposed.Filename = some cur := by
  rw [UpdateFile_stale m proposed cur hcur hver]
  exact ⟨rfl, by simp, rfl, rfl, hcur⟩

/-- C2 at a store holding `a.txt` at version 3 and a proposal at version 3. -/
theorem UpdateFile_rejects_witness :
    let m : MetaStore := { FileMetaMap := [("a.txt", ⟨"a.txt", 3, ["h1"]⟩)], BlockStoreAddr := "b" }
    let p : FileMetaData := ⟨"a.txt", 3, ["h2"]⟩
    (m.UpdateFile p).reply = { Version := -1 } ∧
    (m.UpdateFile p).err ≠ none ∧
    (m.UpdateFile p).store = m ∧
    (m.UpdateFile p).store.FileMetaMap = m.FileMetaMap ∧
    (m.UpdateFile p).store.FileMetaMap.get p.Filename = some ⟨"a.txt", 3, ["h1"]⟩ :=
  UpdateFile_rejects
    { FileMetaMap := [("a.txt", ⟨"a.txt", 3, ["h1"]⟩)], BlockStoreAddr := "b" }
    ⟨"a.txt", 3, ["h2"]⟩ ⟨"a.txt", 3, ["h1"]⟩ (by decide) (by decide)

/-! ## C3: versions of a filename over a run of `UpdateFile` calls -/

theorem add32_one_of_lt (v : Int) (hlo : -2147483648 ≤ v) (hhi : v < 2147483647) :
    add32 v 1 = v + 1 := by
  unfold add32 wrap32
  omega

theorem UpdateFile_store_get (m : MetaStore) (p : FileMetaData) (g : String) :
    (m.UpdateFile p).store.FileMetaMap.get g =
      if (m.UpdateFile p).err = none ∧ g = p.Filename then some p else m.FileMetaMap.get g := by
  cases hget : m.FileMetaMap.get p.Filename with
  | none =>
    rw [UpdateFile_absent m p hget]
    by_cases hg : g = p.Filename
    · subst hg; simp [GoMap.get_set_same]
    · simp [hg, GoMap.get_set_other _ _ _ _ hg]
  | some cur =>
    by_cases hv : p.Version = add32 cur.Version 1
    · rw [UpdateFile_next m p cur hget hv]
      by_cases hg : g = p.Filename
      · subst hg; simp [GoMap.get_set_same]
      · simp [hg, GoMap.get_set_other _ _ _ _ hg]
    · rw [UpdateFile_stale m p cur hget hv]
      simp

theorem UpdateFile_versionsInt32 (m : MetaStore) (p : FileMetaData) (hm : m.versionsInt32)
    (hp : isInt32 p.Version) : (m.UpdateFile p).store.versionsInt32 := by
  intro g e hge
  rw [UpdateFile_store_get] at hge
  split at hge
  · simp only [Option.some.injEq] at hge
    subst hge; exact hp
  · exact hm g e hge

theorem run_versionsInt32 (calls : List FileMetaData) (m : MetaStore) (hm : m.versionsInt32)
    (hcalls : ∀ c ∈ calls, isInt32 c.Version) : (m.run calls).versionsInt32 := by
  induction calls generalizing m with
  | nil => exact hm
  | cons c rest ih =>
    have hc : isInt32 c.Version := hcalls c (List.mem_cons_self _ _)
    have hrest : ∀ d ∈ rest, isInt32 d.Version := fun d hd => hcalls d (List.mem_cons_of_mem _ hd)
    exact ih (m.UpdateFile c).store (UpdateFile_versionsInt32 m c hm hc) hrest

theorem NewMetaStore_versionsInt32 (addr : String) : (NewMetaStore addr).versionsInt32 := by
  intro g e h
  simp [NewMetaStore, GoMap.get] at h

/-- C3, as stated, fails: after `UpdateFile(f, 2147483647)` on a new store, the proposal
`(f, -2147483648)` is accepted, because the `int32` sum `2147483647 + 1` is `-2147483648`; the
accepted version is not 1 greater as an integer than the stored one, and the stored version of `f`
decreases. -/
theorem version_monotonicity_counterexample :
    (((NewMetaStore "addr").run [⟨"f", 2147483647, ["h"]⟩]).FileMetaMap.get "f"
        = some ⟨"f", 2147483647, ["h"]⟩) ∧
    ((((NewMetaStore "addr").run [⟨"f", 2147483647, ["h"]⟩]).UpdateFile
        ⟨"f", -2147483648, ["h"]⟩).err = none) ∧
    ((((NewMetaStore "addr").run [⟨"f", 2147483647, ["h"]⟩]).UpdateFile
        ⟨"f", -2147483648, ["h"]⟩).store.FileMetaMap.get "f" = some ⟨"f", -2147483648, ["h"]⟩) ∧
    ((-2147483648 : Int) ≠ 2147483647 + 1) ∧ ((-2147483648 : Int) < 2147483647) := by
  decide

/-- C3, amended. After any sequence of `UpdateFile` calls with `int32` versions from
`NewMetaStore`, let `old` be the entry stored for a filename `f`. A further call keeps an entry for
`f`; a rejected call and a call for another filename leave it as it was; an accepted call for `f`
stores the `int32` sum `old.Version + 1`, which is exactly 1 greater as an integer whenever
`old.Version` is below 2147483647, the one value at which the sum wraps around; and below that
value the stored version never decreases. -/
theorem version_monotonicity (addr : String) (calls : List FileMetaData) (p old : FileMetaData)
    (f : String) (hcalls : ∀ c ∈ calls, isInt32 c.Version)
    (hold : ((NewMetaStore addr).run calls).FileMetaMap.get f = some old) :
    ∃ new, (((NewMetaStore addr).run calls).UpdateFile p).store.FileMetaMap.get f = some new ∧
      ((((NewMetaStore addr).run calls).UpdateFile p).err ≠ none → new = old) ∧
      (p.Filename ≠ f → new = old) ∧
      ((((NewMetaStore addr).run calls).UpdateFile p).err = none → p.Filename = f →
        new = p ∧ new.Version = add32 old.Version 1 ∧
        (old.Version < 2147483647 → new.Version = old.Version + 1)) ∧
      (old.Version < 2147483647 → old.Version ≤ new.Version) := by
  have hinv := run_versionsInt32 calls (NewMetaStore addr) (NewMetaStore_versionsInt32 addr) hcalls
  have hlo : -2147483648 ≤ old.Version := (hinv f old hold).1
  generalize (NewMetaStore addr).run calls = s at hold hinv ⊢
  by_cases hacc : (s.UpdateFile p).err = none ∧ f = p.Filename
  · obtain ⟨herr, hf⟩ := hacc
    subst hf
    have hver : p.Version = add32 old.Version 1 := by
      by_contra hv
      rw [UpdateFile_stale s p old hold hv] at herr
      simp at herr
    have hstep : old.Version < 2147483647 → p.Version = old.Version + 1 := fun hhi => by
      rw [hver]; exact add32_one_of_lt _ hlo hhi
    refine ⟨p, ?_, fun h => absurd herr h, fun h => absurd rfl h, fun _ _ => ⟨rfl, hver, hstep⟩, ?_⟩
    · rw [UpdateFile_store_get]; simp [herr]
    · intro hhi; rw [hstep hhi]; omega
  · refine ⟨old, ?_, fun _ => rfl, fun _ => rfl, fun herr hf => ?_, fun _ => le_refl _⟩
    · rw [UpdateFile_store_get, if_neg hacc]; exact hold
    · exact absurd ⟨herr, hf.symm⟩ hacc

/-- C3, amended, at the store after `UpdateFile(a.txt, 1)` and the proposal `(a.txt, 2)`. -/
theorem version_monotonicity_witness :
    (∀ c ∈ [(⟨"a.txt", 1, ["h1"]⟩ : FileMetaData)], isInt32 c.Version) ∧
    (((NewMetaStore "addr").run [⟨"a.txt", 1, ["h1"]⟩]).FileMetaMap.get "a.txt"
      = some ⟨"a.txt", 1, ["h1"]⟩) ∧
    ∃ new, (((NewMetaStore "addr").run [⟨"a.txt", 1, ["h1"]⟩]).UpdateFile
        ⟨"a.txt", 2, ["h2"]⟩).store.FileMetaMap.get "a.txt" = some new ∧
      ((((NewMetaStore "addr").run [⟨"a.txt", 1, ["h1"]⟩]).UpdateFile
        ⟨"a.txt", 2, ["h2"]⟩).err ≠ none → new = ⟨"a.txt", 1, ["h1"]⟩) ∧
      ((⟨"a.txt", 2, ["h2"]⟩ : FileMetaData).Filename ≠ "a.txt" → new = ⟨"a.txt", 1, ["h1"]⟩) ∧
      ((((NewMetaStore "addr").run [⟨"a.txt", 1, ["h1"]⟩]).UpdateFile
        ⟨"a.txt", 2, ["h2"]⟩).err = none → (⟨"a.txt", 2, ["h2"]⟩ : FileMetaData).Filename = "a.txt" →
        new = ⟨"a.txt", 2, ["h2"]⟩ ∧
        new.Version = add32 (⟨"a.txt", 1, ["h1"]⟩ : FileMetaData).Version 1 ∧
        ((⟨"a.txt", 1, ["h1"]⟩ : FileMetaData).Version < 2147483647 →
          new.Version = (⟨"a.txt", 1, ["h1"]⟩ : FileMetaData).Version + 1)) ∧
      ((⟨"a.txt", 1, ["h1"]⟩ : FileMetaData).Version < 2147483647 →
        (⟨"a.txt", 1, ["h1"]⟩ : FileMetaData).Version ≤ new.Version) :=
  ⟨by decide, by decide,
    version_monotonicity "addr" [⟨"a.txt", 1, ["h1"]⟩] ⟨"a.txt", 2, ["h2"]⟩ ⟨"a.txt", 1, ["h1"]⟩
      "a.txt" (by decide) (by decide)⟩

/-! ## C4: content-addressed integrity -/

/-- C4. For every block store and every non-nil block `b`, `PutBlock(b)` succeeds, and in the store
it leaves `GetBlock` at the digest of `b.BlockData` succeeds and returns the data and the size of
`b`. -/
theorem put_then_get (H : List UInt8 → String) (bs : BlockStore) (b : Block) :
    (bs.PutBlock H (some b)).err = none ∧
    (bs.PutBlock H (some b)).reply = { Flag := true } ∧
    ((bs.PutBlock H (some b)).store.GetBlock { Hash := H b.BlockData }).err = none ∧
    ((bs.PutBlock H (some b)).store.GetBlock { Hash := H b.BlockData }).reply.BlockData
      = b.BlockData ∧
    ((bs.PutBlock H (some b)).store.GetBlock { Hash := H b.BlockData }).reply.BlockSize
      = b.BlockSize := by
  simp [BlockStore.PutBlock, BlockStore.GetBlock, GoMap.get_set_same]

/-! ## C5: deduplication -/

theorem GoMap.set_set_same {V : Type} (m : GoMap V) (k : String) (v : V) :
    (m.set k v).set k v = m.set k v := by
  induction m with
  | nil => simp [GoMap.set]
  | cons hd tl ih =>
    obtain ⟨a, b⟩ := hd
    by_cases h : a = k
    · simp [GoMap.set, h]
    · simp [GoMap.set, h, ih]

theorem GoMap.keys_set {V : Type} (m : GoMap V) (k : String) (v : V) :
    (m.set k v).keys = if k ∈ m.keys then m.keys else m.keys ++ [k] := by
  induction m with
  | nil => simp [GoMap.set, GoMap.keys]
  | cons hd tl ih =>
    obtain ⟨a, b⟩ := hd
    simp only [GoMap.keys] at ih
    by_cases h : a = k
    · simp [GoMap.set, GoMap.keys, h]
    · have hk : ¬ k = a := fun e => h e.symm
      by_cases hmem : k ∈ tl.map Prod.fst
      · simp only [GoMap.set, GoMap.keys, h, if_false, List.map_cons, ih, hmem, if_true,
          List.mem_cons, or_true]
      · simp only [GoMap.set, GoMap.keys, h, if_false, List.map_cons, ih, hmem,
          List.mem_cons, hk, or_self, List.cons_append]

theorem GoMap.keys_set_nodup {V : Type} (m : GoMap V) (k : String) (v : V)
    (hm : m.keys.Nodup) : (m.set k v).keys.Nodup := by
  rw [GoMap.keys_set]
  split
  · exact hm
  · rename_i hk
    rw [List.nodup_append]
    exact ⟨hm, List.nodup_singleton k, by
      intro a ha hb
      simp only [List.mem_singleton] at hb
      subst hb
      exact hk ha⟩

theorem GoMap.keys_set_toFinset {V : Type} (m : GoMap V) (k : String) (v : V) :
    (m.set k v).keys.toFinset = insert k m.keys.toFinset := by
  rw [GoMap.keys_set]
  split
  · rename_i hk
    ext x
    simp only [List.mem_toFinset, Finset.mem_insert]
    constructor
    · exact fun h => Or.inr h
    · rintro (h | h)
      · subst h; exact hk
      · exact h
  · ext x
    simp only [List.toFinset_append, List.toFinset_cons, List.toFinset_nil, Finset.mem_union,
      List.mem_toFinset, Finset.mem_insert, Finset.mem_singleton]
    tauto

theorem BlockStore.run_keys (H : List UInt8 → String) (blocks : List Block) (bs : BlockStore)
    (hbs : bs.BlockMap.keys.Nodup) :
    (bs.run H (blocks.map some)).BlockMap.keys.Nodup ∧
    (bs.run H (blocks.map some)).BlockMap.keys.toFinset
      = bs.BlockMap.keys.toFinset ∪ (blocks.map (fun b => H b.BlockData)).toFinset := by
  induction blocks generalizing bs with
  | nil => simp [BlockStore.run, hbs]
  | cons b rest ih =>
    have hstep : (bs.PutBlock H (some b)).store.BlockMap.keys.Nodup := by
      simp only [BlockStore.PutBlock]
      exact GoMap.keys_set_nodup _ _ _ hbs
    have := ih (bs.PutBlock H (some b)).store hstep
    simp only [BlockStore.run, List.map_cons, List.foldl_cons] at this ⊢
    refine ⟨this.1, ?_⟩
    rw [this.2]
    simp only [BlockStore.PutBlock, GoMap.keys_set_toFinset, List.toFinset_cons]
    ext x
    simp only [Finset.mem_union, Finset.mem_insert, List.mem_toFinset]
    tauto

/-- C5. For every block store and block `b`, `PutBlock(b)` followed by `PutBlock(b)` succeeds both
times and leaves the store that the first call left; and after any sequence of `PutBlock` calls
with non-nil blocks from the empty store, the number of entries of the store is the number of
distinct digests of the blocks put. -/
theorem put_deduplicates (H : List UInt8 → String) (bs : BlockStore) (b : Block)
    (blocks : List Block) :
    ((bs.PutBlock H (some b)).err = none ∧ (bs.PutBlock H (some b)).reply = { Flag := true }) ∧
    (((bs.PutBlock H (some b)).store.PutBlock H (some b)).err = none ∧
      ((bs.PutBlock H (some b)).store.PutBlock H (some b)).reply = { Flag := true }) ∧
    ((bs.PutBlock H (some b)).store.PutBlock H (some b)).store = (bs.PutBlock H (some b)).store ∧
    (NewBlockStore.run H (blocks.map some)).BlockMap.length
      = (blocks.map (fun b => H b.BlockData)).dedup.length := by
  refine ⟨⟨rfl, rfl⟩, ⟨rfl, rfl⟩, ?_, ?_⟩
  · simp [BlockStore.PutBlock, GoMap.set_set_same]
  · have h := BlockStore.run_keys H blocks NewBlockStore (by simp [NewBlockStore, GoMap.keys])
    have hlen : (NewBlockStore.run H (blocks.map some)).BlockMap.length
        = (NewBlockStore.run H (blocks.map some)).BlockMap.keys.length := by
      simp [GoMap.keys]
    rw [hlen, ← List.toFinset_card_of_nodup h.1, h.2, ← List.card_toFinset]
    simp [NewBlockStore, GoMap.keys]

/-! ## C6: `GetBlock` in a store built by `PutBlock` -/

theorem PutBlock_noNil (H : List UInt8 → String) (bs : BlockStore) (b : Option Block)
    (hbs : bs.noNil) : (bs.PutBlock H b).store.noNil := by
  cases b with
  | none => exact hbs
  | some blk =>
    intro k
    simp only [BlockStore.PutBlock]
    by_cases hk : k = H blk.BlockData
    · subst hk; rw [GoMap.get_set_same]; simp
    · rw [GoMap.get_set_other _ _ _ _ hk]; exact hbs k

theorem BlockStore.run_noNil (H : List UInt8 → String) (blocks : List (Option Block))
    (bs : BlockStore) (hbs : bs.noNil) : (bs.run H blocks).noNil := by
  induction blocks generalizing bs with
  | nil => exact hbs
  | cons b rest ih => exact ih (bs.PutBlock H b).store (PutBlock_noNil H bs b hbs)

/-- C6. In every block store reached from `NewBlockStore` by `PutBlock` calls (nil requests among
them or not), and for every digest string: `GetBlock` fails with an error if and only if the digest
is not a key of the store; when it succeeds the reply holds the data and the size of the block
stored under the digest; and the store is left as it was in both cases. -/
theorem getBlock_reachable (H : List UInt8 → String) (calls : List (Option Block))
    (digest : String) :
    (((NewBlockStore.run H calls).GetBlock { Hash := digest }).err ≠ none ↔
        (NewBlockStore.run H calls).BlockMap.has digest = false) ∧
    (((NewBlockStore.run H calls).GetBlock { Hash := digest }).err = none →
        ∃ stored, (NewBlockStore.run H calls).BlockMap.get digest = some (some stored) ∧
          ((NewBlockStore.run H calls).GetBlock { Hash := digest }).reply.BlockData
            = stored.BlockData ∧
          ((NewBlockStore.run H calls).GetBlock { Hash := digest }).reply.BlockSize
            = stored.BlockSize) ∧
    ((NewBlockStore.run H calls).GetBlock { Hash := digest }).store
      = NewBlockStore.run H calls := by
  have hnil : (NewBlockStore.run H calls).noNil :=
    BlockStore.run_noNil H calls NewBlockStore (by
      intro k; simp [NewBlockStore, GoMap.get])
  generalize NewBlockStore.run H calls = bs at hnil ⊢
  have hk := hnil digest
  unfold BlockStore.GetBlock GoMap.has
  cases hget : bs.BlockMap.get digest with
  | none => simp
  | some v =>
    cases v with
    | none => exact absurd hget hk
    | some blk => simp

/-! ## C7: `HasBlocks` -/

theorem hasBlocksLoop_acc (bs : BlockStore) (hashesIn acc : List String) :
    hashesIn.foldl (fun out keyIn => if bs.BlockMap.has keyIn then out ++ [keyIn] else out) acc
      = acc ++ hashesIn.filter (fun k => bs.BlockMap.has k) := by
  induction hashesIn generalizing acc with
  | nil => simp
  | cons k rest ih =>
    by_cases hk : bs.BlockMap.has k = true
    · simp [List.foldl_cons, hk, ih, List.filter_cons]
    · simp [List.foldl_cons, hk, ih, List.filter_cons]

theorem hasBlocksLoop_eq_filter (bs : BlockStore) (hashesIn : List String) :
    bs.hasBlocksLoop hashesIn = hashesIn.filter (fun k => bs.BlockMap.has k) := by
  simp [BlockStore.hasBlocksLoop, hasBlocksLoop_acc]

theorem HasBlocks_of_none (bs : BlockStore) (input : List String)
    (h : input.filter (fun d => bs.BlockMap.has d) = []) :
    bs.HasBlocks { Hashes := input } =
      { store := bs, reply := none, err := some "no subset found" } := by
  simp [BlockStore.HasBlocks, hasBlocksLoop_eq_filter, h]

theorem HasBlocks_of_some (bs : BlockStore) (input : List String)
    (h : input.filter (fun d => bs.BlockMap.has d) ≠ []) :
    bs.HasBlocks { Hashes := input } =
      { store := bs, reply := some { Hashes := input.filter (fun d => bs.BlockMap.has d) },
        err := none } := by
  have hlen : ¬ (input.filter (fun d => bs.BlockMap.has d)).length = 0 := by
    rw [List.length_eq_zero]; exact h
  simp only [BlockStore.HasBlocks, hasBlocksLoop_eq_filter, if_neg hlen]

/-- C7. For every block store and every input list of digests, `HasBlocks` returns an error (and a
nil reply) exactly when no input digest is a key of the store; otherwise it returns, without error,
the input list filtered to the digests that are keys of the store, so that a digest is returned if
and only if it is in the input and in the store; and the store is left as it was. -/
theorem hasBlocks_subset (bs : BlockStore) (input : List String) :
    ((bs.HasBlocks { Hashes := input }).err ≠ none ↔
        ∀ d ∈ input, bs.BlockMap.has d = false) ∧
    ((bs.HasBlocks { Hashes := input }).err ≠ none →
        (bs.HasBlocks { Hashes := input }).reply = none) ∧
    ((bs.HasBlocks { Hashes := input }).err = none →
        (bs.HasBlocks { Hashes := input }).reply
          = some { Hashes := input.filter (fun d => bs.BlockMap.has d) } ∧
        ∀ d, d ∈ input.filter (fun d => bs.BlockMap.has d) ↔
          (d ∈ input ∧ bs.BlockMap.has d = true)) ∧
    (bs.HasBlocks { Hashes := input }).store = bs := by
  by_cases hnil : input.filter (fun d => bs.BlockMap.has d) = []
  · have hall : ∀ d ∈ input, bs.BlockMap.has d = false := by
      intro d hd
      rw [List.filter_eq_nil_iff] at hnil
      simpa using hnil d hd
    rw [HasBlocks_of_none bs input hnil]
    exact ⟨⟨fun _ => hall, fun _ => by simp⟩, fun _ => rfl, fun h => by simp at h, rfl⟩
  · rw [HasBlocks_of_some bs input hnil]
    refine ⟨⟨fun h => absurd rfl h, fun hall => ?_⟩, fun h => absurd rfl h, fun _ => ⟨rfl, ?_⟩, rfl⟩
    · exfalso
      apply hnil
      rw [List.filter_eq_nil_iff]
      intro d hd
      simp [hall d hd]
    · intro d
      simp [List.mem_filter]

/-! ## C8: what `PutBlock` rejects -/

/-- C8, as stated, fails for the empty request: `PutBlock` of a non-nil block with zero-length data
into the empty store returns `Flag` true with no error and adds the block to the store, under the
digest of the empty byte string. -/
theorem putBlock_empty_counterexample :
    (NewBlockStore.PutBlock (fun _ => emptyDigest) (some ⟨[], 0⟩)).reply = { Flag := true } ∧
    (NewBlockStore.PutBlock (fun _ => emptyDigest) (some ⟨[], 0⟩)).err = none ∧
    (NewBlockStore.PutBlock (fun _ => emptyDigest) (some ⟨[], 0⟩)).store
      = { BlockMap := [(emptyDigest, some ⟨[], 0⟩)] } ∧
    (NewBlockStore.PutBlock (fun _ => emptyDigest) (some ⟨[], 0⟩)).store ≠ NewBlockStore := by
  decide

/-- C8, amended. `PutBlock` rejects a null request: it returns `Flag` false with an error and
leaves the block store as it was. Every non-nil request, a block with zero-length data included, is
accepted: `Flag` true, no error, and the block is stored under the digest of its data. -/
theorem putBlock_rejects_nil (H : List UInt8 → String) (bs : BlockStore) (b : Block) :
    ((bs.PutBlock H none).reply = { Flag := false } ∧
      (bs.PutBlock H none).err ≠ none ∧
      (bs.PutBlock H none).store = bs) ∧
    ((bs.PutBlock H (some b)).reply = { Flag := true } ∧
      (bs.PutBlock H (some b)).err = none ∧
      (bs.PutBlock H (some b)).store.BlockMap.get (H b.BlockData) = some (some b)) := by
  refine ⟨⟨rfl, by simp [BlockStore.PutBlock], rfl⟩, rfl, rfl, ?_⟩
  simp [BlockStore.PutBlock, GoMap.get_set_same]

/-! ## Phase B: the helpers of `LocalSyncDB` -/

theorem CompareSlices_iff (slice1 slice2 : List String) :
    CompareSlices slice1 slice2 = true ↔ slice1 = slice2 := by
  unfold CompareSlices
  by_cases hlen : slice1.length = slice2.length
  · simp only [ne_eq, hlen, not_true_eq_false, if_false, List.all_eq_true, decide_eq_true_eq,
      List.get?_eq_getElem?]
    constructor
    · intro h
      apply List.ext_getElem?
      intro n
      by_cases hn : n < slice1.length
      · have h1 : slice1[n]? = some slice1[n] := List.getElem?_eq_getElem hn
        have := h (n, slice1[n]) (List.mem_enum_iff_getElem?.mpr h1)
        rw [h1]; exact this.symm
      · have h1 : slice1[n]? = none := List.getElem?_eq_none (by omega)
        have h2 : slice2[n]? = none := List.getElem?_eq_none (by omega)
        rw [h1, h2]
    · rintro rfl x hx
      exact List.mem_enum_iff_getElem?.mp hx
  · simp only [ne_eq, hlen, not_false_eq_true, if_true]
    constructor
    · intro h; exact absurd h (by simp)
    · intro h; exact absurd (congrArg List.length h) hlen

theorem isTombstone_iff (l : List String) :
    (l.length = 1 ∧ l.get? 0 = some "0") ↔ l = ["0"] := by
  constructor
  · rintro ⟨hlen, h0⟩
    match l, hlen, h0 with
    | [x], _, h0 =>
      simp only [List.get?_cons_zero, Option.some.injEq] at h0
      rw [h0]
  · rintro rfl
    exact ⟨rfl, rfl⟩

theorem Reader.Read_decreases (b b2 : Reader) (n : Nat) (d : List UInt8) (hn : 0 < n)
    (h : b.Read n = (some d, b2)) :
    b2.buf.length + b2.rd.length < b.buf.length + b.rd.length := by
  unfold Reader.Read at h
  have hn0 : ¬ n = 0 := by omega
  simp only [hn0, if_false] at h
  by_cases hbuf : b.buf = []
  · simp only [hbuf, if_true] at h
    by_cases hrd : b.rd = []
    · simp [hrd] at h
    · have hpos : 0 < b.rd.length := List.length_pos.mpr hrd
      simp only [hrd, if_false] at h
      by_cases hbig : defaultBufSize ≤ n
      · simp only [hbig, if_true, Prod.mk.injEq] at h
        obtain ⟨-, rfl⟩ := h
        simp only [hbuf, List.length_nil, List.length_drop]
        omega
      · simp only [hbig, if_false, Prod.mk.injEq] at h
        obtain ⟨-, rfl⟩ := h
        simp only [hbuf, List.length_nil, List.length_drop, List.length_take]
        unfold defaultBufSize at hbig ⊢
        omega
  · have hpos : 0 < b.buf.length := List.length_pos.mpr hbuf
    simp only [hbuf, if_false, Prod.mk.injEq] at h
    obtain ⟨-, rfl⟩ := h
    simp only [List.length_drop]
    omega

theorem DivideBlocks.loop_returns (blockSize : Nat) (hbs : 0 < blockSize) (fuel : Nat) :
    ∀ (br : Reader) (blocksList : List Block), br.buf.length + br.rd.length < fuel →
      ∃ out, DivideBlocks.loop blockSize fuel br blocksList = some out := by
  induction fuel with
  | zero => intro br _ h; omega
  | succ fuel ih =>
    intro br blocksList h
    unfold DivideBlocks.loop
    cases hread : br.Read blockSize with
    | mk data br2 =>
      cases data with
      | none => exact ⟨blocksList, rfl⟩
      | some d =>
        have := Reader.Read_decreases br br2 blockSize d hbs hread
        exact ih br2 _ (by omega)

/-- With a positive block size `DivideBlocks` returns. -/
theorem DivideBlocks_returns (f : List UInt8) (blockSize : Nat) (hbs : 0 < blockSize) :
    ∃ out, DivideBlocks f blockSize = some out :=
  DivideBlocks.loop_returns blockSize hbs (f.length + 1) { buf := [], rd := f } [] (by simp)

/-- With block size 0 the loop of `DivideBlocks` meets no `io.EOF`, however many reads it gets. -/
theorem DivideBlocks_zero (fuel : Nat) (br : Reader) (blocksList : List Block) :
    DivideBlocks.loop 0 fuel br blocksList = none := by
  induction fuel generalizing br blocksList with
  | zero => rfl
  | succ fuel ih =>
    unfold DivideBlocks.loop
    simp only [Reader.Read, if_true]
    exact ih _ _

/-! ## Phase B: keyed maps -/

theorem GoMap.get_of_mem {V : Type} (m : GoMap V) (k : String) (v : V) (h : (k, v) ∈ m) :
    ∃ e, m.get k = some e := by
  induction m with
  | nil => exact absurd h (List.not_mem_nil _)
  | cons hd tl ih =>
    obtain ⟨a, b⟩ := hd
    by_cases hk : a = k
    · exact ⟨b, by simp [GoMap.get, hk]⟩
    · have htl : (k, v) ∈ tl := by
        rcases List.mem_cons.mp h with h1 | h1
        · exact absurd (congrArg Prod.fst h1).symm hk
        · exact h1
      obtain ⟨e, he⟩ := ih htl
      exact ⟨e, by simp [GoMap.get, hk, he]⟩

theorem GoMap.mem_of_get {V : Type} (m : GoMap V) (k : String) (v : V) (h : m.get k = some v) :
    (k, v) ∈ m := by
  induction m with
  | nil => simp [GoMap.get] at h
  | cons hd tl ih =>
    obtain ⟨a, b⟩ := hd
    by_cases hk : a = k
    · simp only [GoMap.get, hk, if_true, Option.some.injEq] at h
      subst h; subst hk
      exact List.mem_cons_self _ _
    · simp only [GoMap.get, hk, if_false] at h
      exact List.mem_cons_of_mem _ (ih h)

theorem keyed_get (m : GoMap FileMetaData) (hm : keyed m) (f : String) (e : FileMetaData)
    (h : m.get f = some e) : e.Filename = f :=
  (hm (f, e) (GoMap.mem_of_get m f e h)).symm

theorem keyed_tail (kv : String × FileMetaData) (m : GoMap FileMetaData) (hm : keyed (kv :: m)) :
    keyed m := fun x hx => hm x (List.mem_cons_of_mem _ hx)

theorem keyed_set (m : GoMap FileMetaData) (hm : keyed m) (e : FileMetaData) :
    keyed (m.set e.Filename e) := by
  induction m with
  | nil =>
    intro kv hkv
    simp only [GoMap.set, List.mem_singleton] at hkv
    subst hkv; rfl
  | cons hd tl ih =>
    obtain ⟨a, b⟩ := hd
    have htl := ih (keyed_tail _ _ hm)
    intro kv hkv
    by_cases hk : a = e.Filename
    · simp only [GoMap.set, hk, if_true, List.mem_cons] at hkv
      rcases hkv with h1 | h1
      · subst h1; rfl
      · exact hm kv (List.mem_cons_of_mem _ h1)
    · simp only [GoMap.set, hk, if_false, List.mem_cons] at hkv
      rcases hkv with h1 | h1
      · subst h1; exact hm (a, b) (List.mem_cons_self _ _)
      · exact htl kv h1

theorem keyed_find (m : GoMap FileMetaData) (hm : keyed m) (f : String) (e : FileMetaData)
    (h : m.get f = some e) :
    ∃ k, m.find? (fun kv => decide (kv.2.Filename = f)) = some (k, e) := by
  induction m with
  | nil => simp [GoMap.get] at h
  | cons hd tl ih =>
    obtain ⟨a, b⟩ := hd
    have hab : a = b.Filename := hm (a, b) (List.mem_cons_self _ _)
    by_cases hk : a = f
    · simp only [GoMap.get, hk, if_true, Option.some.injEq] at h
      subst h
      have hb : b.Filename = f := by rw [← hab]; exact hk
      exact ⟨a, by simp [List.find?, hb]⟩
    · simp only [GoMap.get, hk, if_false] at h
      have hb : ¬ b.Filename = f := by rw [← hab]; exact hk
      obtain ⟨k, hk2⟩ := ih (keyed_tail _ _ hm) h
      exact ⟨k, by simp [List.find?, hb, hk2]⟩

/-! ## Phase B: the first loop -/

theorem scanStep_eq (H : List UInt8 → String) (blockSize : Nat) (hbs : 0 < blockSize)
    (metaMapDB metaMapLocal : GoMap FileMetaData) (fi : FileInfo) :
    LocalSyncDB.scanStep H blockSize metaMapDB metaMapLocal fi =
      some (if CheckValidFile fi = true then
        metaMapLocal.set fi.Name
          (specScannedEntry metaMapDB fi.Name (localHashes H blockSize fi.Data))
        else metaMapLocal) := by
  obtain ⟨out, hout⟩ := DivideBlocks_returns fi.Data blockSize hbs
  unfold LocalSyncDB.scanStep localHashes specScannedEntry
  by_cases hv : CheckValidFile fi = true
  · simp only [hv, if_true, hout]
    cases hget : metaMapDB.get fi.Name with
    | none => rfl
    | some e =>
      by_cases heq : e.BlockHashList = (GenerateBlockHashList H out).1
      · have hc : CompareSlices e.BlockHashList (GenerateBlockHashList H out).1 = true :=
          (CompareSlices_iff _ _).mpr heq
        dsimp only
        rw [hc]
        simp [heq]
      · have hc : CompareSlices e.BlockHashList (GenerateBlockHashList H out).1 = false := by
          cases hcs : CompareSlices e.BlockHashList (GenerateBlockHashList H out).1 with
          | false => rfl
          | true => exact absurd ((CompareSlices_iff _ _).mp hcs) heq
        dsimp only
        rw [hc]
        simp [heq]
  · simp [hv]

theorem scan_spec (H : List UInt8 → String) (blockSize : Nat) (hbs : 0 < blockSize)
    (metaMapDB : GoMap FileMetaData) (files : List FileInfo) :
    ∀ acc : GoMap FileMetaData, ∃ res,
      LocalSyncDB.scan H blockSize metaMapDB files acc = some res ∧
      (∀ f, (∀ fi ∈ files, CheckValidFile fi = true → fi.Name ≠ f) → res.get f = acc.get f) ∧
      ((files.map (fun fi => fi.Name)).Nodup → ∀ fi ∈ files, CheckValidFile fi = true →
        res.get fi.Name =
          some (specScannedEntry metaMapDB fi.Name (localHashes H blockSize fi.Data))) ∧
      (keyed acc → keyed res) := by
  induction files with
  | nil => intro acc; exact ⟨acc, rfl, fun _ _ => rfl, fun _ fi hfi => absurd hfi (List.not_mem_nil _), id⟩
  | cons hd tl ih =>
    intro acc
    obtain ⟨res, hres, hother, hscanned, hkeyed⟩ :=
      ih (if CheckValidFile hd = true then
        acc.set hd.Name (specScannedEntry metaMapDB hd.Name (localHashes H blockSize hd.Data))
        else acc)
    refine ⟨res, ?_, ?_, ?_, ?_⟩
    · simp only [LocalSyncDB.scan, scanStep_eq H blockSize hbs]
      exact hres
    · intro f hf
      rw [hother f (fun fi hfi => hf fi (List.mem_cons_of_mem _ hfi))]
      by_cases hv : CheckValidFile hd = true
      · have hne : f ≠ hd.Name := fun h => hf hd (List.mem_cons_self _ _) hv h.symm
        simp only [hv, if_true]
        exact GoMap.get_set_other _ _ _ _ hne
      · simp [hv]
    · intro hnodup fi hfi hvalid
      simp only [List.map_cons, List.nodup_cons] at hnodup
      rcases List.mem_cons.mp hfi with h1 | h1
      · subst h1
        rw [hother fi.Name (fun fj hfj _ hname =>
          hnodup.1 (List.mem_map.mpr ⟨fj, hfj, hname⟩))]
        simp only [hvalid, if_true]
        exact GoMap.get_set_same _ _ _
      · exact hscanned hnodup.2 fi h1 hvalid
    · intro hacc
      apply hkeyed
      by_cases hv : CheckValidFile hd = true
      · simp only [hv, if_true]
        exact keyed_set acc hacc
          (specScannedEntry metaMapDB hd.Name (localHashes H blockSize hd.Data))
      · simpa [hv] using hacc

/-! ## Phase B: the second loop -/

theorem deletedStep_eq (metaMapDB metaMapLocal : GoMap FileMetaData) (m e : FileMetaData)
    (he : metaMapDB.get m.Filename = some e) :
    LocalSyncDB.deletedStep metaMapDB metaMapLocal m =
      some (if metaMapLocal.has m.Filename = true then metaMapLocal
        else metaMapLocal.set m.Filename
          { Filename := m.Filename,
            Version := if e.BlockHashList = ["0"] then m.Version else add32 m.Version 1,
            BlockHashList := ["0"] }) := by
  unfold LocalSyncDB.deletedStep
  by_cases hhas : metaMapLocal.has m.Filename = true
  · simp [hhas]
  · simp only [hhas, he, isTombstone_iff]
    simp

theorem deleted_spec (metaMapDB : GoMap FileMetaData) (entries : List (String × FileMetaData))
    (hall : ∀ kv ∈ entries, ∃ e, metaMapDB.get kv.2.Filename = some e) :
    ∀ acc : GoMap FileMetaData, ∃ res,
      LocalSyncDB.deleted metaMapDB entries acc = some res ∧
      (∀ f x, acc.get f = some x → res.get f = some x) ∧
      (∀ f, acc.get f = none → ∀ kv, entries.find? (fun kv => decide (kv.2.Filename = f)) = some kv →
        ∀ e, metaMapDB.get f = some e →
          res.get f = some
            { Filename := f,
              Version := if e.BlockHashList = ["0"] then kv.2.Version else add32 kv.2.Version 1,
              BlockHashList := ["0"] }) ∧
      (keyed acc → keyed res) := by
  induction entries with
  | nil =>
    intro acc
    exact ⟨acc, rfl, fun _ _ h => h, fun _ _ kv hkv => by simp at hkv, id⟩
  | cons hd tl ih =>
    intro acc
    obtain ⟨k, m⟩ := hd
    obtain ⟨e0, he0⟩ := hall (k, m) (List.mem_cons_self _ _)
    have htl : ∀ kv ∈ tl, ∃ e, metaMapDB.get kv.2.Filename = some e :=
      fun kv hkv => hall kv (List.mem_cons_of_mem _ hkv)
    have hstep := deletedStep_eq metaMapDB acc m e0 he0
    by_cases hhas : acc.has m.Filename = true
    · -- the file is already in the result: the step changes nothing
      simp only [hhas, if_true] at hstep
      obtain ⟨res, hres, hA, hB, hK⟩ := ih htl acc
      refine ⟨res, ?_, hA, ?_, hK⟩
      · simp only [LocalSyncDB.deleted, hstep]; exact hres
      · intro f hf kv hkv e he
        have hne : ¬ m.Filename = f := by
          intro h
          rw [h] at hhas
          simp [GoMap.has, hf] at hhas
        simp only [List.find?, hne, decide_False] at hkv
        exact hB f hf kv hkv e he
    · simp only [hhas, if_false] at hstep
      have hnone : acc.get m.Filename = none := by
        cases hg : acc.get m.Filename with
        | none => rfl
        | some x => simp [GoMap.has, hg] at hhas
      obtain ⟨res, hres, hA, hB, hK⟩ := ih htl (acc.set m.Filename
        { Filename := m.Filename,
          Version := if e0.BlockHashList = ["0"] then m.Version else add32 m.Version 1,
          BlockHashList := ["0"] })
      refine ⟨res, ?_, ?_, ?_, ?_⟩
      · simp only [LocalSyncDB.deleted, hstep]; exact hres
      · intro f x hf
        apply hA
        have hne : f ≠ m.Filename := by
          intro h; rw [h, hnone] at hf; simp at hf
        rw [GoMap.get_set_other _ _ _ _ hne]; exact hf
      · intro f hf kv hkv e he
        by_cases hmf : m.Filename = f
        · simp only [List.find?, hmf, decide_True, Option.some.injEq] at hkv
          subst hkv
          subst hmf
          rw [he0] at he
          simp only [Option.some.injEq] at he
          subst he
          exact hA _ _ (GoMap.get_set_same _ _ _)
        · simp only [List.find?, hmf, decide_False] at hkv
          apply hB f _ kv hkv e he
          rw [GoMap.get_set_other _ _ _ _ (fun h => hmf h.symm)]; exact hf
      · intro hacc
        apply hK
        exact keyed_set acc hacc
          { Filename := m.Filename,
            Version := if e0.BlockHashList = ["0"] then m.Version else add32 m.Version 1,
            BlockHashList := ["0"] }

/-- What `LocalSyncDB` returns, from the two loops: the call returns a map when the block size is
positive and the index is keyed by filename; the map holds the scanned entry for every valid file
of a listing with distinct names, the tombstone entry for every indexed file missing from the
scan, and it is keyed by filename. -/
theorem LocalSyncDB_spec (H : List UInt8 → String) (blockSize : Nat) (hbs : 0 < blockSize)
    (files : List FileInfo) (metaMapDB : GoMap FileMetaData) (hkey : keyed metaMapDB) :
    ∃ res, LocalSyncDB H blockSize files metaMapDB = some res ∧
      ((files.map (fun fi => fi.Name)).Nodup → ∀ fi ∈ files, CheckValidFile fi = true →
        res.get fi.Name =
          some (specScannedEntry metaMapDB fi.Name (localHashes H blockSize fi.Data))) ∧
      (∀ f e, metaMapDB.get f = some e →
        (∀ fi ∈ files, CheckValidFile fi = true → fi.Name ≠ f) →
        res.get f = some (specDeletedEntry f e)) ∧
      keyed res := by
  obtain ⟨mid, hmid, hother, hscanned, hkmid⟩ := scan_spec H blockSize hbs metaMapDB files []
  have hall : ∀ kv ∈ metaMapDB, ∃ e, metaMapDB.get kv.2.Filename = some e := by
    intro kv hkv
    have := hkey kv hkv
    rw [← this]
    exact GoMap.get_of_mem metaMapDB kv.1 kv.2 hkv
  obtain ⟨res, hres, hA, hB, hK⟩ := deleted_spec metaMapDB metaMapDB hall mid
  refine ⟨res, ?_, ?_, ?_, ?_⟩
  · simp only [LocalSyncDB, hmid]; exact hres
  · intro hnodup fi hfi hvalid
    exact hA _ _ (hscanned hnodup fi hfi hvalid)
  · intro f e he hmiss
    have hnone : mid.get f = none := by rw [hother f hmiss]; rfl
    obtain ⟨k, hk⟩ := keyed_find metaMapDB hkey f e he
    exact hB f hnone (k, e) hk e he
  · exact hK (hkmid (fun kv hkv => absurd hkv (List.not_mem_nil _)))

/-! ## C9, C10: the result of Phase B -/

/-- C9. For a listing of the base directory with distinct names, a positive block size and an index
keyed by filename, `LocalSyncDB` returns a map, and the map holds for each scanned file `f` (a
valid entry of the listing) the entry `(f, v, localHashes[f])`, where `v` is the indexed version
if `f` is in the index with a hash list equal to `localHashes[f]`, the indexed version + 1 (the
`int32` sum the code computes) if `f` is in the index with another hash list, and 1 if `f` is not
in the index. -/
theorem localSync_scanned (H : List UInt8 → String) (blockSize : Nat) (files : List FileInfo)
    (indexMap : GoMap FileMetaData) (fi : FileInfo) (hbs : 0 < blockSize)
    (hkey : keyed indexMap) (hnames : (files.map (fun x => x.Name)).Nodup) (hfi : fi ∈ files)
    (hvalid : CheckValidFile fi = true) :
    ∃ res, LocalSyncDB H blockSize files indexMap = some res ∧
      res.get fi.Name = some
        { Filename := fi.Name,
          Version :=
            match indexMap.get fi.Name with
            | some indexed =>
              if indexed.BlockHashList = localHashes H blockSize fi.Data then indexed.Version
              else add32 indexed.Version 1
            | none => 1,
          BlockHashList := localHashes H blockSize fi.Data } := by
  obtain ⟨res, hres, hscanned, -, -⟩ := LocalSyncDB_spec H blockSize hbs files indexMap hkey
  exact ⟨res, hres, hscanned hnames fi hfi hvalid⟩

/-- C9 at a directory holding `a.txt` (3 bytes, block size 2), a directory `d` and `index.db`, and
an index that records `a.txt` at version 3 with another hash list: the result has `a.txt` at
version 4 with the local hash list. -/
theorem localSync_scanned_witness :
    (0 < 2) ∧ keyed [("a.txt", ⟨"a.txt", 3, ["h2"]⟩)] ∧
    (([⟨"a.txt", false, [1, 2, 3]⟩, ⟨"d", true, []⟩, ⟨"index.db", false, [7]⟩] :
      List FileInfo).map (fun x => x.Name)).Nodup ∧
    CheckValidFile ⟨"a.txt", false, [1, 2, 3]⟩ = true ∧
    localHashes exampleHash 2 [1, 2, 3] = ["h2", "h1"] ∧
    ∃ res, LocalSyncDB exampleHash 2
        [⟨"a.txt", false, [1, 2, 3]⟩, ⟨"d", true, []⟩, ⟨"index.db", false, [7]⟩]
        [("a.txt", ⟨"a.txt", 3, ["h2"]⟩)] = some res ∧
      res.get "a.txt" = some
        { Filename := "a.txt",
          Version :=
            match GoMap.get [("a.txt", (⟨"a.txt", 3, ["h2"]⟩ : FileMetaData))] "a.txt" with
            | some indexed =>
              if indexed.BlockHashList = localHashes exampleHash 2 [1, 2, 3] then indexed.Version
              else add32 indexed.Version 1
            | none => 1,
          BlockHashList := localHashes exampleHash 2 [1, 2, 3] } :=
  ⟨by decide, by decide, by decide, by decide, by decide,
    localSync_scanned exampleHash 2
      [⟨"a.txt", false, [1, 2, 3]⟩, ⟨"d", true, []⟩, ⟨"index.db", false, [7]⟩]
      [("a.txt", ⟨"a.txt", 3, ["h2"]⟩)] ⟨"a.txt", false, [1, 2, 3]⟩
      (by decide) (by decide) (by decide) (by decide) (by decide)⟩

/-- C10. For a positive block size and an index keyed by filename, and for every index entry whose
filename is missing from the scan, `LocalSyncDB` returns a map that holds for that filename the
tombstone hash list `["0"]`, at the indexed version when the indexed hash list is already exactly
`["0"]` and at the indexed version + 1 (the `int32` sum the code computes) otherwise. Hence an
index that already records the tombstone gets the same entry back, and running `LocalSyncDB`
again with the returned map as the index returns the same entry for that filename. -/
theorem localSync_deleted (H : List UInt8 → String) (blockSize : Nat) (files : List FileInfo)
    (indexMap : GoMap FileMetaData) (f : String) (indexed : FileMetaData) (hbs : 0 < blockSize)
    (hkey : keyed indexMap) (hidx : indexMap.get f = some indexed)
    (hmiss : ∀ fi ∈ files, CheckValidFile fi = true → fi.Name ≠ f) :
    ∃ res, LocalSyncDB H blockSize files indexMap = some res ∧
      res.get f = some
        { Filename := f,
          Version := if indexed.BlockHashList = ["0"] then indexed.Version
                     else add32 indexed.Version 1,
          BlockHashList := ["0"] } ∧
      (indexed.BlockHashList = ["0"] → res.get f = some indexed) ∧
      ∃ again, LocalSyncDB H blockSize files res = some again ∧ again.get f = res.get f := by
  obtain ⟨res, hres, -, hdel, hkres⟩ := LocalSyncDB_spec H blockSize hbs files indexMap hkey
  have hf := hdel f indexed hidx hmiss
  have hname : indexed.Filename = f := keyed_get indexMap hkey f indexed hidx
  obtain ⟨again, hagain, -, hdel2, -⟩ := LocalSyncDB_spec H blockSize hbs files res hkres
  have hf2 := hdel2 f _ hf hmiss
  refine ⟨res, hres, hf, ?_, again, hagain, ?_⟩
  · intro htomb
    rw [hf]
    obtain ⟨n, v, l⟩ := indexed
    simp only at hname htomb
    subst hname; subst htomb
    simp [specDeletedEntry]
  · rw [hf2, hf]
    simp [specDeletedEntry]

/-- C10 at a directory holding only `index.db` and an index that records `a.txt` live at version
3 and `b.txt` deleted at version 5, for `b.txt`: the result has the tombstone of `b.txt` at
version 5 again. -/
theorem localSync_deleted_witness :
    (0 < 2) ∧
    keyed [("a.txt", ⟨"a.txt", 3, ["h2"]⟩), ("b.txt", ⟨"b.txt", 5, ["0"]⟩)] ∧
    GoMap.get [("a.txt", (⟨"a.txt", 3, ["h2"]⟩ : FileMetaData)), ("b.txt", ⟨"b.txt", 5, ["0"]⟩)]
      "b.txt" = some ⟨"b.txt", 5, ["0"]⟩ ∧
    (∀ fi ∈ ([⟨"index.db", false, [7]⟩] : List FileInfo),
      CheckValidFile fi = true → fi.Name ≠ "b.txt") ∧
    ∃ res, LocalSyncDB exampleHash 2 [⟨"index.db", false, [7]⟩]
        [("a.txt", ⟨"a.txt", 3, ["h2"]⟩), ("b.txt", ⟨"b.txt", 5, ["0"]⟩)] = some res ∧
      res.get "b.txt" = some
        { Filename := "b.txt",
          Version := if (⟨"b.txt", 5, ["0"]⟩ : FileMetaData).BlockHashList = ["0"]
                     then (⟨"b.txt", 5, ["0"]⟩ : FileMetaData).Version
                     else add32 (⟨"b.txt", 5, ["0"]⟩ : FileMetaData).Version 1,
          BlockHashList := ["0"] } ∧
      ((⟨"b.txt", 5, ["0"]⟩ : FileMetaData).BlockHashList = ["0"] →
        res.get "b.txt" = some ⟨"b.txt", 5, ["0"]⟩) ∧
      ∃ again, LocalSyncDB exampleHash 2 [⟨"index.db", false, [7]⟩] res = some again ∧
        again.get "b.txt" = res.get "b.txt" :=
  ⟨by decide, by decide, by decide, by decide,
    localSync_deleted exampleHash 2 [⟨"index.db", false, [7]⟩]
      [("a.txt", ⟨"a.txt", 3, ["h2"]⟩), ("b.txt", ⟨"b.txt", 5, ["0"]⟩)] "b.txt"
      ⟨"b.txt", 5, ["0"]⟩ (by decide) (by decide) (by decide) (by decide)⟩

/-! ## C19: the metadata map is keyed by filename -/

theorem UpdateFile_keyed (m : MetaStore) (p : FileMetaData) (hm : keyed m.FileMetaMap) :
    keyed (m.UpdateFile p).store.FileMetaMap := by
  cases hget : m.FileMetaMap.get p.Filename with
  | none =>
    rw [UpdateFile_absent m p hget]
    exact keyed_set _ hm p
  | some cur =>
    by_cases hv : p.Version = add32 cur.Version 1
    · rw [UpdateFile_next m p cur hget hv]
      exact keyed_set _ hm p
    · rw [UpdateFile_stale m p cur hget hv]
      exact hm

theorem run_keyed (calls : List FileMetaData) (m : MetaStore) (hm : keyed m.FileMetaMap) :
    keyed (m.run calls).FileMetaMap := by
  induction calls generalizing m with
  | nil => exact hm
  | cons c rest ih => exact ih (m.UpdateFile c).store (UpdateFile_keyed m c hm)

/-- C19. In every state reached from `NewMetaStore` by `UpdateFile` calls, each key `k` of the
metadata map maps to an entry whose `Filename` is `k`: a lookup under a filename finds only an
entry of that filename, which is what `ServerSync` relies on when it looks entries up by their
`Filename`. -/
theorem metaStore_keyed (addr : String) (calls : List FileMetaData) :
    keyed ((NewMetaStore addr).run calls).FileMetaMap ∧
    ∀ k e, ((NewMetaStore addr).run calls).FileMetaMap.get k = some e → e.Filename = k := by
  have h : keyed ((NewMetaStore addr).run calls).FileMetaMap :=
    run_keyed calls (NewMetaStore addr) (fun kv hkv => absurd hkv (List.not_mem_nil _))
  exact ⟨h, fun k e hke => keyed_get _ h k e hke⟩

/-! ## C15: the blocks of `DivideBlocks` -/

theorem Reader.Read_fill (rd : List UInt8) (n : Nat) (hn : n ≠ 0) (hrd : rd ≠ [])
    (hsmall : n < defaultBufSize) :
    Reader.Read { buf := [], rd := rd } n =
      (some ((rd.take defaultBufSize).take n),
        { buf := (rd.take defaultBufSize).drop n, rd := rd.drop defaultBufSize }) := by
  have h : ¬ defaultBufSize ≤ n := by omega
  simp only [Reader.Read, hn, hrd, h, if_false, if_true]

theorem Reader.Read_buffered (buf rd : List UInt8) (n : Nat) (hn : n ≠ 0) (hbuf : buf ≠ []) :
    Reader.Read { buf := buf, rd := rd } n =
      (some (buf.take n), { buf := buf.drop n, rd := rd }) := by
  simp only [Reader.Read, hn, hbuf, if_false]

theorem Reader.Read_eof (n : Nat) (hn : n ≠ 0) :
    Reader.Read { buf := [], rd := [] } n = (none, { buf := [], rd := [] }) := by
  simp only [Reader.Read, hn, if_false, if_true]

theorem DivideBlocks.loop_succ (blockSize fuel : Nat) (br : Reader) (acc : List Block) :
    DivideBlocks.loop blockSize (fuel + 1) br acc =
      match br.Read blockSize with
      | (none, _) => some acc
      | (some blockBuffer, br2) =>
        DivideBlocks.loop blockSize fuel br2
          (acc ++ [{ BlockData := blockBuffer, BlockSize := wrap32 blockBuffer.length }]) := by
  rw [DivideBlocks.loop]

/-- A file of 4097 bytes at block size 4095: the reader fills its buffer with 4096 bytes, hands
out 4095 of them, then the one byte left in the buffer, then the last byte of the file. -/
theorem DivideBlocks_short_read (f : List UInt8) (hlen : f.length = 4097) :
    DivideBlocks f 4095 =
      some [⟨f.take 4095, 4095⟩, ⟨(f.drop 4095).take 1, 1⟩, ⟨f.drop 4096, 1⟩] := by
  have hf : f ≠ [] := by intro h; rw [h] at hlen; simp at hlen
  have l1 : ((f.take 4096).drop 4095).length = 1 := by
    simp only [List.length_drop, List.length_take, hlen]; rfl
  have l2 : (f.drop 4096).length = 1 := by simp only [List.length_drop, hlen]
  have l3 : ((f.take 4096).take 4095).length = 4095 := by
    simp only [List.length_take, hlen]; rfl
  have e1 : ((f.take 4096).drop 4095) ≠ [] := by
    intro h; rw [h] at l1; simp at l1
  have e2 : (f.drop 4096) ≠ [] := by
    intro h; rw [h] at l2; simp at l2
  have t1 : ((f.take 4096).drop 4095).take 4095 = (f.take 4096).drop 4095 :=
    List.take_of_length_le (by rw [l1]; decide)
  have d1 : ((f.take 4096).drop 4095).drop 4095 = [] :=
    List.drop_of_length_le (by rw [l1]; decide)
  have t2 : (f.drop 4096).take 4096 = f.drop 4096 :=
    List.take_of_length_le (by rw [l2]; decide)
  have d2 : (f.drop 4096).drop 4096 = [] :=
    List.drop_of_length_le (by rw [l2]; decide)
  have t3 : (f.drop 4096).take 4095 = f.drop 4096 :=
    List.take_of_length_le (by rw [l2]; decide)
  have d3 : (f.drop 4096).drop 4095 = [] :=
    List.drop_of_length_le (by rw [l2]; decide)
  have w1 : wrap32 (4095 : Nat) = 4095 := by decide
  have w2 : wrap32 (1 : Nat) = 1 := by decide
  unfold DivideBlocks
  rw [hlen, show (4097 + 1 : Nat) = 4094 + 1 + 1 + 1 + 1 from rfl]
  rw [DivideBlocks.loop_succ, Reader.Read_fill f 4095 (by decide) hf (by decide)]
  simp only [defaultBufSize]
  rw [DivideBlocks.loop_succ, Reader.Read_buffered _ _ 4095 (by decide) e1]
  simp only [t1, d1]
  rw [DivideBlocks.loop_succ, Reader.Read_fill _ 4095 (by decide) e2 (by decide)]
  simp only [defaultBufSize, t2, d2, t3, d3]
  rw [DivideBlocks.loop_succ, Reader.Read_eof 4095 (by decide)]
  simp only [l1, l2, l3, w1, w2, List.nil_append, List.cons_append]
  simp [List.take_take, List.drop_take]

/-- C15 fails on the code: a file of 4097 bytes (all 7) at block size 4095 is divided into three
blocks of 4095, 1 and 1 bytes, where `ceil(4097 / 4095)` is 2 and the second block, which is not
the last, should have 4095 bytes. -/
theorem divideBlocks_short_block :
    DivideBlocks (List.replicate 4097 7) 4095 =
      some [⟨List.replicate 4095 7, 4095⟩, ⟨[7], 1⟩, ⟨[7], 1⟩] ∧
    (4097 + 4095 - 1) / 4095 = 2 := by
  refine ⟨?_, by decide⟩
  rw [DivideBlocks_short_read _ (List.length_replicate _ _)]
  simp only [List.take_replicate, List.drop_replicate]
  rfl

/-! ## `DivideBlocks` with a block size of at least the buffer size -/

theorem Reader.Read_direct (rd : List UInt8) (n : Nat) (hrd : rd ≠ [])
    (hbig : defaultBufSize ≤ n) :
    Reader.Read { buf := [], rd := rd } n = (some (rd.take n), { buf := [], rd := rd.drop n }) := by
  have hn : ¬ n = 0 := by unfold defaultBufSize at hbig; omega
  simp only [Reader.Read, hn, hrd, hbig, if_false, if_true]

theorem ceil_div_step (n blockSize : Nat) (hbs : 0 < blockSize) (hn : blockSize < n) :
    (n - blockSize + blockSize - 1) / blockSize + 1 = (n + blockSize - 1) / blockSize := by
  have h1 : n - blockSize + blockSize - 1 = n - 1 := by omega
  have h2 : n + blockSize - 1 = (n - 1) + blockSize := by omega
  rw [h1, h2, Nat.add_div_right _ hbs]

theorem ceil_div_one (n blockSize : Nat) (hn : 0 < n) (hle : n ≤ blockSize) :
    (n + blockSize - 1) / blockSize = 1 := by
  have h2 : n + blockSize - 1 = (n - 1) + blockSize := by omega
  have hbs : 0 < blockSize := by omega
  rw [h2, Nat.add_div_right _ hbs, Nat.div_eq_of_lt (by omega)]

theorem DivideBlocks.loop_direct (blockSize : Nat) (hbig : defaultBufSize ≤ blockSize)
    (fuel : Nat) :
    ∀ (rd : List UInt8) (acc : List Block), rd.length < fuel →
      ∃ chunks : List (List UInt8),
        DivideBlocks.loop blockSize fuel { buf := [], rd := rd } acc
          = some (acc ++ chunks.map
              (fun d => { BlockData := d, BlockSize := wrap32 d.length })) ∧
        chunks.flatten = rd ∧
        chunks.length = (rd.length + blockSize - 1) / blockSize ∧
        (∀ c ∈ chunks, c ≠ [] ∧ c.length ≤ blockSize) ∧
        (∀ c ∈ chunks.dropLast, c.length = blockSize) := by
  have hbs : 0 < blockSize := by unfold defaultBufSize at hbig; omega
  induction fuel with
  | zero => intro rd _ h; omega
  | succ fuel ih =>
    intro rd acc hfuel
    by_cases hrd : rd = []
    · subst hrd
      refine ⟨[], ?_, rfl, ?_, fun c hc => absurd hc (List.not_mem_nil _),
        fun c hc => absurd hc (List.not_mem_nil _)⟩
      · rw [DivideBlocks.loop_succ, Reader.Read_eof blockSize (by omega)]
        simp
      · simp only [List.length_nil, Nat.zero_add]
        exact (Nat.div_eq_of_lt (by omega)).symm
    · have hpos : 0 < rd.length := List.length_pos.mpr hrd
      obtain ⟨chunks, hloop, hflat, hlen, hne, hfull⟩ := ih (rd.drop blockSize)
        (acc ++ [{ BlockData := rd.take blockSize,
                   BlockSize := wrap32 (rd.take blockSize).length }])
        (by simp only [List.length_drop]; omega)
      refine ⟨rd.take blockSize :: chunks, ?_, ?_, ?_, ?_, ?_⟩
      · rw [DivideBlocks.loop_succ, Reader.Read_direct rd blockSize hrd hbig]
        simp only [hloop, List.map_cons, List.append_assoc, List.singleton_append]
      · simp only [List.flatten_cons, hflat, List.take_append_drop]
      · simp only [List.length_cons, hlen, List.length_drop]
        by_cases hcmp : blockSize < rd.length
        · exact ceil_div_step rd.length blockSize hbs hcmp
        · have h0 : rd.length - blockSize = 0 := by omega
          rw [h0, ceil_div_one rd.length blockSize hpos (by omega)]
          simp only [Nat.zero_add]
          rw [Nat.div_eq_of_lt (by omega)]
      · intro c hc
        rcases List.mem_cons.mp hc with h1 | h1
        · subst h1
          refine ⟨?_, by simp only [List.length_take]; omega⟩
          intro h
          have := congrArg List.length h
          simp only [List.length_take, List.length_nil] at this
          omega
        · exact hne c h1
      · intro c hc
        cases hchunks : chunks with
        | nil => rw [hchunks] at hc; simp at hc
        | cons x xs =>
          rw [hchunks, List.dropLast_cons₂] at hc
          rcases List.mem_cons.mp hc with h1 | h1
          · subst h1
            have hdrop : rd.drop blockSize ≠ [] := by
              intro h
              rw [h, hchunks] at hflat
              have hx := (hne x (by rw [hchunks]; exact List.mem_cons_self _ _)).1
              simp only [List.flatten_cons, List.append_eq_nil] at hflat
              exact hx hflat.1
            have : 0 < (rd.drop blockSize).length := List.length_pos.mpr hdrop
            simp only [List.length_drop] at this
            simp only [List.length_take]
            omega
          · apply hfull c
            rw [hchunks]
            exact h1

/-- With a block size of at least the buffer size of the reader (4096) every read goes to the
file, and `DivideBlocks` does what C15 says: it returns `ceil(n / blockSize)` blocks, in file
order, whose data concatenate to the content, each of a size (as an `int32`) equal to its data
length; no block is empty and every block but the last has exactly `blockSize` bytes. -/
theorem DivideBlocks_large_blocks (f : List UInt8) (blockSize : Nat)
    (hbig : defaultBufSize ≤ blockSize) :
    ∃ blocks, DivideBlocks f blockSize = some blocks ∧
      (blocks.map (fun b => b.BlockData)).flatten = f ∧
      blocks.length = (f.length + blockSize - 1) / blockSize ∧
      (∀ b ∈ blocks, b.BlockSize = wrap32 b.BlockData.length ∧ b.BlockData ≠ [] ∧
        b.BlockData.length ≤ blockSize) ∧
      (∀ b ∈ blocks.dropLast, b.BlockData.length = blockSize) := by
  obtain ⟨chunks, hloop, hflat, hlen, hne, hfull⟩ :=
    DivideBlocks.loop_direct blockSize hbig (f.length + 1) f [] (by omega)
  refine ⟨_, by unfold DivideBlocks; exact hloop, ?_, ?_, ?_, ?_⟩
  · simp only [List.nil_append, List.map_map]
    rw [show ((fun b : Block => b.BlockData) ∘
        (fun d : List UInt8 => ({ BlockData := d, BlockSize := wrap32 d.length } : Block)))
        = id from rfl, List.map_id]
    exact hflat
  · simp only [List.nil_append, List.length_map]
    exact hlen
  · intro b hb
    simp only [List.nil_append, List.mem_map] at hb
    obtain ⟨c, hc, rfl⟩ := hb
    exact ⟨rfl, hne c hc⟩
  · intro b hb
    simp only [List.nil_append, List.dropLast_eq_take, List.length_map] at hb
    rw [← List.map_take, List.mem_map] at hb
    obtain ⟨c, hc, rfl⟩ := hb
    apply hfull c
    rw [List.dropLast_eq_take]
    exact hc

/-! ## C18: the hash list of a zero-length file -/

/-- C18 fails on the code: for a base directory that holds the zero-length file `e` and an empty
index, `GenerateBlockHashList` rejects the empty block list with an error, `LocalSyncDB` drops the
error and returns the entry `(e, 1, [])`, whose hash list is empty and is not the tombstone. -/
theorem localSync_empty_file :
    DivideBlocks [] 2 = some [] ∧
    GenerateBlockHashList exampleHash [] = ([], some "empty Block List received") ∧
    LocalSyncDB exampleHash 2 [⟨"e", false, []⟩] [] = some [("e", ⟨"e", 1, []⟩)] := by
  decide

/-! ## C12: the calls of `uploadBlocks` -/

/-- C12 fails on the code: for the file `a.txt` of 3 bytes at block size 2 (two blocks) and a new
MetaStore, `uploadBlocks` issues `PutBlock`, `UpdateFile`, `PutBlock`, `UpdateFile`: the first
`UpdateFile` is issued, and accepted, before the second block is put, and the second one is
rejected. -/
theorem uploadBlocks_interleaves :
    (uploadBlocks exampleHash 2
        { dir := [⟨"a.txt", false, [1, 2, 3]⟩], index := [], metaStore := NewMetaStore "addr",
          blockStore := NewBlockStore, trace := [] }
        ⟨"a.txt", 1, ["h2", "h1"]⟩).map (fun r => r.1.trace) =
      some [Event.uploadBlocks "a.txt", Event.GetBlockStoreAddr,
        Event.PutBlock ⟨[1, 2], 2⟩ true,
        Event.UpdateFile ⟨"a.txt", 1, ["h2", "h1"]⟩ true,
        Event.PutBlock ⟨[3], 1⟩ true,
        Event.UpdateFile ⟨"a.txt", 1, ["h2", "h1"]⟩ false] := by
  decide

/-! ## C14: the index written and read back -/

theorem mem_rowsOf (m : FileMetaData) (r : IndexRow) (h : r ∈ WriteMetaFile.rowsOf m) :
    r.fileName = m.Filename ∧ r.version = m.Version := by
  simp only [WriteMetaFile.rowsOf, List.mem_map] at h
  obtain ⟨p, -, rfl⟩ := h
  exact ⟨rfl, rfl⟩

theorem mem_WriteMetaFile (fileMetas : GoMap FileMetaData) (r : IndexRow) :
    r ∈ WriteMetaFile fileMetas ↔ ∃ kv ∈ fileMetas, r ∈ WriteMetaFile.rowsOf kv.2 := by
  induction fileMetas with
  | nil => simp [WriteMetaFile]
  | cons hd tl ih =>
    obtain ⟨k, m⟩ := hd
    simp only [WriteMetaFile, List.mem_append, ih, List.mem_cons, exists_eq_or_imp]

theorem filter_rowsOf_same (m : FileMetaData) :
    (WriteMetaFile.rowsOf m).filter (fun r => decide (r.fileName = m.Filename))
      = WriteMetaFile.rowsOf m := by
  rw [List.filter_eq_self]
  intro r hr
  simp [(mem_rowsOf m r hr).1]

theorem filter_rowsOf_other (m : FileMetaData) (f : String) (hne : m.Filename ≠ f) :
    (WriteMetaFile.rowsOf m).filter (fun r => decide (r.fileName = f)) = [] := by
  rw [List.filter_eq_nil_iff]
  intro r hr
  simp [(mem_rowsOf m r hr).1, hne]

theorem filter_WriteMetaFile_none (fileMetas : GoMap FileMetaData) (f : String)
    (h : ∀ kv ∈ fileMetas, kv.2.Filename ≠ f) :
    (WriteMetaFile fileMetas).filter (fun r => decide (r.fileName = f)) = [] := by
  rw [List.filter_eq_nil_iff]
  intro r hr
  obtain ⟨kv, hkv, hrow⟩ := (mem_WriteMetaFile fileMetas r).mp hr
  simp [(mem_rowsOf kv.2 r hrow).1, h kv hkv]

theorem filter_WriteMetaFile_some (fileMetas : GoMap FileMetaData) (hkey : keyed fileMetas)
    (hnodup : fileMetas.keys.Nodup) (f : String) (e : FileMetaData)
    (hget : fileMetas.get f = some e) :
    (WriteMetaFile fileMetas).filter (fun r => decide (r.fileName = f))
      = WriteMetaFile.rowsOf e := by
  induction fileMetas with
  | nil => simp [GoMap.get] at hget
  | cons hd tl ih =>
    obtain ⟨k, m⟩ := hd
    have hk : k = m.Filename := hkey (k, m) (List.mem_cons_self _ _)
    simp only [GoMap.keys, List.map_cons, List.nodup_cons] at hnodup
    simp only [WriteMetaFile, List.filter_append]
    by_cases hkf : k = f
    · simp only [GoMap.get, hkf, if_true, Option.some.injEq] at hget
      subst hget
      have hmf : m.Filename = f := by rw [← hk]; exact hkf
      have hrest : ∀ kv ∈ tl, kv.2.Filename ≠ f := by
        intro kv hkv hcon
        apply hnodup.1
        rw [hkf, ← hcon, ← keyed_tail _ _ hkey kv hkv]
        exact List.mem_map_of_mem Prod.fst hkv
      rw [filter_WriteMetaFile_none tl f hrest, ← hmf, filter_rowsOf_same, List.append_nil]
    · simp only [GoMap.get, hkf, if_false] at hget
      have hmf : m.Filename ≠ f := by rw [← hk]; exact hkf
      rw [filter_rowsOf_other m f hmf, List.nil_append]
      exact ih (keyed_tail _ _ hkey) hnodup.2 hget

theorem sorted_enumFrom (l : List String) (n : Nat) :
    List.Sorted (fun a b : Nat × String => a.1 ≤ b.1) (l.enumFrom n) := by
  induction l generalizing n with
  | nil => exact List.sorted_nil
  | cons x xs ih =>
    simp only [List.enumFrom_cons, List.sorted_cons]
    refine ⟨fun b hb => ?_, ih (n + 1)⟩
    have := List.le_fst_of_mem_enumFrom hb
    show n ≤ b.1
    omega

theorem getTuples_rowsOf (table : List IndexRow) (f : String) (e : FileMetaData)
    (h : table.filter (fun r => decide (r.fileName = f)) = WriteMetaFile.rowsOf e) :
    (getTuplesByFileName table f).map Prod.snd = e.BlockHashList := by
  unfold getTuplesByFileName
  rw [h]
  have hmap : (WriteMetaFile.rowsOf e).map (fun r => (r.hashIndex, r.hashValue))
      = e.BlockHashList.enum := by
    simp only [WriteMetaFile.rowsOf, List.map_map]
    conv_rhs => rw [← List.map_id e.BlockHashList.enum]
    apply List.map_congr_left
    intro p _
    rfl
  have hsorted : List.Sorted (fun a b : Nat × String => a.1 ≤ b.1) e.BlockHashList.enum :=
    sorted_enumFrom e.BlockHashList 0
  rw [hmap, List.Sorted.insertionSort_eq hsorted, List.enum_map_snd]

theorem GoMap.get_of_mem_nodup {V : Type} (m : GoMap V) (hm : m.keys.Nodup) (k : String) (v : V)
    (h : (k, v) ∈ m) : m.get k = some v := by
  induction m with
  | nil => exact absurd h (List.not_mem_nil _)
  | cons hd tl ih =>
    obtain ⟨a, b⟩ := hd
    simp only [GoMap.keys, List.map_cons, List.nodup_cons] at hm
    rcases List.mem_cons.mp h with h1 | h1
    · simp only [Prod.mk.injEq] at h1
      obtain ⟨rfl, rfl⟩ := h1
      simp [GoMap.get]
    · have hne : ¬ a = k := by
        intro hak
        apply hm.1
        rw [hak]
        exact List.mem_map_of_mem Prod.fst h1
      simp only [GoMap.get, hne, if_false]
      exact ih hm.2 h1

theorem foldl_set_other (mk : String × Int → FileMetaData) (pairs : List (String × Int))
    (acc : GoMap FileMetaData) (f : String) (h : ∀ fv ∈ pairs, fv.1 ≠ f) :
    (pairs.foldl (fun fileMetaMap fv => fileMetaMap.set fv.1 (mk fv)) acc).get f = acc.get f := by
  induction pairs generalizing acc with
  | nil => rfl
  | cons fv rest ih =>
    simp only [List.foldl_cons]
    rw [ih _ (fun x hx => h x (List.mem_cons_of_mem _ hx))]
    exact GoMap.get_set_other _ _ _ _ (fun hf => h fv (List.mem_cons_self _ _) hf.symm)

theorem foldl_set_same (mk : String × Int → FileMetaData) (pairs : List (String × Int))
    (acc : GoMap FileMetaData) (f : String) (v : Int) (hmem : (f, v) ∈ pairs)
    (huniq : ∀ fv ∈ pairs, fv.1 = f → fv.2 = v) :
    (pairs.foldl (fun fileMetaMap fv => fileMetaMap.set fv.1 (mk fv)) acc).get f
      = some (mk (f, v)) := by
  induction pairs generalizing acc with
  | nil => exact absurd hmem (List.not_mem_nil _)
  | cons fv rest ih =>
    simp only [List.foldl_cons]
    by_cases hrest : (f, v) ∈ rest
    · exact ih _ hrest (fun x hx => huniq x (List.mem_cons_of_mem _ hx))
    · have hfv : fv = (f, v) := by
        rcases List.mem_cons.mp hmem with h1 | h1
        · exact h1.symm
        · exact absurd h1 hrest
      have hnone : ∀ x ∈ rest, x.1 ≠ f := by
        intro x hx hxf
        have := huniq x (List.mem_cons_of_mem _ hx) hxf
        apply hrest
        have hxeq : x = (f, v) := Prod.ext hxf this
        rw [← hxeq]; exact hx
      rw [foldl_set_other mk rest _ f hnone, hfv]
      exact GoMap.get_set_same _ _ _

/-- C14, as stated, fails: the map that holds the one entry `(e, 1, [])`, keyed by its filename,
is written as an empty table (one row per hash, and there is no hash), and read back as the empty
map. -/
theorem index_roundtrip_counterexample :
    keyed [("e", (⟨"e", 1, []⟩ : FileMetaData))] ∧
    WriteMetaFile [("e", ⟨"e", 1, []⟩)] = [] ∧
    LoadMetaFromMetaFile (WriteMetaFile [("e", ⟨"e", 1, []⟩)]) = [] ∧
    (LoadMetaFromMetaFile (WriteMetaFile [("e", ⟨"e", 1, []⟩)])).get "e" = none ∧
    GoMap.get [("e", (⟨"e", 1, []⟩ : FileMetaData))] "e" = some ⟨"e", 1, []⟩ := by
  decide

/-- C14, amended. For every metadata map `M` keyed by the filenames of its entries (a Go map: no
key twice) in which every entry has a non-empty block hash list, the map that
`LoadMetaFromMetaFile` reads from the table written by `WriteMetaFile` is equal to `M`: under every
filename it has the entry `M` has, with the block hash list in its original order, and no entry
where `M` has none. -/
theorem index_roundtrip (M : GoMap FileMetaData) (hkey : keyed M) (hnodup : M.keys.Nodup)
    (hnonempty : ∀ kv ∈ M, kv.2.BlockHashList ≠ []) (f : String) :
    (LoadMetaFromMetaFile (WriteMetaFile M)).get f = M.get f := by
  unfold LoadMetaFromMetaFile
  cases hget : M.get f with
  | none =>
    rw [foldl_set_other]
    · rfl
    · intro fv hfv hf
      simp only [getDistinctFileName, List.mem_dedup, List.mem_map] at hfv
      obtain ⟨r, hr, rfl⟩ := hfv
      obtain ⟨kv, hkv, hrow⟩ := (mem_WriteMetaFile M r).mp hr
      have h1 : kv.2.Filename = f := by rw [← (mem_rowsOf kv.2 r hrow).1]; exact hf
      have h2 : kv.1 = f := by rw [hkey kv hkv]; exact h1
      obtain ⟨e, he⟩ := GoMap.get_of_mem M kv.1 kv.2 hkv
      rw [h2, hget] at he
      simp at he
  | some e =>
    have hname : e.Filename = f := keyed_get M hkey f e hget
    have hmemM : (f, e) ∈ M := GoMap.mem_of_get M f e hget
    have hrows : ∀ r ∈ WriteMetaFile M, r.fileName = f → r.version = e.Version := by
      intro r hr hf
      obtain ⟨kv, hkv, hrow⟩ := (mem_WriteMetaFile M r).mp hr
      have h1 : kv.2.Filename = f := by rw [← (mem_rowsOf kv.2 r hrow).1]; exact hf
      have h2 : kv.1 = f := by rw [hkey kv hkv]; exact h1
      have h3 : M.get kv.1 = some kv.2 := GoMap.get_of_mem_nodup M hnodup kv.1 kv.2 hkv
      rw [h2, hget] at h3
      simp only [Option.some.injEq] at h3
      rw [(mem_rowsOf kv.2 r hrow).2, ← h3]
    have hpair : (f, e.Version) ∈ getDistinctFileName (WriteMetaFile M) := by
      simp only [getDistinctFileName, List.mem_dedup, List.mem_map]
      have hne := hnonempty (f, e) hmemM
      obtain ⟨x, xs, hx⟩ := List.exists_cons_of_ne_nil hne
      refine ⟨⟨e.Filename, e.Version, 0, x⟩, ?_, by simp [hname]⟩
      rw [mem_WriteMetaFile]
      refine ⟨(f, e), hmemM, ?_⟩
      simp only [WriteMetaFile.rowsOf, List.mem_map]
      have hx2 : e.BlockHashList = x :: xs := hx
      exact ⟨(0, x), by rw [hx2]; simp [List.enum, List.enumFrom], rfl⟩
    rw [foldl_set_same _ _ _ f e.Version hpair]
    · have htup := getTuples_rowsOf (WriteMetaFile M) f e
        (filter_WriteMetaFile_some M hkey hnodup f e hget)
      simp only [htup]
      rw [← hname]
    · intro fv hfv hf
      simp only [getDistinctFileName, List.mem_dedup, List.mem_map] at hfv
      obtain ⟨r, hr, rfl⟩ := hfv
      exact hrows r hr hf

/-- C14, amended, at the map with `a.txt` at version 3 and hash list `[h2, h1]`, for `a.txt`. -/
theorem index_roundtrip_witness :
    keyed [("a.txt", (⟨"a.txt", 3, ["h2", "h1"]⟩ : FileMetaData))] ∧
    (GoMap.keys [("a.txt", (⟨"a.txt", 3, ["h2", "h1"]⟩ : FileMetaData))]).Nodup ∧
    (∀ kv ∈ [("a.txt", (⟨"a.txt", 3, ["h2", "h1"]⟩ : FileMetaData))], kv.2.BlockHashList ≠ []) ∧
    (LoadMetaFromMetaFile (WriteMetaFile [("a.txt", ⟨"a.txt", 3, ["h2", "h1"]⟩)])).get "a.txt"
      = GoMap.get [("a.txt", (⟨"a.txt", 3, ["h2", "h1"]⟩ : FileMetaData))] "a.txt" :=
  ⟨by decide, by decide, by decide,
    index_roundtrip [("a.txt", ⟨"a.txt", 3, ["h2", "h1"]⟩)] (by decide) (by decide) (by decide)
      "a.txt"⟩

/-! ## Phase C: the base directory -/

theorem Dir.find_write_same (dir : List FileInfo) (name : String) (data : List UInt8) :
    Dir.find (Dir.write dir name data) name = some ⟨name, false, data⟩ := by
  induction dir with
  | nil => simp [Dir.write, Dir.find]
  | cons fi rest ih =>
    by_cases h : fi.Name = name
    · simp [Dir.write, Dir.find, h]
    · simp only [Dir.find] at ih
      simp [Dir.write, Dir.find, h, ih]

theorem Dir.find_write_other (dir : List FileInfo) (name other : String) (data : List UInt8)
    (hne : other ≠ name) :
    Dir.find (Dir.write dir name data) other = Dir.find dir other := by
  induction dir with
  | nil =>
    have : ¬ name = other := fun h => hne h.symm
    simp [Dir.write, Dir.find, this]
  | cons fi rest ih =>
    simp only [Dir.find] at ih
    by_cases h : fi.Name = name
    · have h2 : ¬ fi.Name = other := fun e => hne (e.symm.trans h)
      have h3 : ¬ name = other := fun e => hne e.symm
      simp [Dir.write, Dir.find, h, h2, h3]
    · by_cases h2 : fi.Name = other
      · simp [Dir.write, Dir.find, h, h2, hne]
      · simp [Dir.write, Dir.find, h, h2, ih]

theorem Dir.find_remove_same (dir : List FileInfo) (name : String) :
    Dir.find (osRemove dir name) name = none := by
  simp only [Dir.find, osRemove, List.find?_eq_none, List.mem_filter]
  intro fi hfi
  simpa using hfi.2

theorem Dir.find_remove_other (dir : List FileInfo) (name other : String) (hne : other ≠ name) :
    Dir.find (osRemove dir name) other = Dir.find dir other := by
  induction dir with
  | nil => rfl
  | cons fi rest ih =>
    simp only [Dir.find, osRemove] at ih ⊢
    by_cases h : fi.Name = name
    · have h2 : ¬ fi.Name = other := fun e => hne (e.symm.trans h)
      rw [List.filter_cons_of_neg (by simp [h]), List.find?_cons_of_neg _ (by simp [h2])]
      exact ih
    · rw [List.filter_cons_of_pos (by simp [h])]
      by_cases h2 : fi.Name = other
      · rw [List.find?_cons_of_pos _ (by simp [h2]), List.find?_cons_of_pos _ (by simp [h2])]
      · rw [List.find?_cons_of_neg _ (by simp [h2]), List.find?_cons_of_neg _ (by simp [h2])]
        exact ih

theorem Dir.isDir_write (dir : List FileInfo) (name : String) (data : List UInt8)
    (h : Dir.isDir dir name = false) (other : String) :
    Dir.isDir (Dir.write dir name data) other = Dir.isDir dir other := by
  by_cases hne : other = name
  · subst hne
    rw [h]
    simp [Dir.isDir, Dir.find_write_same]
  · simp only [Dir.isDir, Dir.find_write_other dir name other data hne]

theorem Dir.isDir_remove (dir : List FileInfo) (name : String)
    (h : Dir.isDir dir name = false) (other : String) :
    Dir.isDir (osRemove dir name) other = Dir.isDir dir other := by
  by_cases hne : other = name
  · subst hne
    rw [h]
    simp [Dir.isDir, Dir.find_remove_same]
  · simp only [Dir.isDir, Dir.find_remove_other dir name other hne]

theorem osCreate_of_not_dir (dir : List FileInfo) (name : String)
    (hname : isFileName name = true)
    (h : Dir.isDir dir name = false) : osCreate dir name = some (Dir.write dir name []) := by
  unfold osCreate
  rw [if_pos hname]
  unfold Dir.isDir at h
  cases hfind : Dir.find dir name with
  | none => rfl
  | some fi =>
    rw [hfind] at h
    simp only at h
    simp [h]

/-! ## Phase C: the events -/

theorem downloadsOf_append (a b : List Event) :
    downloadsOf (a ++ b) = downloadsOf a ++ downloadsOf b := by
  simp [downloadsOf, List.filterMap_append]

theorem uploadsOf_append (a b : List Event) :
    uploadsOf (a ++ b) = uploadsOf a ++ uploadsOf b := by
  simp [uploadsOf, List.filterMap_append]

theorem writesOf_append (a b : List Event) :
    writesOf (a ++ b) = writesOf a ++ writesOf b := by
  simp [writesOf, List.filter_append]

/-! ## Phase C: the calls of the RPC client -/

theorem BlockStore.GetBlock_store (bs : BlockStore) (blockHash : BlockHash) :
    (bs.GetBlock blockHash).store = bs := by
  unfold BlockStore.GetBlock
  split <;> rfl

theorem RPCClient.GetBlockStoreAddr_world (w : World) (a : String) :
    (RPCClient.GetBlockStoreAddr w a).world
      = { w with trace := w.trace ++ [Event.GetBlockStoreAddr] } := by
  unfold RPCClient.GetBlockStoreAddr
  split <;> rfl

theorem RPCClient.GetBlockStoreAddr_out (w : World) (h : w.metaStore.BlockStoreAddr ≠ "") :
    (RPCClient.GetBlockStoreAddr w "").out = w.metaStore.BlockStoreAddr := by
  simp [RPCClient.GetBlockStoreAddr, MetaStore.GetBlockStoreAddr, h]

theorem RPCClient.GetBlockStoreAddr_out_ne (w : World) (h : w.metaStore.BlockStoreAddr ≠ "") :
    (RPCClient.GetBlockStoreAddr w "").out ≠ "" := by
  rw [RPCClient.GetBlockStoreAddr_out w h]; exact h

theorem RPCClient.GetBlock_world (w : World) (blockHash a : String) (b : Block) :
    (RPCClient.GetBlock w blockHash a b).world
      = { w with trace := w.trace ++ [Event.GetBlock blockHash] } := by
  unfold RPCClient.GetBlock
  by_cases ha : a = ""
  · simp [ha]
  · simp only [ha, if_false]
    split <;> simp [BlockStore.GetBlock_store]

theorem RPCClient.GetBlock_out (w : World) (blockHash a : String) (b : Block) (ha : a ≠ "")
    (hholds : w.blockStore.holds blockHash) :
    (RPCClient.GetBlock w blockHash a b).out
      = (w.blockStore.GetBlock { Hash := blockHash }).reply := by
  unfold BlockStore.holds at hholds
  simp [RPCClient.GetBlock, ha, hholds]

theorem RPCClient.GetFileInfoMap_world (w : World) (m : GoMap FileMetaData) :
    (RPCClient.GetFileInfoMap w m).world = { w with trace := w.trace ++ [Event.GetFileInfoMap] } := by
  simp [RPCClient.GetFileInfoMap, MetaStore.GetFileInfoMap]

theorem RPCClient.GetFileInfoMap_out (w : World) (m : GoMap FileMetaData) :
    (RPCClient.GetFileInfoMap w m).out = w.metaStore.FileMetaMap := by
  simp [RPCClient.GetFileInfoMap, MetaStore.GetFileInfoMap]

theorem RPCClient.PutBlock_frame (H : List UInt8 → String) (w : World) (b : Block) (a : String)
    (s : Bool) :
    (RPCClient.PutBlock H w b a s).world.dir = w.dir ∧
    (RPCClient.PutBlock H w b a s).world.index = w.index ∧
    (RPCClient.PutBlock H w b a s).world.metaStore = w.metaStore ∧
    downloadsOf (RPCClient.PutBlock H w b a s).world.trace = downloadsOf w.trace ∧
    uploadsOf (RPCClient.PutBlock H w b a s).world.trace = uploadsOf w.trace := by
  unfold RPCClient.PutBlock
  by_cases ha : a = ""
  · simp [ha, downloadsOf_append, uploadsOf_append, downloadsOf, uploadsOf]
  · simp only [ha, if_false]
    split <;> simp [downloadsOf_append, uploadsOf_append, downloadsOf, uploadsOf]

theorem UpdateFile_reply_version (m : MetaStore) (p : FileMetaData)
    (h : (m.UpdateFile p).err = none) : (m.UpdateFile p).reply.Version = p.Version := by
  cases hget : m.FileMetaMap.get p.Filename with
  | none => rw [UpdateFile_absent m p hget]
  | some cur =>
    by_cases hv : p.Version = add32 cur.Version 1
    · rw [UpdateFile_next m p cur hget hv]
    · rw [UpdateFile_stale m p cur hget hv] at h
      simp at h

theorem RPCClient.UpdateFile_of_ok (w : World) (p : FileMetaData) (v : Int)
    (h : (w.metaStore.UpdateFile p).err = none) :
    RPCClient.UpdateFile w p v =
      { world := { w with metaStore := (w.metaStore.UpdateFile p).store,
                          trace := w.trace ++ [Event.UpdateFile p true] },
        out := (w.metaStore.UpdateFile p).reply.Version, err := none } := by
  simp only [RPCClient.UpdateFile, h]

theorem RPCClient.UpdateFile_of_err (w : World) (p : FileMetaData) (v : Int) (e : String)
    (h : (w.metaStore.UpdateFile p).err = some e) :
    RPCClient.UpdateFile w p v =
      { world := { w with metaStore := (w.metaStore.UpdateFile p).store,
                          trace := w.trace ++ [Event.UpdateFile p false] },
        out := v, err := some e } := by
  simp only [RPCClient.UpdateFile, h]

theorem RPCClient.UpdateFile_frame (w : World) (p : FileMetaData) (v : Int) :
    (RPCClient.UpdateFile w p v).world.dir = w.dir ∧
    (RPCClient.UpdateFile w p v).world.index = w.index ∧
    (RPCClient.UpdateFile w p v).world.metaStore = (w.metaStore.UpdateFile p).store ∧
    downloadsOf (RPCClient.UpdateFile w p v).world.trace = downloadsOf w.trace ∧
    uploadsOf (RPCClient.UpdateFile w p v).world.trace = uploadsOf w.trace := by
  cases h : (w.metaStore.UpdateFile p).err with
  | none =>
    rw [RPCClient.UpdateFile_of_ok w p v h]
    simp [downloadsOf_append, uploadsOf_append, downloadsOf, uploadsOf]
  | some e =>
    rw [RPCClient.UpdateFile_of_err w p v e h]
    simp [downloadsOf_append, uploadsOf_append, downloadsOf, uploadsOf]

theorem RPCClient.UpdateFile_out (w : World) (p : FileMetaData) :
    (RPCClient.UpdateFile w p p.Version).out = p.Version := by
  cases h : (w.metaStore.UpdateFile p).err with
  | none =>
    rw [RPCClient.UpdateFile_of_ok w p _ h]
    exact UpdateFile_reply_version _ _ h
  | some e =>
    rw [RPCClient.UpdateFile_of_err w p _ e h]

/-! ## Phase C: `downloadBlocks` -/

theorem downloadBlocks.loop_frame (a : String) (hashes : List String) :
    ∀ (w : World) (data : List UInt8),
      (downloadBlocks.loop a w hashes data).1.dir = w.dir ∧
      (downloadBlocks.loop a w hashes data).1.index = w.index ∧
      (downloadBlocks.loop a w hashes data).1.metaStore = w.metaStore ∧
      (downloadBlocks.loop a w hashes data).1.blockStore = w.blockStore ∧
      downloadsOf (downloadBlocks.loop a w hashes data).1.trace = downloadsOf w.trace ∧
      uploadsOf (downloadBlocks.loop a w hashes data).1.trace = uploadsOf w.trace ∧
      writesOf (downloadBlocks.loop a w hashes data).1.trace = writesOf w.trace := by
  induction hashes with
  | nil => intro w data; simp [downloadBlocks.loop]
  | cons hashVal rest ih =>
    intro w data
    by_cases h0 : hashVal = "0"
    · simp [downloadBlocks.loop, h0]
    · simp only [downloadBlocks.loop, h0, if_false]
      obtain ⟨h1, h2, h3, h4, h5, h6, h7⟩ :=
        ih (RPCClient.GetBlock w hashVal a { BlockData := [], BlockSize := 0 }).world
          (data ++ (RPCClient.GetBlock w hashVal a { BlockData := [], BlockSize := 0 }).out.BlockData)
      rw [h1, h2, h3, h4, h5, h6, h7, RPCClient.GetBlock_world]
      simp [downloadsOf_append, uploadsOf_append, writesOf_append, downloadsOf, uploadsOf,
        writesOf]

theorem downloadBlocks.loop_data (a : String) (ha : a ≠ "") (hashes : List String)
    (hzero : "0" ∉ hashes) :
    ∀ (w : World) (data : List UInt8), (∀ d ∈ hashes, w.blockStore.holds d) →
      (downloadBlocks.loop a w hashes data).2
        = some (data ++ composition w.blockStore hashes) := by
  induction hashes with
  | nil => intro w data _; simp [downloadBlocks.loop, composition]
  | cons hashVal rest ih =>
    intro w data hheld
    have h0 : ¬ hashVal = "0" := fun h => hzero (by rw [h]; exact List.mem_cons_self _ _)
    have hrest : "0" ∉ rest := fun h => hzero (List.mem_cons_of_mem _ h)
    simp only [downloadBlocks.loop, h0, if_false]
    have hstore : (RPCClient.GetBlock w hashVal a { BlockData := [], BlockSize := 0 }).world.blockStore
        = w.blockStore := by rw [RPCClient.GetBlock_world]
    rw [ih hrest _ _ (by
      intro d hd; rw [hstore]; exact hheld d (List.mem_cons_of_mem _ hd))]
    rw [hstore, RPCClient.GetBlock_out w hashVal a _ ha (hheld hashVal (List.mem_cons_self _ _))]
    simp [composition, List.append_assoc]

theorem downloadBlocks_tombstone (w : World) (m : FileMetaData)
    (hname : isFileName m.Filename = true)
    (hdir : Dir.isDir w.dir m.Filename = false) (ht : m.BlockHashList = ["0"]) :
    downloadBlocks w m = some
      { w with trace := w.trace ++ [Event.downloadBlocks m.Filename],
               dir := osRemove (Dir.write w.dir m.Filename []) m.Filename } := by
  unfold downloadBlocks
  simp only [osCreate_of_not_dir w.dir m.Filename hname hdir, isTombstone_iff, ht, if_true]

theorem downloadBlocks_live (w : World) (m : FileMetaData)
    (hname : isFileName m.Filename = true)
    (hdir : Dir.isDir w.dir m.Filename = false) (ht : m.BlockHashList ≠ ["0"]) :
    downloadBlocks w m =
      match downloadBlocks.loop
          (RPCClient.GetBlockStoreAddr
            { w with trace := w.trace ++ [Event.downloadBlocks m.Filename],
                     dir := Dir.write w.dir m.Filename [] } "").out
          (RPCClient.GetBlockStoreAddr
            { w with trace := w.trace ++ [Event.downloadBlocks m.Filename],
                     dir := Dir.write w.dir m.Filename [] } "").world
          m.BlockHashList [] with
      | (w2, none) => some w2
      | (w2, some data) => some { w2 with dir := Dir.write w2.dir m.Filename data } := by
  unfold downloadBlocks
  simp only [osCreate_of_not_dir w.dir m.Filename hname hdir, isTombstone_iff, ht, if_false]

theorem downloadBlocks_spec (w : World) (m : FileMetaData)
    (hname : isFileName m.Filename = true)
    (hdir : Dir.isDir w.dir m.Filename = false) :
    ∃ w2, downloadBlocks w m = some w2 ∧
      w2.index = w.index ∧ w2.metaStore = w.metaStore ∧ w2.blockStore = w.blockStore ∧
      (∀ name, Dir.isDir w2.dir name = Dir.isDir w.dir name) ∧
      downloadsOf w2.trace = downloadsOf w.trace ++ [m.Filename] ∧
      uploadsOf w2.trace = uploadsOf w.trace ∧
      writesOf w2.trace = writesOf w.trace := by
  have hd : ∀ name, Dir.isDir (Dir.write w.dir m.Filename []) name = Dir.isDir w.dir name :=
    Dir.isDir_write _ _ _ hdir
  by_cases ht : m.BlockHashList = ["0"]
  · refine ⟨_, downloadBlocks_tombstone w m hname hdir ht, rfl, rfl, rfl, ?_, ?_, ?_, ?_⟩
    · intro name
      show Dir.isDir (osRemove (Dir.write w.dir m.Filename []) m.Filename) name = _
      rw [Dir.isDir_remove _ _ (by rw [hd]; exact hdir), hd]
    · simp [downloadsOf_append, downloadsOf]
    · simp [uploadsOf_append, uploadsOf]
    · simp [writesOf_append, writesOf]
  · rw [downloadBlocks_live w m hname hdir ht]
    generalize hr : RPCClient.GetBlockStoreAddr
      { w with trace := w.trace ++ [Event.downloadBlocks m.Filename],
               dir := Dir.write w.dir m.Filename [] } "" = r
    have hrw : r.world = { w with trace := w.trace ++ [Event.downloadBlocks m.Filename]
                                    ++ [Event.GetBlockStoreAddr],
                                  dir := Dir.write w.dir m.Filename [] } := by
      rw [← hr, RPCClient.GetBlockStoreAddr_world]
    have hf := downloadBlocks.loop_frame r.out m.BlockHashList r.world []
    generalize downloadBlocks.loop r.out r.world m.BlockHashList [] = l at hf ⊢
    obtain ⟨w2, od⟩ := l
    rw [hrw] at hf
    simp only at hf
    obtain ⟨h1, h2, h3, h4, h5, h6, h7⟩ := hf
    have t5 : downloadsOf w2.trace = downloadsOf w.trace ++ [m.Filename] := by
      rw [h5]; simp [downloadsOf_append, downloadsOf]
    have t6 : uploadsOf w2.trace = uploadsOf w.trace := by
      rw [h6]; simp [uploadsOf_append, uploadsOf]
    have t7 : writesOf w2.trace = writesOf w.trace := by
      rw [h7]; simp [writesOf_append, writesOf]
    cases od with
    | none =>
      refine ⟨w2, rfl, h2, h3, h4, ?_, t5, t6, t7⟩
      intro name; rw [h1]; exact hd name
    | some data =>
      refine ⟨_, rfl, h2, h3, h4, ?_, t5, t6, t7⟩
      intro name
      show Dir.isDir (Dir.write w2.dir m.Filename data) name = _
      rw [h1, Dir.isDir_write _ _ _ (by rw [hd]; exact hdir), hd]


theorem BlockStore.has_of_holds (bs : BlockStore) (digest : String) (h : bs.holds digest) :
    bs.BlockMap.has digest = true := by
  unfold BlockStore.holds BlockStore.GetBlock at h
  unfold GoMap.has
  cases hget : bs.BlockMap.get digest with
  | none => rw [hget] at h; simp at h
  | some v => rfl

/-- C17. `downloadBlocks` of a server entry whose name is a file name (not empty, not `.` or
`..`, without path separator or NUL, at most 255 bytes) and not the name of a directory of the
base directory returns, and afterwards: if the block hash list is exactly `["0"]`, no file of that name exists in the base
directory; otherwise, when the MetaStore is configured with the address of the BlockStore, every
digest of the list is present in the block store (`GetBlock` succeeds on it) and no block is
stored under `"0"` (which is no SHA-256 digest), the file of that name is a regular file whose
content is the concatenation, in list order, of the data of the blocks that `GetBlock` returns for
the digests. -/
theorem downloadBlocks_composition (w : World) (m : FileMetaData)
    (hname : isFileName m.Filename = true)
    (hdir : Dir.isDir w.dir m.Filename = false) :
    ∃ w2, downloadBlocks w m = some w2 ∧
      (m.BlockHashList = ["0"] → Dir.find w2.dir m.Filename = none) ∧
      (m.BlockHashList ≠ ["0"] → w.metaStore.BlockStoreAddr ≠ "" →
        w.blockStore.BlockMap.has "0" = false →
        (∀ d ∈ m.BlockHashList, w.blockStore.holds d) →
        Dir.find w2.dir m.Filename
          = some { Name := m.Filename, IsDir := false,
                   Data := composition w.blockStore m.BlockHashList }) := by
  by_cases ht : m.BlockHashList = ["0"]
  · refine ⟨_, downloadBlocks_tombstone w m hname hdir ht, fun _ => ?_, fun h => absurd ht h⟩
    exact Dir.find_remove_same _ _
  · rw [downloadBlocks_live w m hname hdir ht]
    generalize hr : RPCClient.GetBlockStoreAddr
      { w with trace := w.trace ++ [Event.downloadBlocks m.Filename],
               dir := Dir.write w.dir m.Filename [] } "" = r
    have hrw : r.world = { w with trace := w.trace ++ [Event.downloadBlocks m.Filename]
                                    ++ [Event.GetBlockStoreAddr],
                                  dir := Dir.write w.dir m.Filename [] } := by
      rw [← hr, RPCClient.GetBlockStoreAddr_world]
    have hout : w.metaStore.BlockStoreAddr ≠ "" → r.out ≠ "" := by
      intro ha
      rw [← hr]
      exact RPCClient.GetBlockStoreAddr_out_ne _ ha
    have hdata : w.metaStore.BlockStoreAddr ≠ "" → "0" ∉ m.BlockHashList →
        (∀ d ∈ m.BlockHashList, w.blockStore.holds d) →
        (downloadBlocks.loop r.out r.world m.BlockHashList []).2
          = some (composition w.blockStore m.BlockHashList) := by
      intro ha hz hheld
      have := downloadBlocks.loop_data r.out (hout ha) m.BlockHashList hz r.world []
        (by rw [hrw]; exact hheld)
      rw [this, hrw]
      rfl
    generalize downloadBlocks.loop r.out r.world m.BlockHashList [] = l at hdata ⊢
    obtain ⟨w2, od⟩ := l
    cases od with
    | none =>
      refine ⟨w2, rfl, fun h => absurd h ht, fun _ ha hzero hheld => ?_⟩
      have hz : "0" ∉ m.BlockHashList := by
        intro hmem
        have := BlockStore.has_of_holds _ _ (hheld "0" hmem)
        rw [hzero] at this
        exact absurd this (by decide)
      have := hdata ha hz hheld
      simp at this
    | some data =>
      refine ⟨_, rfl, fun h => absurd h ht, fun _ ha hzero hheld => ?_⟩
      have hz : "0" ∉ m.BlockHashList := by
        intro hmem
        have := BlockStore.has_of_holds _ _ (hheld "0" hmem)
        rw [hzero] at this
        exact absurd this (by decide)
      have := hdata ha hz hheld
      simp only [Option.some.injEq] at this
      subst this
      exact Dir.find_write_same _ _ _

/-- C17 at a base directory that holds an older `a.txt`, a block store that holds the blocks
`[1, 2]` under `h2` and `[3]` under `h1`, and the server entry `(a.txt, 2, [h2, h1])`. -/
theorem downloadBlocks_composition_witness :
    isFileName "a.txt" = true ∧
    Dir.isDir [⟨"a.txt", false, [9]⟩] "a.txt" = false ∧
    composition { BlockMap := [("h2", some ⟨[1, 2], 2⟩), ("h1", some ⟨[3], 1⟩)] } ["h2", "h1"]
      = [1, 2, 3] ∧
    (NewMetaStore "addr").BlockStoreAddr ≠ "" ∧
    (∀ d ∈ ["h2", "h1"],
      BlockStore.holds { BlockMap := [("h2", some ⟨[1, 2], 2⟩), ("h1", some ⟨[3], 1⟩)] } d) ∧
    ∃ w2, downloadBlocks
        { dir := [⟨"a.txt", false, [9]⟩], index := [], metaStore := NewMetaStore "addr",
          blockStore := { BlockMap := [("h2", some ⟨[1, 2], 2⟩), ("h1", some ⟨[3], 1⟩)] },
          trace := [] }
        ⟨"a.txt", 2, ["h2", "h1"]⟩ = some w2 ∧
      ((⟨"a.txt", 2, ["h2", "h1"]⟩ : FileMetaData).BlockHashList = ["0"] →
        Dir.find w2.dir (⟨"a.txt", 2, ["h2", "h1"]⟩ : FileMetaData).Filename = none) ∧
      ((⟨"a.txt", 2, ["h2", "h1"]⟩ : FileMetaData).BlockHashList ≠ ["0"] →
        (NewMetaStore "addr").BlockStoreAddr ≠ "" →
        GoMap.has [("h2", some (⟨[1, 2], 2⟩ : Block)), ("h1", some ⟨[3], 1⟩)] "0" = false →
        (∀ d ∈ (⟨"a.txt", 2, ["h2", "h1"]⟩ : FileMetaData).BlockHashList,
          BlockStore.holds { BlockMap := [("h2", some ⟨[1, 2], 2⟩), ("h1", some ⟨[3], 1⟩)] } d) →
        Dir.find w2.dir (⟨"a.txt", 2, ["h2", "h1"]⟩ : FileMetaData).Filename
          = some { Name := "a.txt", IsDir := false,
                   Data := composition
                     { BlockMap := [("h2", some ⟨[1, 2], 2⟩), ("h1", some ⟨[3], 1⟩)] }
                     ["h2", "h1"] }) :=
  ⟨by decide, by decide, by decide, by decide, by decide,
    downloadBlocks_composition
      { dir := [⟨"a.txt", false, [9]⟩], index := [], metaStore := NewMetaStore "addr",
        blockStore := { BlockMap := [("h2", some ⟨[1, 2], 2⟩), ("h1", some ⟨[3], 1⟩)] },
        trace := [] }
      ⟨"a.txt", 2, ["h2", "h1"]⟩ (by decide) (by decide)⟩


/-! ## Phase C: `uploadBlocks` -/

theorem GoMap.set_of_get {V : Type} (m : GoMap V) (k : String) (v : V) (h : m.get k = some v) :
    m.set k v = m := by
  induction m with
  | nil => simp [GoMap.get] at h
  | cons hd tl ih =>
    obtain ⟨a, b⟩ := hd
    by_cases hk : a = k
    · simp only [GoMap.get, hk, if_true, Option.some.injEq] at h
      simp [GoMap.set, hk, h]
    · simp only [GoMap.get, hk, if_false] at h
      simp [GoMap.set, hk, ih h]

theorem uploadBlocks.loop_spec (H : List UInt8 → String) (a : String) (metaLocal : FileMetaData)
    (blocks : List Block) :
    ∀ w : World,
      (uploadBlocks.loop H a w blocks metaLocal).2 = metaLocal ∧
      (uploadBlocks.loop H a w blocks metaLocal).1.dir = w.dir ∧
      (uploadBlocks.loop H a w blocks metaLocal).1.index = w.index ∧
      downloadsOf (uploadBlocks.loop H a w blocks metaLocal).1.trace = downloadsOf w.trace ∧
      uploadsOf (uploadBlocks.loop H a w blocks metaLocal).1.trace = uploadsOf w.trace ∧
      (∀ f, f ≠ metaLocal.Filename →
        (uploadBlocks.loop H a w blocks metaLocal).1.metaStore.FileMetaMap.get f
          = w.metaStore.FileMetaMap.get f) ∧
      (∀ cur, w.metaStore.FileMetaMap.get metaLocal.Filename = some cur →
        metaLocal.Version ≠ add32 cur.Version 1 →
        (uploadBlocks.loop H a w blocks metaLocal).1.metaStore = w.metaStore) := by
  induction blocks with
  | nil =>
    intro w
    simp [uploadBlocks.loop]
  | cons block rest ih =>
    intro w
    have hout : (RPCClient.UpdateFile (RPCClient.PutBlock H w block a false).world metaLocal
        metaLocal.Version).out = metaLocal.Version := RPCClient.UpdateFile_out _ _
    have hml : ({ metaLocal with Version := (RPCClient.UpdateFile
        (RPCClient.PutBlock H w block a false).world metaLocal metaLocal.Version).out }
          : FileMetaData) = metaLocal := by
      rw [hout]
    simp only [uploadBlocks.loop, hml]
    obtain ⟨p1, p2, p3, p4, p5⟩ := RPCClient.PutBlock_frame H w block a false
    obtain ⟨u1, u2, u3, u4, u5⟩ := RPCClient.UpdateFile_frame
      (RPCClient.PutBlock H w block a false).world metaLocal metaLocal.Version
    obtain ⟨h1, h2, h3, h4, h5, h6, h7⟩ := ih (RPCClient.UpdateFile
      (RPCClient.PutBlock H w block a false).world metaLocal metaLocal.Version).world
    rw [u3, p3] at h6 h7
    refine ⟨h1, ?_, ?_, ?_, ?_, ?_, ?_⟩
    · rw [h2, u1, p1]
    · rw [h3, u2, p2]
    · rw [h4, u4, p4]
    · rw [h5, u5, p5]
    · intro f hf
      rw [h6 f hf, UpdateFile_store_get, if_neg (fun h => hf h.2)]
    · intro cur hcur hver
      have hstale := UpdateFile_stale w.metaStore metaLocal cur hcur hver
      rw [hstale] at h7
      exact h7 cur hcur hver

theorem osStat_of_fileName (dir : List FileInfo) (name : String)
    (hname : isFileName name = true) : osStat dir name = some (Dir.find dir name) := by
  unfold osStat
  rw [if_pos hname]

theorem uploadBlocks_spec (H : List UInt8 → String) (blockSize : Nat) (hbs : 0 < blockSize)
    (w : World) (metaLocal : FileMetaData) (hname : isFileName metaLocal.Filename = true) :
    ∃ w2, uploadBlocks H blockSize w metaLocal = some (w2, metaLocal) ∧
      w2.dir = w.dir ∧ w2.index = w.index ∧
      downloadsOf w2.trace = downloadsOf w.trace ∧
      uploadsOf w2.trace = uploadsOf w.trace ++ [metaLocal.Filename] ∧
      (∀ f, f ≠ metaLocal.Filename →
        w2.metaStore.FileMetaMap.get f = w.metaStore.FileMetaMap.get f) ∧
      (∀ cur, w.metaStore.FileMetaMap.get metaLocal.Filename = some cur →
        metaLocal.Version ≠ add32 cur.Version 1 → w2.metaStore = w.metaStore) := by
  have hbs0 : ¬ blockSize = 0 := by omega
  have td : downloadsOf (w.trace ++ [Event.uploadBlocks metaLocal.Filename])
      = downloadsOf w.trace := by simp [downloadsOf_append, downloadsOf]
  have tu : uploadsOf (w.trace ++ [Event.uploadBlocks metaLocal.Filename])
      = uploadsOf w.trace ++ [metaLocal.Filename] := by simp [uploadsOf_append, uploadsOf]
  unfold uploadBlocks
  have hs := osStat_of_fileName w.dir metaLocal.Filename hname
  cases hfind : Dir.find w.dir metaLocal.Filename with
  | none =>
    simp only [hs, hfind]
    obtain ⟨u1, u2, u3, u4, u5⟩ := RPCClient.UpdateFile_frame
      { w with trace := w.trace ++ [Event.uploadBlocks metaLocal.Filename] } metaLocal
      metaLocal.Version
    refine ⟨_, ?_, u1, u2, ?_, ?_, ?_, ?_⟩
    · rw [RPCClient.UpdateFile_out]
    · rw [u4, td]
    · rw [u5, tu]
    · intro f hf
      rw [u3, UpdateFile_store_get, if_neg (fun h => hf h.2)]
    · intro cur hcur hver
      rw [u3]
      show (w.metaStore.UpdateFile metaLocal).store = w.metaStore
      rw [UpdateFile_stale w.metaStore metaLocal cur hcur hver]
  | some fi =>
    simp only [hs, hfind]
    have hblocks : ∃ blocksList, (if fi.IsDir = true then (if blockSize = 0 then none else some [])
        else DivideBlocks fi.Data blockSize) = some blocksList := by
      by_cases hd : fi.IsDir = true
      · exact ⟨[], by simp [hd, hbs0]⟩
      · obtain ⟨out, hout⟩ := DivideBlocks_returns fi.Data blockSize hbs
        exact ⟨out, by simp [hd, hout]⟩
    obtain ⟨blocksList, hbl⟩ := hblocks
    simp only [hbl]
    generalize hr : RPCClient.GetBlockStoreAddr
      { w with trace := w.trace ++ [Event.uploadBlocks metaLocal.Filename] } "" = r
    have hrw : r.world = { w with trace := w.trace ++ [Event.uploadBlocks metaLocal.Filename]
                                    ++ [Event.GetBlockStoreAddr] } := by
      rw [← hr, RPCClient.GetBlockStoreAddr_world]
    have hspec := uploadBlocks.loop_spec H r.out metaLocal blocksList r.world
    generalize uploadBlocks.loop H r.out r.world blocksList metaLocal = l at hspec ⊢
    obtain ⟨w2, ml2⟩ := l
    rw [hrw] at hspec
    simp only at hspec
    obtain ⟨h1, h2, h3, h4, h5, h6, h7⟩ := hspec
    subst h1
    refine ⟨w2, rfl, h2, h3, ?_, ?_, h6, h7⟩
    · rw [h4]; simp [downloadsOf_append, downloadsOf]
    · rw [h5]; simp [uploadsOf_append, uploadsOf]


/-! ## Phase C: the two loops of `ServerSync` -/

theorem ServerSync.downloadLoop_cons (w : World) (k : String) (m : FileMetaData)
    (rest : List (String × FileMetaData)) (fileInfoMapLocal : GoMap FileMetaData) :
    ServerSync.downloadLoop w ((k, m) :: rest) fileInfoMapLocal =
      if serverWins fileInfoMapLocal m = true then
        match downloadBlocks w m with
        | none => none
        | some w2 => ServerSync.downloadLoop w2 rest (fileInfoMapLocal.set m.Filename m)
      else ServerSync.downloadLoop w rest fileInfoMapLocal := by
  rw [ServerSync.downloadLoop]
  unfold serverWins writeBlockstoLocal
  cases hget : fileInfoMapLocal.get m.Filename with
  | none => simp
  | some l =>
    by_cases hv : m.Version ≥ l.Version
    · simp [hv]
    · simp [hv]

theorem serverWins_congr (a b : GoMap FileMetaData) (m : FileMetaData)
    (h : a.get m.Filename = b.get m.Filename) : serverWins a m = serverWins b m := by
  unfold serverWins
  rw [h]

theorem GoMap.mem_set {V : Type} (m : GoMap V) (k : String) (v : V) (kv : String × V)
    (h : kv ∈ m.set k v) : kv = (k, v) ∨ kv ∈ m := by
  induction m with
  | nil =>
    simp only [GoMap.set, List.mem_singleton] at h
    exact Or.inl h
  | cons hd tl ih =>
    obtain ⟨a, b⟩ := hd
    by_cases hk : a = k
    · simp only [GoMap.set, hk, if_true, List.mem_cons] at h
      rcases h with h | h
      · exact Or.inl h
      · exact Or.inr (List.mem_cons_of_mem _ h)
    · simp only [GoMap.set, hk, if_false, List.mem_cons] at h
      rcases h with h | h
      · exact Or.inr (h ▸ List.mem_cons_self _ _)
      · rcases ih h with h2 | h2
        · exact Or.inl h2
        · exact Or.inr (List.mem_cons_of_mem _ h2)

theorem ServerSync.downloadLoop_spec (entries : List (String × FileMetaData)) :
    ∀ (w : World) (fileInfoMapLocal : GoMap FileMetaData),
      (∀ kv ∈ entries, isFileName kv.2.Filename = true) →
      (∀ kv ∈ entries, Dir.isDir w.dir kv.2.Filename = false) →
      (entries.map (fun kv => kv.2.Filename)).Nodup →
      ∃ w2 merged, ServerSync.downloadLoop w entries fileInfoMapLocal = some (w2, merged) ∧
        w2.index = w.index ∧ w2.metaStore = w.metaStore ∧ w2.blockStore = w.blockStore ∧
        (∀ name, Dir.isDir w2.dir name = Dir.isDir w.dir name) ∧
        downloadsOf w2.trace = downloadsOf w.trace ++
          (entries.filter (fun kv => serverWins fileInfoMapLocal kv.2)).map
            (fun kv => kv.2.Filename) ∧
        uploadsOf w2.trace = uploadsOf w.trace ∧
        writesOf w2.trace = writesOf w.trace ∧
        (∀ f, (∀ kv ∈ entries, kv.2.Filename ≠ f) → merged.get f = fileInfoMapLocal.get f) ∧
        (∀ kv ∈ entries, merged.get kv.2.Filename =
          if serverWins fileInfoMapLocal kv.2 = true then some kv.2
          else fileInfoMapLocal.get kv.2.Filename) ∧
        (keyed fileInfoMapLocal → keyed merged) ∧
        (fileInfoMapLocal.keys.Nodup → merged.keys.Nodup) ∧
        ((∀ kv ∈ fileInfoMapLocal, isFileName kv.2.Filename = true) →
          ∀ kv ∈ merged, isFileName kv.2.Filename = true) := by
  induction entries with
  | nil =>
    intro w loc _ _ _
    exact ⟨w, loc, rfl, rfl, rfl, rfl, fun _ => rfl, by simp, rfl, rfl, fun _ _ => rfl,
      fun kv hkv => absurd hkv (List.not_mem_nil _), id, id, id⟩
  | cons hd tl ih =>
    obtain ⟨k, m⟩ := hd
    intro w loc hnm hdir hnodup
    simp only [List.map_cons, List.nodup_cons] at hnodup
    have hne : ∀ kv ∈ tl, kv.2.Filename ≠ m.Filename := by
      intro kv hkv h
      apply hnodup.1
      rw [← h]
      exact List.mem_map_of_mem (fun kv => kv.2.Filename) hkv
    rw [ServerSync.downloadLoop_cons]
    by_cases hwin : serverWins loc m = true
    · simp only [hwin, if_true]
      obtain ⟨w1, hdl, d1, d2, d3, d4, d5, d6, d7⟩ :=
        downloadBlocks_spec w m (hnm (k, m) (List.mem_cons_self _ _))
          (hdir (k, m) (List.mem_cons_self _ _))
      rw [hdl]
      simp only
      obtain ⟨w2, merged, hloop, e1, e2, e3, e4, e5, e6, e7, e8, e9, e10, e11, e12⟩ :=
        ih w1 (loc.set m.Filename m)
          (fun kv hkv => hnm kv (List.mem_cons_of_mem _ hkv))
          (fun kv hkv => by rw [d4]; exact hdir kv (List.mem_cons_of_mem _ hkv)) hnodup.2
      have hcongr : ∀ kv ∈ tl, serverWins (loc.set m.Filename m) kv.2 = serverWins loc kv.2 :=
        fun kv hkv => serverWins_congr _ _ _ (GoMap.get_set_other _ _ _ _ (hne kv hkv))
      refine ⟨w2, merged, hloop, by rw [e1, d1], by rw [e2, d2], by rw [e3, d3],
        fun name => by rw [e4, d4], ?_, by rw [e6, d6], by rw [e7, d7], ?_, ?_, ?_, ?_, ?_⟩
      · rw [e5, d5, List.filter_cons_of_pos (by simpa using hwin), List.map_cons,
          List.append_assoc, List.singleton_append]
        congr 2
        apply congrArg
        apply List.filter_congr
        intro kv hkv
        exact hcongr kv hkv
      · intro f hf
        rw [e8 f (fun kv hkv => hf kv (List.mem_cons_of_mem _ hkv))]
        exact GoMap.get_set_other _ _ _ _ (fun h => hf (k, m) (List.mem_cons_self _ _) h.symm)
      · intro kv hkv
        rcases List.mem_cons.mp hkv with h1 | h1
        · subst h1
          simp only [hwin, if_true]
          rw [e8 m.Filename hne]
          exact GoMap.get_set_same _ _ _
        · rw [e9 kv h1, hcongr kv h1, GoMap.get_set_other _ _ _ _ (hne kv h1)]
      · exact fun hk => e10 (keyed_set loc hk m)
      · exact fun hn => e11 (GoMap.keys_set_nodup loc _ _ hn)
      · intro hl
        apply e12
        intro kv hkv
        rcases GoMap.mem_set loc _ _ kv hkv with h | h
        · rw [h]; exact hnm (k, m) (List.mem_cons_self _ _)
        · exact hl kv h
    · simp only [hwin, if_false]
      obtain ⟨w2, merged, hloop, e1, e2, e3, e4, e5, e6, e7, e8, e9, e10, e11, e12⟩ :=
        ih w loc (fun kv hkv => hnm kv (List.mem_cons_of_mem _ hkv))
          (fun kv hkv => hdir kv (List.mem_cons_of_mem _ hkv)) hnodup.2
      refine ⟨w2, merged, hloop, e1, e2, e3, e4, ?_, e6, e7, ?_, ?_, e10, e11, e12⟩
      · rw [e5, List.filter_cons_of_neg (by simpa using hwin)]
      · intro f hf
        exact e8 f (fun kv hkv => hf kv (List.mem_cons_of_mem _ hkv))
      · intro kv hkv
        rcases List.mem_cons.mp hkv with h1 | h1
        · subst h1
          simp only [hwin, if_false]
          exact e8 m.Filename hne
        · exact e9 kv h1

theorem ServerSync.uploadLoop_cons (H : List UInt8 → String) (blockSize : Nat)
    (fileInfoMapServer : GoMap FileMetaData) (w : World) (k : String) (m : FileMetaData)
    (rest : List (String × FileMetaData)) :
    ServerSync.uploadLoop H blockSize fileInfoMapServer w ((k, m) :: rest) =
      if localWins fileInfoMapServer m = true then
        match uploadBlocks H blockSize w m with
        | none => none
        | some (w2, m2) =>
          match ServerSync.uploadLoop H blockSize fileInfoMapServer w2 rest with
          | none => none
          | some (w3, others) => some (w3, (k, m2) :: others)
      else
        match ServerSync.uploadLoop H blockSize fileInfoMapServer w rest with
        | none => none
        | some (w3, others) => some (w3, (k, m) :: others) := by
  rw [ServerSync.uploadLoop]
  unfold localWins
  cases hget : fileInfoMapServer.get m.Filename with
  | none => simp
  | some s =>
    by_cases hv : s.Version < m.Version
    · simp [hv]
    · simp [hv]

theorem ServerSync.uploadLoop_spec (H : List UInt8 → String) (blockSize : Nat)
    (hbs : 0 < blockSize) (fileInfoMapServer : GoMap FileMetaData)
    (entries : List (String × FileMetaData))
    (hnm : ∀ kv ∈ entries, isFileName kv.2.Filename = true) :
    ∀ w : World,
      ∃ w2, ServerSync.uploadLoop H blockSize fileInfoMapServer w entries = some (w2, entries) ∧
        w2.dir = w.dir ∧ w2.index = w.index ∧
        downloadsOf w2.trace = downloadsOf w.trace ∧
        uploadsOf w2.trace = uploadsOf w.trace ++
          (entries.filter (fun kv => localWins fileInfoMapServer kv.2)).map
            (fun kv => kv.2.Filename) ∧
        (∀ f, (∀ kv ∈ entries, localWins fileInfoMapServer kv.2 = true → kv.2.Filename ≠ f) →
          w2.metaStore.FileMetaMap.get f = w.metaStore.FileMetaMap.get f) ∧
        (∀ f cur, w.metaStore.FileMetaMap.get f = some cur →
          (∀ kv ∈ entries, kv.2.Filename = f → kv.2.Version ≠ add32 cur.Version 1) →
          w2.metaStore.FileMetaMap.get f = some cur) := by
  induction entries with
  | nil =>
    intro w
    exact ⟨w, rfl, rfl, rfl, rfl, by simp, fun _ _ => rfl, fun _ _ h _ => h⟩
  | cons hd tl ih =>
    obtain ⟨k, m⟩ := hd
    have ih := ih (fun kv hkv => hnm kv (List.mem_cons_of_mem _ hkv))
    intro w
    rw [ServerSync.uploadLoop_cons]
    by_cases hwin : localWins fileInfoMapServer m = true
    · simp only [hwin, if_true]
      obtain ⟨w1, hup, u1, u2, u3, u4, u5, u6⟩ := uploadBlocks_spec H blockSize hbs w m
        (hnm (k, m) (List.mem_cons_self _ _))
      obtain ⟨w2, hloop, e1, e2, e3, e4, e5, e6⟩ := ih w1
      rw [hup]
      simp only [hloop]
      refine ⟨w2, rfl, by rw [e1, u1], by rw [e2, u2], by rw [e3, u3], ?_, ?_, ?_⟩
      · rw [e4, u4, List.filter_cons_of_pos (by simpa using hwin), List.map_cons,
          List.append_assoc, List.singleton_append]
      · intro f hf
        rw [e5 f (fun kv hkv => hf kv (List.mem_cons_of_mem _ hkv))]
        exact u5 f (fun h => hf (k, m) (List.mem_cons_self _ _) hwin h.symm)
      · intro f cur hcur hall
        apply e6 f cur _ (fun kv hkv => hall kv (List.mem_cons_of_mem _ hkv))
        by_cases hf : f = m.Filename
        · subst hf
          rw [u6 cur hcur (hall (k, m) (List.mem_cons_self _ _) rfl)]
          exact hcur
        · rw [u5 f hf]; exact hcur
    · simp only [hwin, if_false]
      obtain ⟨w2, hloop, e1, e2, e3, e4, e5, e6⟩ := ih w
      simp only [hloop]
      refine ⟨w2, rfl, e1, e2, e3, ?_, ?_, ?_⟩
      · rw [e4, List.filter_cons_of_neg (by simpa using hwin)]
      · intro f hf
        exact e5 f (fun kv hkv => hf kv (List.mem_cons_of_mem _ hkv))
      · intro f cur hcur hall
        exact e6 f cur hcur (fun kv hkv => hall kv (List.mem_cons_of_mem _ hkv))

theorem ServerSync.uploadLoop_idle (H : List UInt8 → String) (blockSize : Nat)
    (fileInfoMapServer : GoMap FileMetaData) (entries : List (String × FileMetaData))
    (hidle : ∀ kv ∈ entries, localWins fileInfoMapServer kv.2 = false) (w : World) :
    ServerSync.uploadLoop H blockSize fileInfoMapServer w entries = some (w, entries) := by
  induction entries with
  | nil => rfl
  | cons hd tl ih =>
    obtain ⟨k, m⟩ := hd
    rw [ServerSync.uploadLoop_cons]
    have h1 : ¬ localWins fileInfoMapServer m = true := by
      rw [hidle (k, m) (List.mem_cons_self _ _)]; decide
    rw [if_neg h1, ih (fun kv hkv => hidle kv (List.mem_cons_of_mem _ hkv))]


/-! ## Phase C: `ServerSync` -/

theorem keyedMap_filenames (m : GoMap FileMetaData) (hm : keyed m) :
    m.map (fun kv => kv.2.Filename) = m.keys := by
  unfold GoMap.keys
  apply List.map_congr_left
  intro kv hkv
  exact (hm kv hkv).symm

theorem keyedMap_get_of_mem (m : GoMap FileMetaData) (hm : keyedMap m)
    (kv : String × FileMetaData) (hkv : kv ∈ m) : m.get kv.2.Filename = some kv.2 := by
  rw [← hm.1 kv hkv]
  exact GoMap.get_of_mem_nodup m hm.2 kv.1 kv.2 hkv

theorem keyedMap_mem_filter (m : GoMap FileMetaData) (hm : keyedMap m)
    (P : FileMetaData → Bool) (f : String) :
    f ∈ (m.filter (fun kv => P kv.2)).map (fun kv => kv.2.Filename) ↔
      ∃ e, m.get f = some e ∧ P e = true := by
  simp only [List.mem_map, List.mem_filter]
  constructor
  · rintro ⟨kv, ⟨hkv, hP⟩, rfl⟩
    exact ⟨kv.2, keyedMap_get_of_mem m hm kv hkv, hP⟩
  · rintro ⟨e, hget, hP⟩
    exact ⟨(f, e), ⟨GoMap.mem_of_get m f e hget, hP⟩, keyed_get m hm.1 f e hget⟩

theorem keyedMap_filter_nodup (m : GoMap FileMetaData) (hm : keyedMap m)
    (P : String × FileMetaData → Bool) :
    ((m.filter P).map (fun kv => kv.2.Filename)).Nodup := by
  have hsub : List.Sublist ((m.filter P).map (fun kv => kv.2.Filename))
      (m.map (fun kv => kv.2.Filename)) := (List.filter_sublist m).map _
  apply List.Nodup.sublist hsub
  rw [keyedMap_filenames m hm.1]
  exact hm.2

theorem serverWins_iff (fileInfoMapLocal : GoMap FileMetaData) (s : FileMetaData) :
    serverWins fileInfoMapLocal s = true ↔
      (fileInfoMapLocal.get s.Filename = none ∨
        ∃ l, fileInfoMapLocal.get s.Filename = some l ∧ s.Version ≥ l.Version) := by
  unfold serverWins
  cases fileInfoMapLocal.get s.Filename with
  | none => simp
  | some l => simp

theorem localWins_iff (fileInfoMapServer : GoMap FileMetaData) (l : FileMetaData) :
    localWins fileInfoMapServer l = true ↔
      (fileInfoMapServer.get l.Filename = none ∨
        ∃ s, fileInfoMapServer.get l.Filename = some s ∧ s.Version < l.Version) := by
  unfold localWins
  cases fileInfoMapServer.get l.Filename with
  | none => simp
  | some s => simp

/-- What `ServerSync` returns and does, from its two loops, when the block size is positive, the
server map is a Go map keyed by filename, every name of the server map and of the local map is a
file name and no server entry has the name of a directory. -/
theorem ServerSync_spec (H : List UInt8 → String) (blockSize : Nat) (hbs : 0 < blockSize)
    (w : World) (fileInfoMapLocal : GoMap FileMetaData)
    (hserver : keyedMap w.metaStore.FileMetaMap)
    (hsnames : ∀ kv ∈ w.metaStore.FileMetaMap, isFileName kv.2.Filename = true)
    (hlnames : ∀ kv ∈ fileInfoMapLocal, isFileName kv.2.Filename = true)
    (hdir : ∀ kv ∈ w.metaStore.FileMetaMap, Dir.isDir w.dir kv.2.Filename = false) :
    ∃ w2 merged, ServerSync H blockSize w fileInfoMapLocal = some (w2, merged) ∧
      (∀ f s, w.metaStore.FileMetaMap.get f = some s → serverWins fileInfoMapLocal s = true →
        merged.get f = some s) ∧
      (∀ f, (∀ s, w.metaStore.FileMetaMap.get f = some s → serverWins fileInfoMapLocal s = false) →
        merged.get f = fileInfoMapLocal.get f) ∧
      downloadsOf w2.trace = downloadsOf w.trace ++
        (w.metaStore.FileMetaMap.filter (fun kv => serverWins fileInfoMapLocal kv.2)).map
          (fun kv => kv.2.Filename) ∧
      uploadsOf w2.trace = uploadsOf w.trace ++
        (merged.filter (fun kv => localWins w.metaStore.FileMetaMap kv.2)).map
          (fun kv => kv.2.Filename) ∧
      w2.index = w.index ∧
      (keyedMap fileInfoMapLocal → keyedMap merged) ∧
      (∀ f cur, w.metaStore.FileMetaMap.get f = some cur →
        (∀ kv ∈ merged, kv.2.Filename = f → kv.2.Version ≠ add32 cur.Version 1) →
        w2.metaStore.FileMetaMap.get f = some cur) := by
  have hnames : (w.metaStore.FileMetaMap.map (fun kv => kv.2.Filename)).Nodup := by
    rw [keyedMap_filenames _ hserver.1]; exact hserver.2
  obtain ⟨w1, merged, hloop, e1, e2, e3, e4, e5, e6, e7, e8, e9, e10, e11, e12⟩ :=
    ServerSync.downloadLoop_spec w.metaStore.FileMetaMap
      { w with trace := w.trace ++ [Event.GetFileInfoMap] } fileInfoMapLocal hsnames hdir hnames
  obtain ⟨w2, hup, u1, u2, u3, u4, u5, u6⟩ :=
    ServerSync.uploadLoop_spec H blockSize hbs w.metaStore.FileMetaMap merged (e12 hlnames) w1
  refine ⟨w2, merged, ?_, ?_, ?_, ?_, ?_, ?_, ?_, ?_⟩
  · unfold ServerSync
    simp only [RPCClient.GetFileInfoMap_world, RPCClient.GetFileInfoMap_out, hloop, hup]
  · intro f s hget hwin
    have hmem := GoMap.mem_of_get _ f s hget
    have hname := keyed_get _ hserver.1 f s hget
    have := e9 (f, s) hmem
    simp only [hwin, if_true] at this
    rw [← hname]; exact this
  · intro f hf
    cases hget : w.metaStore.FileMetaMap.get f with
    | none =>
      apply e8 f
      intro kv hkv hname
      have := keyedMap_get_of_mem _ hserver kv hkv
      rw [hname, hget] at this
      simp at this
    | some s =>
      have hmem := GoMap.mem_of_get _ f s hget
      have hname := keyed_get _ hserver.1 f s hget
      have := e9 (f, s) hmem
      simp only [hf s hget] at this
      rw [← hname]
      simpa using this
  · rw [u3, e5]
    simp [downloadsOf_append, downloadsOf]
  · rw [u4, e6]
    simp [uploadsOf_append, uploadsOf]
  · rw [u2, e1]
  · exact fun hl => ⟨e10 hl.1, e11 hl.2⟩
  · intro f cur hcur hall
    exact u6 f cur (by rw [e2]; exact hcur) hall

/-! ## C11: the map `ServerSync` returns -/

/-- C11. For a positive block size, a server map that is a Go map keyed by the filenames of its
entries, server and desired-local entries whose names are file names (not empty, not `.` or `..`,
without path separator or NUL, at most 255 bytes) and a base directory in which no server entry
has the name of a directory, `ServerSync` returns, and the map it returns has as keys the union
of the keys of the desired-local map and of the server map; for every filename on the server that
is absent locally or whose server version is greater than or equal to the local version, the
returned entry is the server's `(filename, version, block hash list)`; for every other filename
the returned entry is the local entry, unchanged. -/
theorem serverSync_result (H : List UInt8 → String) (blockSize : Nat) (w : World)
    (fileInfoMapLocal : GoMap FileMetaData) (hbs : 0 < blockSize)
    (hserver : keyedMap w.metaStore.FileMetaMap)
    (hsnames : ∀ kv ∈ w.metaStore.FileMetaMap, isFileName kv.2.Filename = true)
    (hlnames : ∀ kv ∈ fileInfoMapLocal, isFileName kv.2.Filename = true)
    (hdir : ∀ kv ∈ w.metaStore.FileMetaMap, Dir.isDir w.dir kv.2.Filename = false) :
    ∃ w2 result, ServerSync H blockSize w fileInfoMapLocal = some (w2, result) ∧
      (∀ f, result.has f = (fileInfoMapLocal.has f || w.metaStore.FileMetaMap.has f)) ∧
      (∀ f s, w.metaStore.FileMetaMap.get f = some s →
        (fileInfoMapLocal.get f = none ∨
          ∃ l, fileInfoMapLocal.get f = some l ∧ s.Version ≥ l.Version) →
        result.get f = some
          { Filename := s.Filename, Version := s.Version, BlockHashList := s.BlockHashList }) ∧
      (∀ f, ¬ (∃ s, w.metaStore.FileMetaMap.get f = some s ∧
          (fileInfoMapLocal.get f = none ∨
            ∃ l, fileInfoMapLocal.get f = some l ∧ s.Version ≥ l.Version)) →
        result.get f = fileInfoMapLocal.get f) := by
  obtain ⟨w2, merged, hsync, hA, hB, -, -, -, -, -⟩ :=
    ServerSync_spec H blockSize hbs w fileInfoMapLocal hserver hsnames hlnames hdir
  have hwin : ∀ f s, w.metaStore.FileMetaMap.get f = some s →
      (serverWins fileInfoMapLocal s = true ↔
        (fileInfoMapLocal.get f = none ∨
          ∃ l, fileInfoMapLocal.get f = some l ∧ s.Version ≥ l.Version)) := by
    intro f s hget
    rw [serverWins_iff, keyed_get _ hserver.1 f s hget]
  refine ⟨w2, merged, hsync, ?_, ?_, ?_⟩
  · intro f
    cases hget : w.metaStore.FileMetaMap.get f with
    | none =>
      have hm := hB f (fun s hs => by rw [hget] at hs; simp at hs)
      simp [GoMap.has, hget, hm]
    | some s =>
      by_cases hs : serverWins fileInfoMapLocal s = true
      · rw [show merged.has f = true by simp [GoMap.has, hA f s hget hs]]
        simp [GoMap.has, hget]
      · have hs2 : serverWins fileInfoMapLocal s = false := by simpa using hs
        rw [show merged.has f = fileInfoMapLocal.has f by
          simp only [GoMap.has]
          rw [hB f (fun s2 hs2get => by
            rw [hget] at hs2get
            simp only [Option.some.injEq] at hs2get
            subst hs2get; exact hs2)]]
        have : fileInfoMapLocal.has f = true := by
          rw [hwin f s hget] at hs
          cases hl : fileInfoMapLocal.get f with
          | none => exact absurd (Or.inl hl) hs
          | some l => simp [GoMap.has, hl]
        simp [this]
  · intro f s hget hcond
    exact hA f s hget ((hwin f s hget).mpr hcond)
  · intro f hnot
    apply hB f
    intro s hget
    cases hs : serverWins fileInfoMapLocal s with
    | false => rfl
    | true => exact absurd ⟨s, hget, (hwin f s hget).mp hs⟩ hnot


/-- C11 at a server that holds `a.txt` at version 2 and `c.txt` at version 1, and a desired-local
map that holds `a.txt` at version 2 and `b.txt` at version 1. -/
theorem serverSync_result_witness :
    (0 < 2) ∧
    keyedMap [("a.txt", (⟨"a.txt", 2, ["h1"]⟩ : FileMetaData)), ("c.txt", ⟨"c.txt", 1, ["h2"]⟩)] ∧
    (∀ kv ∈ [("a.txt", (⟨"a.txt", 2, ["h1"]⟩ : FileMetaData)), ("c.txt", ⟨"c.txt", 1, ["h2"]⟩)],
      isFileName kv.2.Filename = true) ∧
    (∀ kv ∈ [("a.txt", (⟨"a.txt", 2, ["h9"]⟩ : FileMetaData)), ("b.txt", ⟨"b.txt", 1, ["h2"]⟩)],
      isFileName kv.2.Filename = true) ∧
    (∀ kv ∈ [("a.txt", (⟨"a.txt", 2, ["h1"]⟩ : FileMetaData)), ("c.txt", ⟨"c.txt", 1, ["h2"]⟩)],
      Dir.isDir [⟨"a.txt", false, [7]⟩, ⟨"b.txt", false, [1, 2]⟩] kv.2.Filename = false) ∧
    ∃ w2 result, ServerSync exampleHash 2
        { dir := [⟨"a.txt", false, [7]⟩, ⟨"b.txt", false, [1, 2]⟩], index := [],
          metaStore := { FileMetaMap := [("a.txt", ⟨"a.txt", 2, ["h1"]⟩),
                                          ("c.txt", ⟨"c.txt", 1, ["h2"]⟩)],
                         BlockStoreAddr := "addr" },
          blockStore := { BlockMap := [("h1", some ⟨[3], 1⟩), ("h2", some ⟨[4, 5], 2⟩)] },
          trace := [] }
        [("a.txt", ⟨"a.txt", 2, ["h9"]⟩), ("b.txt", ⟨"b.txt", 1, ["h2"]⟩)] = some (w2, result) ∧
      (∀ f, result.has f =
        (GoMap.has [("a.txt", (⟨"a.txt", 2, ["h9"]⟩ : FileMetaData)),
            ("b.txt", ⟨"b.txt", 1, ["h2"]⟩)] f ||
          GoMap.has [("a.txt", (⟨"a.txt", 2, ["h1"]⟩ : FileMetaData)),
            ("c.txt", ⟨"c.txt", 1, ["h2"]⟩)] f)) ∧
      (∀ f s, GoMap.get [("a.txt", (⟨"a.txt", 2, ["h1"]⟩ : FileMetaData)),
            ("c.txt", ⟨"c.txt", 1, ["h2"]⟩)] f = some s →
        (GoMap.get [("a.txt", (⟨"a.txt", 2, ["h9"]⟩ : FileMetaData)),
            ("b.txt", ⟨"b.txt", 1, ["h2"]⟩)] f = none ∨
          ∃ l, GoMap.get [("a.txt", (⟨"a.txt", 2, ["h9"]⟩ : FileMetaData)),
            ("b.txt", ⟨"b.txt", 1, ["h2"]⟩)] f = some l ∧ s.Version ≥ l.Version) →
        result.get f = some
          { Filename := s.Filename, Version := s.Version, BlockHashList := s.BlockHashList }) ∧
      (∀ f, ¬ (∃ s, GoMap.get [("a.txt", (⟨"a.txt", 2, ["h1"]⟩ : FileMetaData)),
            ("c.txt", ⟨"c.txt", 1, ["h2"]⟩)] f = some s ∧
          (GoMap.get [("a.txt", (⟨"a.txt", 2, ["h9"]⟩ : FileMetaData)),
              ("b.txt", ⟨"b.txt", 1, ["h2"]⟩)] f = none ∨
            ∃ l, GoMap.get [("a.txt", (⟨"a.txt", 2, ["h9"]⟩ : FileMetaData)),
              ("b.txt", ⟨"b.txt", 1, ["h2"]⟩)] f = some l ∧ s.Version ≥ l.Version)) →
        result.get f = GoMap.get [("a.txt", (⟨"a.txt", 2, ["h9"]⟩ : FileMetaData)),
              ("b.txt", ⟨"b.txt", 1, ["h2"]⟩)] f) :=
  ⟨by decide, by decide, by decide, by decide, by decide,
    serverSync_result exampleHash 2
      { dir := [⟨"a.txt", false, [7]⟩, ⟨"b.txt", false, [1, 2]⟩], index := [],
        metaStore := { FileMetaMap := [("a.txt", ⟨"a.txt", 2, ["h1"]⟩),
                                        ("c.txt", ⟨"c.txt", 1, ["h2"]⟩)],
                       BlockStoreAddr := "addr" },
        blockStore := { BlockMap := [("h1", some ⟨[3], 1⟩), ("h2", some ⟨[4, 5], 2⟩)] },
        trace := [] }
      [("a.txt", ⟨"a.txt", 2, ["h9"]⟩), ("b.txt", ⟨"b.txt", 1, ["h2"]⟩)]
      (by decide) (by decide) (by decide) (by decide) (by decide)⟩

/-! ## C13: a pass with nothing to do -/

theorem ServerSync.downloadLoop_same (entries : List (String × FileMetaData)) :
    ∀ (w : World) (fileInfoMapLocal : GoMap FileMetaData),
      (∀ kv ∈ entries, isFileName kv.2.Filename = true) →
      (∀ kv ∈ entries, Dir.isDir w.dir kv.2.Filename = false) →
      (∀ kv ∈ entries, fileInfoMapLocal.get kv.2.Filename = some kv.2) →
      ∃ w2, ServerSync.downloadLoop w entries fileInfoMapLocal = some (w2, fileInfoMapLocal) ∧
        w2.metaStore = w.metaStore ∧ w2.blockStore = w.blockStore ∧ w2.index = w.index ∧
        writesOf w2.trace = writesOf w.trace ∧ uploadsOf w2.trace = uploadsOf w.trace := by
  induction entries with
  | nil => intro w loc _ _ _; exact ⟨w, rfl, rfl, rfl, rfl, rfl, rfl⟩
  | cons hd tl ih =>
    obtain ⟨k, m⟩ := hd
    intro w loc hnm hdir hsame
    have hget := hsame (k, m) (List.mem_cons_self _ _)
    have hwin : serverWins loc m = true := by
      rw [serverWins_iff]
      exact Or.inr ⟨m, hget, le_refl _⟩
    obtain ⟨w1, hdl, d1, d2, d3, d4, d5, d6, d7⟩ :=
      downloadBlocks_spec w m (hnm (k, m) (List.mem_cons_self _ _))
        (hdir (k, m) (List.mem_cons_self _ _))
    obtain ⟨w2, hloop, e1, e2, e3, e4, e5⟩ := ih w1 loc
      (fun kv hkv => hnm kv (List.mem_cons_of_mem _ hkv))
      (fun kv hkv => by rw [d4]; exact hdir kv (List.mem_cons_of_mem _ hkv))
      (fun kv hkv => hsame kv (List.mem_cons_of_mem _ hkv))
    refine ⟨w2, ?_, by rw [e1, d2], by rw [e2, d3], by rw [e3, d1], by rw [e4, d7],
      by rw [e5, d6]⟩
    rw [ServerSync.downloadLoop_cons, if_pos hwin, hdl]
    simp only [GoMap.set_of_get loc m.Filename m hget]
    exact hloop

/-- C13. For every server map that is a Go map keyed by the filenames of its entries, with every
entry named by a file name (not empty, not `.` or `..`, without path separator or NUL, at most
255 bytes) and none named like a directory of the base directory, and every desired-local map
equal to it (the same entry under every filename, in whatever order the entries are listed),
`ServerSync` returns a map equal to its input and issues no `PutBlock` and no `UpdateFile` call;
both servers are left as they were. -/
theorem serverSync_converged (H : List UInt8 → String) (blockSize : Nat) (w : World)
    (fileInfoMapLocal : GoMap FileMetaData)
    (hserver : keyedMap w.metaStore.FileMetaMap) (hlocal : keyedMap fileInfoMapLocal)
    (hequal : ∀ f, fileInfoMapLocal.get f = w.metaStore.FileMetaMap.get f)
    (hnames : ∀ kv ∈ w.metaStore.FileMetaMap, isFileName kv.2.Filename = true)
    (hdir : ∀ kv ∈ w.metaStore.FileMetaMap, Dir.isDir w.dir kv.2.Filename = false) :
    ∃ w2, ServerSync H blockSize w fileInfoMapLocal = some (w2, fileInfoMapLocal) ∧
      writesOf w2.trace = writesOf w.trace ∧
      w2.metaStore = w.metaStore ∧ w2.blockStore = w.blockStore := by
  have hsame : ∀ kv ∈ w.metaStore.FileMetaMap,
      fileInfoMapLocal.get kv.2.Filename = some kv.2 :=
    fun kv hkv => by rw [hequal]; exact keyedMap_get_of_mem _ hserver kv hkv
  obtain ⟨w1, hloop, e1, e2, e3, e4, e5⟩ :=
    ServerSync.downloadLoop_same w.metaStore.FileMetaMap
      { w with trace := w.trace ++ [Event.GetFileInfoMap] } fileInfoMapLocal hnames hdir hsame
  have hidle : ∀ kv ∈ fileInfoMapLocal, localWins w.metaStore.FileMetaMap kv.2 = false := by
    intro kv hkv
    have := keyedMap_get_of_mem _ hlocal kv hkv
    rw [hequal] at this
    unfold localWins
    rw [this]
    simp
  refine ⟨w1, ?_, ?_, e1, e2⟩
  · unfold ServerSync
    simp only [RPCClient.GetFileInfoMap_world, RPCClient.GetFileInfoMap_out, hloop]
    exact ServerSync.uploadLoop_idle H blockSize _ _ hidle w1
  · rw [e4]
    simp [writesOf_append, writesOf]

/-- C13 at a server that holds `a.txt` at version 2, live, and `b.txt` at version 3, deleted, and
a desired-local map that lists the same two entries in the other order. -/
theorem serverSync_converged_witness :
    keyedMap [("a.txt", (⟨"a.txt", 2, ["h1"]⟩ : FileMetaData)), ("b.txt", ⟨"b.txt", 3, ["0"]⟩)] ∧
    keyedMap [("b.txt", (⟨"b.txt", 3, ["0"]⟩ : FileMetaData)), ("a.txt", ⟨"a.txt", 2, ["h1"]⟩)] ∧
    (∀ kv ∈ [("a.txt", (⟨"a.txt", 2, ["h1"]⟩ : FileMetaData)), ("b.txt", ⟨"b.txt", 3, ["0"]⟩)],
      isFileName kv.2.Filename = true) ∧
    (∀ kv ∈ [("a.txt", (⟨"a.txt", 2, ["h1"]⟩ : FileMetaData)), ("b.txt", ⟨"b.txt", 3, ["0"]⟩)],
      Dir.isDir [⟨"a.txt", false, [3]⟩] kv.2.Filename = false) ∧
    GoMap.get [("b.txt", (⟨"b.txt", 3, ["0"]⟩ : FileMetaData)), ("a.txt", ⟨"a.txt", 2, ["h1"]⟩)]
        "a.txt"
      = GoMap.get [("a.txt", (⟨"a.txt", 2, ["h1"]⟩ : FileMetaData)),
          ("b.txt", ⟨"b.txt", 3, ["0"]⟩)] "a.txt" ∧
    ∃ w2, ServerSync exampleHash 2
        { dir := [⟨"a.txt", false, [3]⟩], index := [],
          metaStore := { FileMetaMap := [("a.txt", ⟨"a.txt", 2, ["h1"]⟩),
                                          ("b.txt", ⟨"b.txt", 3, ["0"]⟩)],
                         BlockStoreAddr := "addr" },
          blockStore := { BlockMap := [("h1", some ⟨[3], 1⟩)] }, trace := [] }
        [("b.txt", ⟨"b.txt", 3, ["0"]⟩), ("a.txt", ⟨"a.txt", 2, ["h1"]⟩)]
        = some (w2, [("b.txt", ⟨"b.txt", 3, ["0"]⟩), ("a.txt", ⟨"a.txt", 2, ["h1"]⟩)]) ∧
      writesOf w2.trace = writesOf [] ∧
      w2.metaStore = { FileMetaMap := [("a.txt", ⟨"a.txt", 2, ["h1"]⟩),
                                        ("b.txt", ⟨"b.txt", 3, ["0"]⟩)],
                       BlockStoreAddr := "addr" } ∧
      w2.blockStore = { BlockMap := [("h1", some ⟨[3], 1⟩)] } :=
  ⟨by decide, by decide, by decide, by decide, by decide,
    serverSync_converged exampleHash 2
      { dir := [⟨"a.txt", false, [3]⟩], index := [],
        metaStore := { FileMetaMap := [("a.txt", ⟨"a.txt", 2, ["h1"]⟩),
                                        ("b.txt", ⟨"b.txt", 3, ["0"]⟩)],
                       BlockStoreAddr := "addr" },
        blockStore := { BlockMap := [("h1", some ⟨[3], 1⟩)] }, trace := [] }
      [("b.txt", ⟨"b.txt", 3, ["0"]⟩), ("a.txt", ⟨"a.txt", 2, ["h1"]⟩)]
      (by decide) (by decide)
      (by
        intro f
        by_cases hb : "b.txt" = f
        · subst hb; decide
        · by_cases ha : "a.txt" = f
          · subst ha; decide
          · simp [GoMap.get, ha, hb])
      (by decide) (by decide)⟩

/-! ## C20: each file is downloaded or uploaded, not both -/

/-- C20. For a positive block size, a desired-local map and a server map that are Go maps keyed
by filename, with every entry of either map named by a file name (not empty, not `.` or `..`,
without path separator or NUL, at most 255 bytes) and no server entry named like a directory,
`ServerSync` returns; the calls of `downloadBlocks` it makes are for the filenames `D` and the
calls of `uploadBlocks` for the filenames `U`, each filename at most once, where a filename is in
`D` iff it is on the server and is absent locally or has a server version greater than or equal
to its local version, and is in `U` iff it is in the local map and is absent from the server or
has a server version less than its local version. Every filename of either map is in exactly one
of `D` and `U`; a file whose local and server entries are identical is in `D`. -/
theorem serverSync_classifies (H : List UInt8 → String) (blockSize : Nat) (w : World)
    (fileInfoMapLocal : GoMap FileMetaData) (hbs : 0 < blockSize)
    (hserver : keyedMap w.metaStore.FileMetaMap) (hlocal : keyedMap fileInfoMapLocal)
    (hsnames : ∀ kv ∈ w.metaStore.FileMetaMap, isFileName kv.2.Filename = true)
    (hlnames : ∀ kv ∈ fileInfoMapLocal, isFileName kv.2.Filename = true)
    (hdir : ∀ kv ∈ w.metaStore.FileMetaMap, Dir.isDir w.dir kv.2.Filename = false) :
    ∃ w2 result D U, ServerSync H blockSize w fileInfoMapLocal = some (w2, result) ∧
      downloadsOf w2.trace = downloadsOf w.trace ++ D ∧
      uploadsOf w2.trace = uploadsOf w.trace ++ U ∧
      D.Nodup ∧ U.Nodup ∧
      (∀ f, f ∈ D ↔ ∃ s, w.metaStore.FileMetaMap.get f = some s ∧
        (fileInfoMapLocal.get f = none ∨
          ∃ l, fileInfoMapLocal.get f = some l ∧ s.Version ≥ l.Version)) ∧
      (∀ f, f ∈ U ↔ ∃ l, fileInfoMapLocal.get f = some l ∧
        (w.metaStore.FileMetaMap.get f = none ∨
          ∃ s, w.metaStore.FileMetaMap.get f = some s ∧ s.Version < l.Version)) ∧
      (∀ f, (fileInfoMapLocal.has f = true ∨ w.metaStore.FileMetaMap.has f = true) →
        (f ∈ D ∧ f ∉ U) ∨ (f ∉ D ∧ f ∈ U)) ∧
      (∀ f e, fileInfoMapLocal.get f = some e → w.metaStore.FileMetaMap.get f = some e →
        f ∈ D ∧ f ∉ U) := by
  obtain ⟨w2, merged, hsync, hA, hB, hD, hU, -, hkm, -⟩ :=
    ServerSync_spec H blockSize hbs w fileInfoMapLocal hserver hsnames hlnames hdir
  have hmerged := hkm hlocal
  have hwin : ∀ f s, w.metaStore.FileMetaMap.get f = some s →
      (serverWins fileInfoMapLocal s = true ↔
        (fileInfoMapLocal.get f = none ∨
          ∃ l, fileInfoMapLocal.get f = some l ∧ s.Version ≥ l.Version)) := by
    intro f s hget
    rw [serverWins_iff, keyed_get _ hserver.1 f s hget]
  have hlw : ∀ f l, fileInfoMapLocal.get f = some l →
      (localWins w.metaStore.FileMetaMap l = true ↔
        (w.metaStore.FileMetaMap.get f = none ∨
          ∃ s, w.metaStore.FileMetaMap.get f = some s ∧ s.Version < l.Version)) := by
    intro f l hget
    rw [localWins_iff, keyed_get _ hlocal.1 f l hget]
  have memD : ∀ f, f ∈ (w.metaStore.FileMetaMap.filter
      (fun kv => serverWins fileInfoMapLocal kv.2)).map (fun kv => kv.2.Filename) ↔
      ∃ s, w.metaStore.FileMetaMap.get f = some s ∧
        (fileInfoMapLocal.get f = none ∨
          ∃ l, fileInfoMapLocal.get f = some l ∧ s.Version ≥ l.Version) := by
    intro f
    rw [keyedMap_mem_filter _ hserver (fun e => serverWins fileInfoMapLocal e) f]
    constructor
    · rintro ⟨s, hget, hs⟩; exact ⟨s, hget, (hwin f s hget).mp hs⟩
    · rintro ⟨s, hget, hs⟩; exact ⟨s, hget, (hwin f s hget).mpr hs⟩
  have memU : ∀ f, f ∈ (merged.filter
      (fun kv => localWins w.metaStore.FileMetaMap kv.2)).map (fun kv => kv.2.Filename) ↔
      ∃ l, fileInfoMapLocal.get f = some l ∧
        (w.metaStore.FileMetaMap.get f = none ∨
          ∃ s, w.metaStore.FileMetaMap.get f = some s ∧ s.Version < l.Version) := by
    intro f
    rw [keyedMap_mem_filter _ hmerged (fun e => localWins w.metaStore.FileMetaMap e) f]
    by_cases hcd : ∃ s, w.metaStore.FileMetaMap.get f = some s ∧
        serverWins fileInfoMapLocal s = true
    · obtain ⟨s, hget, hs⟩ := hcd
      have hm := hA f s hget hs
      have hname := keyed_get _ hserver.1 f s hget
      constructor
      · rintro ⟨e, he, hw⟩
        rw [hm] at he
        simp only [Option.some.injEq] at he
        subst he
        rw [localWins_iff, hname, hget] at hw
        rcases hw with h | ⟨s2, h2, h3⟩
        · simp at h
        · simp only [Option.some.injEq] at h2
          subst h2
          exact absurd h3 (lt_irrefl _)
      · rintro ⟨l, hl, hcond⟩
        exfalso
        rcases (hwin f s hget).mp hs with h | ⟨l2, hl2, hge⟩
        · rw [h] at hl; simp at hl
        · rw [hl] at hl2
          simp only [Option.some.injEq] at hl2
          subst hl2
          rcases hcond with h | ⟨s2, hs2, hlt⟩
          · rw [h] at hget; simp at hget
          · rw [hget] at hs2
            simp only [Option.some.injEq] at hs2
            subst hs2
            omega
    · have hm : merged.get f = fileInfoMapLocal.get f := by
        apply hB f
        intro s hget
        cases hs : serverWins fileInfoMapLocal s with
        | false => rfl
        | true => exact absurd ⟨s, hget, hs⟩ hcd
      rw [hm]
      constructor
      · rintro ⟨l, hl, hw⟩; exact ⟨l, hl, (hlw f l hl).mp hw⟩
      · rintro ⟨l, hl, hw⟩; exact ⟨l, hl, (hlw f l hl).mpr hw⟩
  refine ⟨w2, merged, _, _, hsync, hD, hU, keyedMap_filter_nodup _ hserver _,
    keyedMap_filter_nodup _ hmerged _, memD, memU, ?_, ?_⟩
  · intro f hf
    rw [memD f, memU f]
    cases hsget : w.metaStore.FileMetaMap.get f with
    | none =>
      right
      refine ⟨fun ⟨s, hs, _⟩ => by simp at hs, ?_⟩
      cases hlget : fileInfoMapLocal.get f with
      | none =>
        exfalso
        rcases hf with h | h
        · simp [GoMap.has, hlget] at h
        · simp [GoMap.has, hsget] at h
      | some l => exact ⟨l, rfl, Or.inl rfl⟩
    | some s =>
      cases hlget : fileInfoMapLocal.get f with
      | none =>
        left
        exact ⟨⟨s, rfl, Or.inl rfl⟩, fun ⟨l, hl, _⟩ => by simp at hl⟩
      | some l =>
        by_cases hge : s.Version ≥ l.Version
        · left
          refine ⟨⟨s, rfl, Or.inr ⟨l, rfl, hge⟩⟩, ?_⟩
          rintro ⟨l2, hl2, h | ⟨s2, hs2, hlt⟩⟩
          · simp at h
          · simp only [Option.some.injEq] at hl2 hs2
            subst hl2; subst hs2
            omega
        · right
          refine ⟨?_, ⟨l, rfl, Or.inr ⟨s, rfl, by omega⟩⟩⟩
          rintro ⟨s2, hs2, h | ⟨l2, hl2, hge2⟩⟩
          · simp at h
          · simp only [Option.some.injEq] at hl2 hs2
            subst hl2; subst hs2
            exact hge hge2
  · intro f e hl hs
    rw [memD f, memU f]
    refine ⟨⟨e, hs, Or.inr ⟨e, hl, le_refl _⟩⟩, ?_⟩
    rintro ⟨l2, hl2, h | ⟨s2, hs2, hlt⟩⟩
    · rw [hs] at h; simp at h
    · rw [hl] at hl2; rw [hs] at hs2
      simp only [Option.some.injEq] at hl2 hs2
      subst hl2; subst hs2
      exact absurd hlt (lt_irrefl _)

/-- C20 at a server that holds `a.txt` at version 2 and `c.txt` at version 1, and a desired-local
map that holds the same `a.txt` and `b.txt` at version 1. -/
theorem serverSync_classifies_witness :
    (0 < 2) ∧
    keyedMap [("a.txt", (⟨"a.txt", 2, ["h1"]⟩ : FileMetaData)), ("c.txt", ⟨"c.txt", 1, ["h2"]⟩)] ∧
    keyedMap [("a.txt", (⟨"a.txt", 2, ["h1"]⟩ : FileMetaData)), ("b.txt", ⟨"b.txt", 1, ["h2"]⟩)] ∧
    (∀ kv ∈ [("a.txt", (⟨"a.txt", 2, ["h1"]⟩ : FileMetaData)), ("c.txt", ⟨"c.txt", 1, ["h2"]⟩)],
      isFileName kv.2.Filename = true) ∧
    (∀ kv ∈ [("a.txt", (⟨"a.txt", 2, ["h1"]⟩ : FileMetaData)), ("b.txt", ⟨"b.txt", 1, ["h2"]⟩)],
      isFileName kv.2.Filename = true) ∧
    (∀ kv ∈ [("a.txt", (⟨"a.txt", 2, ["h1"]⟩ : FileMetaData)), ("c.txt", ⟨"c.txt", 1, ["h2"]⟩)],
      Dir.isDir [⟨"a.txt", false, [3]⟩, ⟨"b.txt", false, [1, 2]⟩] kv.2.Filename = false) ∧
    ∃ w2 result D U, ServerSync exampleHash 2
        { dir := [⟨"a.txt", false, [3]⟩, ⟨"b.txt", false, [1, 2]⟩], index := [],
          metaStore := { FileMetaMap := [("a.txt", ⟨"a.txt", 2, ["h1"]⟩),
                                          ("c.txt", ⟨"c.txt", 1, ["h2"]⟩)],
                         BlockStoreAddr := "addr" },
          blockStore := { BlockMap := [("h1", some ⟨[3], 1⟩), ("h2", some ⟨[4, 5], 2⟩)] },
          trace := [] }
        [("a.txt", ⟨"a.txt", 2, ["h1"]⟩), ("b.txt", ⟨"b.txt", 1, ["h2"]⟩)] = some (w2, result) ∧
      downloadsOf w2.trace = downloadsOf [] ++ D ∧
      uploadsOf w2.trace = uploadsOf [] ++ U ∧
      D.Nodup ∧ U.Nodup ∧
      (∀ f, f ∈ D ↔ ∃ s, GoMap.get [("a.txt", (⟨"a.txt", 2, ["h1"]⟩ : FileMetaData)),
            ("c.txt", ⟨"c.txt", 1, ["h2"]⟩)] f = some s ∧
        (GoMap.get [("a.txt", (⟨"a.txt", 2, ["h1"]⟩ : FileMetaData)),
            ("b.txt", ⟨"b.txt", 1, ["h2"]⟩)] f = none ∨
          ∃ l, GoMap.get [("a.txt", (⟨"a.txt", 2, ["h1"]⟩ : FileMetaData)),
            ("b.txt", ⟨"b.txt", 1, ["h2"]⟩)] f = some l ∧ s.Version ≥ l.Version)) ∧
      (∀ f, f ∈ U ↔ ∃ l, GoMap.get [("a.txt", (⟨"a.txt", 2, ["h1"]⟩ : FileMetaData)),
            ("b.txt", ⟨"b.txt", 1, ["h2"]⟩)] f = some l ∧
        (GoMap.get [("a.txt", (⟨"a.txt", 2, ["h1"]⟩ : FileMetaData)),
            ("c.txt", ⟨"c.txt", 1, ["h2"]⟩)] f = none ∨
          ∃ s, GoMap.get [("a.txt", (⟨"a.txt", 2, ["h1"]⟩ : FileMetaData)),
            ("c.txt", ⟨"c.txt", 1, ["h2"]⟩)] f = some s ∧ s.Version < l.Version)) ∧
      (∀ f, (GoMap.has [("a.txt", (⟨"a.txt", 2, ["h1"]⟩ : FileMetaData)),
            ("b.txt", ⟨"b.txt", 1, ["h2"]⟩)] f = true ∨
          GoMap.has [("a.txt", (⟨"a.txt", 2, ["h1"]⟩ : FileMetaData)),
            ("c.txt", ⟨"c.txt", 1, ["h2"]⟩)] f = true) →
        (f ∈ D ∧ f ∉ U) ∨ (f ∉ D ∧ f ∈ U)) ∧
      (∀ f e, GoMap.get [("a.txt", (⟨"a.txt", 2, ["h1"]⟩ : FileMetaData)),
            ("b.txt", ⟨"b.txt", 1, ["h2"]⟩)] f = some e →
        GoMap.get [("a.txt", (⟨"a.txt", 2, ["h1"]⟩ : FileMetaData)),
            ("c.txt", ⟨"c.txt", 1, ["h2"]⟩)] f = some e →
        f ∈ D ∧ f ∉ U) :=
  ⟨by decide, by decide, by decide, by decide, by decide, by decide,
    serverSync_classifies exampleHash 2
      { dir := [⟨"a.txt", false, [3]⟩, ⟨"b.txt", false, [1, 2]⟩], index := [],
        metaStore := { FileMetaMap := [("a.txt", ⟨"a.txt", 2, ["h1"]⟩),
                                        ("c.txt", ⟨"c.txt", 1, ["h2"]⟩)],
                       BlockStoreAddr := "addr" },
        blockStore := { BlockMap := [("h1", some ⟨[3], 1⟩), ("h2", some ⟨[4, 5], 2⟩)] },
        trace := [] }
      [("a.txt", ⟨"a.txt", 2, ["h1"]⟩), ("b.txt", ⟨"b.txt", 1, ["h2"]⟩)]
      (by decide) (by decide) (by decide) (by decide) (by decide) (by decide)⟩


/-! ## C16: a pass in which an upload is rejected -/

theorem foldl_set_keyed (table : List IndexRow) (pairs : List (String × Int))
    (acc : GoMap FileMetaData) (hacc : keyed acc) :
    keyed (pairs.foldl (fun fileMetaMap fv =>
      fileMetaMap.set fv.1
        { Filename := fv.1, Version := fv.2,
          BlockHashList := (getTuplesByFileName table fv.1).map Prod.snd }) acc) := by
  induction pairs generalizing acc with
  | nil => exact hacc
  | cons fv rest ih =>
    simp only [List.foldl_cons]
    exact ih _ (keyed_set acc hacc
      { Filename := fv.1, Version := fv.2,
        BlockHashList := (getTuplesByFileName table fv.1).map Prod.snd })

theorem LoadMetaFromMetaFile_keyed (table : List IndexRow) :
    keyed (LoadMetaFromMetaFile table) :=
  foldl_set_keyed table _ [] (fun _ hkv => absurd hkv (List.not_mem_nil _))

theorem scan_nodup (H : List UInt8 → String) (blockSize : Nat) (hbs : 0 < blockSize)
    (metaMapDB : GoMap FileMetaData) (files : List FileInfo) :
    ∀ acc res : GoMap FileMetaData,
      LocalSyncDB.scan H blockSize metaMapDB files acc = some res →
      acc.keys.Nodup → res.keys.Nodup := by
  induction files with
  | nil =>
    intro acc res h hacc
    simp only [LocalSyncDB.scan, Option.some.injEq] at h
    rw [← h]; exact hacc
  | cons fi rest ih =>
    intro acc res h hacc
    simp only [LocalSyncDB.scan, scanStep_eq H blockSize hbs] at h
    apply ih _ res h
    by_cases hv : CheckValidFile fi = true
    · simp only [hv, if_true]
      exact GoMap.keys_set_nodup _ _ _ hacc
    · simpa [hv] using hacc

theorem deleted_nodup (metaMapDB : GoMap FileMetaData) (entries : List (String × FileMetaData)) :
    ∀ acc res : GoMap FileMetaData,
      LocalSyncDB.deleted metaMapDB entries acc = some res →
      acc.keys.Nodup → res.keys.Nodup := by
  induction entries with
  | nil =>
    intro acc res h hacc
    simp only [LocalSyncDB.deleted, Option.some.injEq] at h
    rw [← h]; exact hacc
  | cons hd tl ih =>
    obtain ⟨k, m⟩ := hd
    intro acc res h hacc
    simp only [LocalSyncDB.deleted] at h
    cases hget : metaMapDB.get m.Filename with
    | none =>
      by_cases hhas : acc.has m.Filename = true
      · simp only [LocalSyncDB.deletedStep, hhas, if_true] at h
        exact ih acc res h hacc
      · simp [LocalSyncDB.deletedStep, hhas, hget] at h
    | some e =>
      rw [deletedStep_eq metaMapDB acc m e hget] at h
      simp only at h
      apply ih _ res h
      by_cases hhas : acc.has m.Filename = true
      · simp only [hhas, if_true]; exact hacc
      · simp only [hhas]
        exact GoMap.keys_set_nodup _ _ _ hacc

theorem LocalSyncDB_nodup (H : List UInt8 → String) (blockSize : Nat) (hbs : 0 < blockSize)
    (files : List FileInfo) (metaMapDB res : GoMap FileMetaData)
    (h : LocalSyncDB H blockSize files metaMapDB = some res) : res.keys.Nodup := by
  unfold LocalSyncDB at h
  cases hscan : LocalSyncDB.scan H blockSize metaMapDB files [] with
  | none => rw [hscan] at h; simp at h
  | some mid =>
    rw [hscan] at h
    simp only at h
    exact deleted_nodup metaMapDB metaMapDB mid res h
      (scan_nodup H blockSize hbs metaMapDB files [] mid hscan (by simp [GoMap.keys]))

/-- C16, as stated, fails. (1) A client whose index records `a.txt` at version 2 changes the file
while the server holds `a.txt` at version 1: the upload of `(a.txt, 3)` is rejected with a version
conflict, the server keeps version 1, and yet the index written by `ClientSync` records `(a.txt,
3, [h1])` and not the entry `(a.txt, 2, [hx])` it had before the pass. (2) With a MetaStore that
has no block store address the `PutBlock` for the new file `b.txt` fails, and yet the `UpdateFile`
is issued and accepted: the server's metadata map gets `b.txt`, and so does the index. -/
theorem clientSync_partial_failure_counterexample :
    LoadMetaFromMetaFile [⟨"a.txt", 2, 0, "hx"⟩] = [("a.txt", ⟨"a.txt", 2, ["hx"]⟩)] ∧
    (ClientSync exampleHash 2
        { dir := [⟨"a.txt", false, [1]⟩], index := [⟨"a.txt", 2, 0, "hx"⟩],
          metaStore := { FileMetaMap := [("a.txt", ⟨"a.txt", 1, ["h0"]⟩)],
                         BlockStoreAddr := "addr" },
          blockStore := NewBlockStore, trace := [] }).map
      (fun w => (writesOf w.trace, w.metaStore.FileMetaMap, LoadMetaFromMetaFile w.index))
      = some ([Event.PutBlock ⟨[1], 1⟩ true, Event.UpdateFile ⟨"a.txt", 3, ["h1"]⟩ false],
          [("a.txt", ⟨"a.txt", 1, ["h0"]⟩)], [("a.txt", ⟨"a.txt", 3, ["h1"]⟩)]) ∧
    (ClientSync exampleHash 2
        { dir := [⟨"b.txt", false, [1]⟩], index := [], metaStore := NewMetaStore "",
          blockStore := NewBlockStore, trace := [] }).map
      (fun w => (writesOf w.trace, w.metaStore.FileMetaMap, LoadMetaFromMetaFile w.index))
      = some ([Event.PutBlock ⟨[1], 1⟩ false, Event.UpdateFile ⟨"b.txt", 1, ["h1"]⟩ true],
          [("b.txt", ⟨"b.txt", 1, ["h1"]⟩)], [("b.txt", ⟨"b.txt", 1, ["h1"]⟩)]) := by
  decide


/-! ## C16: the `UpdateFile` calls of a pass and what the MetaStore keeps -/

theorem updatesOf_append (f : String) (a b : List Event) :
    updatesOf f (a ++ b) = updatesOf f a ++ updatesOf f b := by
  simp [updatesOf, List.filterMap_append]

theorem updatesOf_writesOf (f : String) (t : List Event) :
    updatesOf f (writesOf t) = updatesOf f t := by
  induction t with
  | nil => rfl
  | cons e rest ih =>
    have hcons : ∀ x : Event, updatesOf f (x :: rest) = updatesOf f [x] ++ updatesOf f rest :=
      fun x => updatesOf_append f [x] rest
    have hw : ∀ x : Event, writesOf (x :: rest) = writesOf [x] ++ writesOf rest :=
      fun x => writesOf_append [x] rest
    rw [hw, updatesOf_append, ih, hcons]
    congr 1
    cases e <;> rfl

theorem MetaStore.rejected_keeps (f : String) (w1 w2 w3 : World)
    (h12 : ∃ calls, updatesOf f w2.trace = updatesOf f w1.trace ++ calls ∧
      ((∀ a ∈ calls, a = false) →
        w2.metaStore.FileMetaMap.get f = w1.metaStore.FileMetaMap.get f))
    (h23 : ∃ calls, updatesOf f w3.trace = updatesOf f w2.trace ++ calls ∧
      ((∀ a ∈ calls, a = false) →
        w3.metaStore.FileMetaMap.get f = w2.metaStore.FileMetaMap.get f)) :
    ∃ calls, updatesOf f w3.trace = updatesOf f w1.trace ++ calls ∧
      ((∀ a ∈ calls, a = false) →
        w3.metaStore.FileMetaMap.get f = w1.metaStore.FileMetaMap.get f) := by
  obtain ⟨c1, t1, k1⟩ := h12
  obtain ⟨c2, t2, k2⟩ := h23
  refine ⟨c1 ++ c2, by rw [t2, t1, List.append_assoc], fun h => ?_⟩
  rw [k2 (fun a ha => h a (List.mem_append_right _ ha)),
    k1 (fun a ha => h a (List.mem_append_left _ ha))]

theorem MetaStore.kept_of_frame (f : String) (w1 w2 : World)
    (hstore : w2.metaStore = w1.metaStore) (hwrites : writesOf w2.trace = writesOf w1.trace) :
    ∃ calls, updatesOf f w2.trace = updatesOf f w1.trace ++ calls ∧
      ((∀ a ∈ calls, a = false) →
        w2.metaStore.FileMetaMap.get f = w1.metaStore.FileMetaMap.get f) := by
  refine ⟨[], ?_, fun _ => by rw [hstore]⟩
  rw [List.append_nil, ← updatesOf_writesOf f w2.trace, hwrites, updatesOf_writesOf]

theorem RPCClient.UpdateFile_rejected (w : World) (p : FileMetaData) (v : Int) (f : String) :
    ∃ calls, updatesOf f (RPCClient.UpdateFile w p v).world.trace = updatesOf f w.trace ++ calls ∧
      ((∀ a ∈ calls, a = false) →
        (RPCClient.UpdateFile w p v).world.metaStore.FileMetaMap.get f
          = w.metaStore.FileMetaMap.get f) := by
  cases h : (w.metaStore.UpdateFile p).err with
  | none =>
    rw [RPCClient.UpdateFile_of_ok w p v h]
    refine ⟨updatesOf f [Event.UpdateFile p true], updatesOf_append f _ _, fun hall => ?_⟩
    show (w.metaStore.UpdateFile p).store.FileMetaMap.get f = _
    rw [UpdateFile_store_get]
    by_cases hf : p.Filename = f
    · have := hall true (by simp [updatesOf, hf])
      exact absurd this (by decide)
    · rw [if_neg (fun hc => hf hc.2.symm)]
  | some e =>
    rw [RPCClient.UpdateFile_of_err w p v e h]
    refine ⟨updatesOf f [Event.UpdateFile p false], updatesOf_append f _ _, fun _ => ?_⟩
    show (w.metaStore.UpdateFile p).store.FileMetaMap.get f = _
    rw [UpdateFile_store_get, if_neg (fun hc => by rw [h] at hc; simp at hc)]

theorem RPCClient.PutBlock_writes (H : List UInt8 → String) (w : World) (b : Block) (a : String)
    (s : Bool) (f : String) :
    updatesOf f (RPCClient.PutBlock H w b a s).world.trace = updatesOf f w.trace := by
  unfold RPCClient.PutBlock
  by_cases ha : a = ""
  · simp [ha, updatesOf_append, updatesOf]
  · simp only [ha, if_false]
    split <;> simp [updatesOf_append, updatesOf]

theorem uploadBlocks.loop_rejected (H : List UInt8 → String) (a : String) (f : String)
    (blocks : List Block) :
    ∀ (w : World) (metaLocal : FileMetaData),
      ∃ calls, updatesOf f (uploadBlocks.loop H a w blocks metaLocal).1.trace
          = updatesOf f w.trace ++ calls ∧
        ((∀ x ∈ calls, x = false) →
          (uploadBlocks.loop H a w blocks metaLocal).1.metaStore.FileMetaMap.get f
            = w.metaStore.FileMetaMap.get f) := by
  induction blocks with
  | nil =>
    intro w metaLocal
    exact ⟨[], by simp [uploadBlocks.loop], fun _ => rfl⟩
  | cons block rest ih =>
    intro w metaLocal
    simp only [uploadBlocks.loop]
    have h1 : ∃ calls, updatesOf f (RPCClient.PutBlock H w block a false).world.trace
          = updatesOf f w.trace ++ calls ∧
        ((∀ x ∈ calls, x = false) →
          (RPCClient.PutBlock H w block a false).world.metaStore.FileMetaMap.get f
            = w.metaStore.FileMetaMap.get f) :=
      ⟨[], by rw [RPCClient.PutBlock_writes, List.append_nil],
        fun _ => by rw [(RPCClient.PutBlock_frame H w block a false).2.2.1]⟩
    have h2 := RPCClient.UpdateFile_rejected (RPCClient.PutBlock H w block a false).world
      metaLocal metaLocal.Version f
    have h3 := ih (RPCClient.UpdateFile (RPCClient.PutBlock H w block a false).world metaLocal
      metaLocal.Version).world
      { metaLocal with Version := (RPCClient.UpdateFile
          (RPCClient.PutBlock H w block a false).world metaLocal metaLocal.Version).out }
    exact MetaStore.rejected_keeps f _ _ _ (MetaStore.rejected_keeps f _ _ _ h1 h2) h3

theorem uploadBlocks_rejected (H : List UInt8 → String) (blockSize : Nat) (w : World)
    (metaLocal : FileMetaData) (f : String) (w2 : World) (m2 : FileMetaData)
    (h : uploadBlocks H blockSize w metaLocal = some (w2, m2)) :
    ∃ calls, updatesOf f w2.trace = updatesOf f w.trace ++ calls ∧
      ((∀ x ∈ calls, x = false) →
        w2.metaStore.FileMetaMap.get f = w.metaStore.FileMetaMap.get f) := by
  have h0 : ∃ calls, updatesOf f (w.trace ++ [Event.uploadBlocks metaLocal.Filename])
        = updatesOf f w.trace ++ calls ∧
      ((∀ x ∈ calls, x = false) →
        w.metaStore.FileMetaMap.get f = w.metaStore.FileMetaMap.get f) :=
    ⟨[], by simp [updatesOf_append, updatesOf], fun _ => rfl⟩
  unfold uploadBlocks at h
  cases hs : osStat w.dir metaLocal.Filename with
  | none => simp [hs] at h
  | some found =>
    cases found with
    | none =>
      simp only [hs, Option.some.injEq, Prod.mk.injEq] at h
      obtain ⟨hw, -⟩ := h
      subst hw
      exact MetaStore.rejected_keeps f w
        { w with trace := w.trace ++ [Event.uploadBlocks metaLocal.Filename] } _ h0
        (RPCClient.UpdateFile_rejected _ metaLocal metaLocal.Version f)
    | some fi =>
      simp only [hs] at h
      cases hb : (if fi.IsDir = true then (if blockSize = 0 then none else some [])
          else DivideBlocks fi.Data blockSize) with
      | none => simp [hb] at h
      | some blocksList =>
        simp only [hb, Option.some.injEq] at h
        have hl := uploadBlocks.loop_rejected H
          (RPCClient.GetBlockStoreAddr
            { w with trace := w.trace ++ [Event.uploadBlocks metaLocal.Filename] } "").out
          f blocksList
          (RPCClient.GetBlockStoreAddr
            { w with trace := w.trace ++ [Event.uploadBlocks metaLocal.Filename] } "").world
          metaLocal
        rw [h] at hl
        simp only [RPCClient.GetBlockStoreAddr_world] at hl
        have h1 : ∃ calls, updatesOf f (w.trace ++ [Event.uploadBlocks metaLocal.Filename]
              ++ [Event.GetBlockStoreAddr]) = updatesOf f w.trace ++ calls ∧
            ((∀ x ∈ calls, x = false) →
              w.metaStore.FileMetaMap.get f = w.metaStore.FileMetaMap.get f) :=
          ⟨[], by simp [updatesOf_append, updatesOf], fun _ => rfl⟩
        exact MetaStore.rejected_keeps f w
          { w with trace := w.trace ++ [Event.uploadBlocks metaLocal.Filename]
                              ++ [Event.GetBlockStoreAddr] } w2 h1 hl

theorem ServerSync.uploadLoop_rejected (H : List UInt8 → String) (blockSize : Nat)
    (fileInfoMapServer : GoMap FileMetaData) (f : String)
    (entries : List (String × FileMetaData)) :
    ∀ (w w2 : World) (out : GoMap FileMetaData),
      ServerSync.uploadLoop H blockSize fileInfoMapServer w entries = some (w2, out) →
      ∃ calls, updatesOf f w2.trace = updatesOf f w.trace ++ calls ∧
        ((∀ x ∈ calls, x = false) →
          w2.metaStore.FileMetaMap.get f = w.metaStore.FileMetaMap.get f) := by
  induction entries with
  | nil =>
    intro w w2 out h
    simp only [ServerSync.uploadLoop, Option.some.injEq, Prod.mk.injEq] at h
    obtain ⟨hw, -⟩ := h
    subst hw
    exact ⟨[], by simp, fun _ => rfl⟩
  | cons hd tl ih =>
    obtain ⟨k, m⟩ := hd
    intro w w2 out h
    rw [ServerSync.uploadLoop_cons] at h
    by_cases hwin : localWins fileInfoMapServer m = true
    · rw [if_pos hwin] at h
      cases hup : uploadBlocks H blockSize w m with
      | none => simp [hup] at h
      | some r =>
        obtain ⟨w1, m1⟩ := r
        simp only [hup] at h
        cases hrest : ServerSync.uploadLoop H blockSize fileInfoMapServer w1 tl with
        | none => simp [hrest] at h
        | some r2 =>
          obtain ⟨w3, others⟩ := r2
          simp only [hrest, Option.some.injEq, Prod.mk.injEq] at h
          obtain ⟨hw, -⟩ := h
          subst hw
          exact MetaStore.rejected_keeps f w w1 w3
            (uploadBlocks_rejected H blockSize w m f w1 m1 hup) (ih w1 w3 others hrest)
    · rw [if_neg hwin] at h
      cases hrest : ServerSync.uploadLoop H blockSize fileInfoMapServer w tl with
      | none => simp [hrest] at h
      | some r2 =>
        obtain ⟨w3, others⟩ := r2
        simp only [hrest, Option.some.injEq, Prod.mk.injEq] at h
        obtain ⟨hw, -⟩ := h
        subst hw
        exact ih w w3 others hrest

/-- What the MetaStore keeps over a `ServerSync`: for every filename, when every `UpdateFile`
issued for it in the call is rejected, the MetaStore holds for it what it held. -/
theorem ServerSync_rejected (H : List UInt8 → String) (blockSize : Nat)
    (w : World) (fileInfoMapLocal : GoMap FileMetaData)
    (hserver : keyedMap w.metaStore.FileMetaMap)
    (hsnames : ∀ kv ∈ w.metaStore.FileMetaMap, isFileName kv.2.Filename = true)
    (hdir : ∀ kv ∈ w.metaStore.FileMetaMap, Dir.isDir w.dir kv.2.Filename = false)
    (w2 : World) (merged : GoMap FileMetaData)
    (h : ServerSync H blockSize w fileInfoMapLocal = some (w2, merged)) (f : String) :
    ∃ calls, updatesOf f w2.trace = updatesOf f w.trace ++ calls ∧
      ((∀ x ∈ calls, x = false) →
        w2.metaStore.FileMetaMap.get f = w.metaStore.FileMetaMap.get f) := by
  have hnames : (w.metaStore.FileMetaMap.map (fun kv => kv.2.Filename)).Nodup := by
    rw [keyedMap_filenames _ hserver.1]; exact hserver.2
  obtain ⟨w1, m1, hloop, -, e2, -, -, -, -, e7, -⟩ :=
    ServerSync.downloadLoop_spec w.metaStore.FileMetaMap
      { w with trace := w.trace ++ [Event.GetFileInfoMap] } fileInfoMapLocal hsnames hdir hnames
  unfold ServerSync at h
  simp only [RPCClient.GetFileInfoMap_world, RPCClient.GetFileInfoMap_out, hloop] at h
  have h0 : ∃ calls, updatesOf f (w.trace ++ [Event.GetFileInfoMap])
        = updatesOf f w.trace ++ calls ∧
      ((∀ x ∈ calls, x = false) →
        w.metaStore.FileMetaMap.get f = w.metaStore.FileMetaMap.get f) :=
    ⟨[], by simp [updatesOf_append, updatesOf], fun _ => rfl⟩
  have h1 := MetaStore.kept_of_frame f { w with trace := w.trace ++ [Event.GetFileInfoMap] } w1
    e2 e7
  have h2 := ServerSync.uploadLoop_rejected H blockSize w.metaStore.FileMetaMap f m1 w1 w2
    merged h
  exact MetaStore.rejected_keeps f w w1 w2
    (MetaStore.rejected_keeps f w { w with trace := w.trace ++ [Event.GetFileInfoMap] } w1 h0 h1)
    h2

/-! ## C16: the names of the desired-local map -/

theorem foldl_set_names (mk : String × Int → FileMetaData)
    (hmk : ∀ fv, (mk fv).Filename = fv.1) (pairs : List (String × Int)) :
    ∀ acc : GoMap FileMetaData,
      (∀ fv ∈ pairs, isFileName fv.1 = true) →
      (∀ kv ∈ acc, isFileName kv.2.Filename = true) →
      ∀ kv ∈ pairs.foldl (fun fileMetaMap fv => fileMetaMap.set fv.1 (mk fv)) acc,
        isFileName kv.2.Filename = true := by
  induction pairs with
  | nil => intro acc _ hacc; exact hacc
  | cons fv rest ih =>
    intro acc hp hacc
    simp only [List.foldl_cons]
    apply ih _ (fun x hx => hp x (List.mem_cons_of_mem _ hx))
    intro kv hkv
    rcases GoMap.mem_set acc _ _ kv hkv with h | h
    · rw [h]
      show isFileName (mk fv).Filename = true
      rw [hmk]; exact hp fv (List.mem_cons_self _ _)
    · exact hacc kv h

theorem LoadMetaFromMetaFile_names (table : List IndexRow)
    (h : ∀ r ∈ table, isFileName r.fileName = true) :
    ∀ kv ∈ LoadMetaFromMetaFile table, isFileName kv.2.Filename = true := by
  unfold LoadMetaFromMetaFile
  apply foldl_set_names
    (fun fv => { Filename := fv.1, Version := fv.2,
                 BlockHashList := (getTuplesByFileName table fv.1).map Prod.snd })
    (fun _ => rfl)
  · intro fv hfv
    simp only [getDistinctFileName, List.mem_dedup, List.mem_map] at hfv
    obtain ⟨r, hr, rfl⟩ := hfv
    exact h r hr
  · intro kv hkv
    exact absurd hkv (List.not_mem_nil _)

theorem scan_names (H : List UInt8 → String) (blockSize : Nat) (hbs : 0 < blockSize)
    (metaMapDB : GoMap FileMetaData) (files : List FileInfo) :
    ∀ acc res : GoMap FileMetaData,
      LocalSyncDB.scan H blockSize metaMapDB files acc = some res →
      (∀ fi ∈ files, isFileName fi.Name = true) →
      (∀ kv ∈ acc, isFileName kv.2.Filename = true) →
      ∀ kv ∈ res, isFileName kv.2.Filename = true := by
  induction files with
  | nil =>
    intro acc res h _ hacc
    simp only [LocalSyncDB.scan, Option.some.injEq] at h
    rw [← h]; exact hacc
  | cons fi rest ih =>
    intro acc res h hfiles hacc
    simp only [LocalSyncDB.scan, scanStep_eq H blockSize hbs] at h
    apply ih _ res h (fun x hx => hfiles x (List.mem_cons_of_mem _ hx))
    by_cases hv : CheckValidFile fi = true
    · simp only [hv, if_true]
      intro kv hkv
      rcases GoMap.mem_set acc _ _ kv hkv with h1 | h1
      · rw [h1]; exact hfiles fi (List.mem_cons_self _ _)
      · exact hacc kv h1
    · simpa [hv] using hacc

theorem deleted_names (metaMapDB : GoMap FileMetaData) (entries : List (String × FileMetaData)) :
    ∀ acc res : GoMap FileMetaData,
      LocalSyncDB.deleted metaMapDB entries acc = some res →
      (∀ kv ∈ entries, isFileName kv.2.Filename = true) →
      (∀ kv ∈ acc, isFileName kv.2.Filename = true) →
      ∀ kv ∈ res, isFileName kv.2.Filename = true := by
  induction entries with
  | nil =>
    intro acc res h _ hacc
    simp only [LocalSyncDB.deleted, Option.some.injEq] at h
    rw [← h]; exact hacc
  | cons hd tl ih =>
    obtain ⟨k, m⟩ := hd
    intro acc res h hent hacc
    have htl : ∀ kv ∈ tl, isFileName kv.2.Filename = true :=
      fun kv hkv => hent kv (List.mem_cons_of_mem _ hkv)
    simp only [LocalSyncDB.deleted] at h
    cases hget : metaMapDB.get m.Filename with
    | none =>
      by_cases hhas : acc.has m.Filename = true
      · simp only [LocalSyncDB.deletedStep, hhas, if_true] at h
        exact ih acc res h htl hacc
      · simp [LocalSyncDB.deletedStep, hhas, hget] at h
    | some e =>
      rw [deletedStep_eq metaMapDB acc m e hget] at h
      simp only at h
      apply ih _ res h htl
      by_cases hhas : acc.has m.Filename = true
      · simp only [hhas, if_true]; exact hacc
      · simp only [hhas]
        intro kv hkv
        rcases GoMap.mem_set acc _ _ kv hkv with h1 | h1
        · rw [h1]; exact hent (k, m) (List.mem_cons_self _ _)
        · exact hacc kv h1

theorem LocalSyncDB_names (H : List UInt8 → String) (blockSize : Nat) (hbs : 0 < blockSize)
    (files : List FileInfo) (metaMapDB res : GoMap FileMetaData)
    (h : LocalSyncDB H blockSize files metaMapDB = some res)
    (hfiles : ∀ fi ∈ files, isFileName fi.Name = true)
    (hdb : ∀ kv ∈ metaMapDB, isFileName kv.2.Filename = true) :
    ∀ kv ∈ res, isFileName kv.2.Filename = true := by
  unfold LocalSyncDB at h
  cases hscan : LocalSyncDB.scan H blockSize metaMapDB files [] with
  | none => rw [hscan] at h; simp at h
  | some mid =>
    rw [hscan] at h
    simp only at h
    exact deleted_names metaMapDB metaMapDB mid res h hdb
      (scan_names H blockSize hbs metaMapDB files [] mid hscan hfiles
        (fun kv hkv => absurd hkv (List.not_mem_nil _)))

/-! ## C16: an entry of the index written and read back -/

theorem LoadMetaFromMetaFile_get (M : GoMap FileMetaData) (hkey : keyed M)
    (hnodup : M.keys.Nodup) (f : String) (e : FileMetaData) (hget : M.get f = some e)
    (hne : e.BlockHashList ≠ []) :
    (LoadMetaFromMetaFile (WriteMetaFile M)).get f = some e := by
  unfold LoadMetaFromMetaFile
  have hname : e.Filename = f := keyed_get M hkey f e hget
  have hmemM : (f, e) ∈ M := GoMap.mem_of_get M f e hget
  have hrows : ∀ r ∈ WriteMetaFile M, r.fileName = f → r.version = e.Version := by
    intro r hr hf
    obtain ⟨kv, hkv, hrow⟩ := (mem_WriteMetaFile M r).mp hr
    have h1 : kv.2.Filename = f := by rw [← (mem_rowsOf kv.2 r hrow).1]; exact hf
    have h2 : kv.1 = f := by rw [hkey kv hkv]; exact h1
    have h3 : M.get kv.1 = some kv.2 := GoMap.get_of_mem_nodup M hnodup kv.1 kv.2 hkv
    rw [h2, hget] at h3
    simp only [Option.some.injEq] at h3
    rw [(mem_rowsOf kv.2 r hrow).2, ← h3]
  have hpair : (f, e.Version) ∈ getDistinctFileName (WriteMetaFile M) := by
    simp only [getDistinctFileName, List.mem_dedup, List.mem_map]
    obtain ⟨x, xs, hx⟩ := List.exists_cons_of_ne_nil hne
    refine ⟨⟨e.Filename, e.Version, 0, x⟩, ?_, by simp [hname]⟩
    rw [mem_WriteMetaFile]
    refine ⟨(f, e), hmemM, ?_⟩
    simp only [WriteMetaFile.rowsOf, List.mem_map]
    have hx2 : e.BlockHashList = x :: xs := hx
    exact ⟨(0, x), by rw [hx2]; simp [List.enum, List.enumFrom], rfl⟩
  rw [foldl_set_same _ _ _ f e.Version hpair]
  · have htup := getTuples_rowsOf (WriteMetaFile M) f e
      (filter_WriteMetaFile_some M hkey hnodup f e hget)
    simp only [htup]
    rw [← hname]
  · intro fv hfv hf
    simp only [getDistinctFileName, List.mem_dedup, List.mem_map] at hfv
    obtain ⟨r, hr, rfl⟩ := hfv
    exact hrows r hr hf

/-- C16, amended. For a positive block size, a server map that is a Go map keyed by filename,
names of the server entries, of the base directory and of the index that are file names (not
empty, not `.` or `..`, without path separator or NUL, at most 255 bytes), no server entry named
like a directory, and a pass that starts with no event recorded, `ClientSync` returns. For every
file for which the pass calls `uploadBlocks` and issues at least one `UpdateFile`, every one of
them rejected: the server's metadata map holds for that file after the pass what it held before
(the same entry, or none), and the map that `ClientSync` writes to the index holds for that file
the desired-local entry of Phase B (not the entry the index had before the pass); the index read
back holds that entry when its block hash list is not empty. -/
theorem clientSync_rejected_upload (H : List UInt8 → String) (blockSize : Nat) (w : World)
    (hbs : 0 < blockSize) (hserver : keyedMap w.metaStore.FileMetaMap)
    (hsnames : ∀ kv ∈ w.metaStore.FileMetaMap, isFileName kv.2.Filename = true)
    (hdnames : ∀ fi ∈ w.dir, isFileName fi.Name = true)
    (hinames : ∀ r ∈ w.index, isFileName r.fileName = true)
    (hdir : ∀ kv ∈ w.metaStore.FileMetaMap, Dir.isDir w.dir kv.2.Filename = false)
    (htrace : w.trace = []) :
    ∃ desired w2 written,
      LocalSyncDB H blockSize w.dir (LoadMetaFromMetaFile w.index) = some desired ∧
      ClientSync H blockSize w = some w2 ∧ w2.index = WriteMetaFile written ∧
      ∀ f, f ∈ uploadsOf w2.trace → updatesOf f w2.trace ≠ [] →
        (∀ a ∈ updatesOf f w2.trace, a = false) →
        w2.metaStore.FileMetaMap.get f = w.metaStore.FileMetaMap.get f ∧
        ∃ e, desired.get f = some e ∧ written.get f = some e ∧
          (e.BlockHashList ≠ [] → (LoadMetaFromMetaFile w2.index).get f = some e) := by
  obtain ⟨desired, hdesired, -, -, hkd⟩ := LocalSyncDB_spec H blockSize hbs w.dir
    (LoadMetaFromMetaFile w.index) (LoadMetaFromMetaFile_keyed w.index)
  have hnd := LocalSyncDB_nodup H blockSize hbs w.dir _ desired hdesired
  have hlnames := LocalSyncDB_names H blockSize hbs w.dir _ desired hdesired hdnames
    (LoadMetaFromMetaFile_names w.index hinames)
  obtain ⟨w1, merged, hsync, hA, hB, -, hU, -, hkm, -⟩ :=
    ServerSync_spec H blockSize hbs w desired hserver hsnames hlnames hdir
  have hmerged := hkm ⟨hkd, hnd⟩
  have hrej := ServerSync_rejected H blockSize w desired hserver hsnames hdir w1 merged hsync
  refine ⟨desired, { w1 with index := WriteMetaFile merged }, merged, hdesired, ?_, rfl, ?_⟩
  · unfold ClientSync
    simp only [hdesired, hsync]
  · intro f hup _ hall
    have hup1 : f ∈ uploadsOf w1.trace := hup
    have hall1 : ∀ a ∈ updatesOf f w1.trace, a = false := hall
    obtain ⟨calls, hc, hkeep⟩ := hrej f
    have hnil : updatesOf f ([] : List Event) = [] := rfl
    have hnil2 : uploadsOf ([] : List Event) = [] := rfl
    rw [htrace, hnil, List.nil_append] at hc
    rw [htrace, hnil2, List.nil_append] at hU
    rw [hU] at hup1
    obtain ⟨e, hme, hlw⟩ := (keyedMap_mem_filter merged hmerged
      (fun e => localWins w.metaStore.FileMetaMap e) f).mp hup1
    have hname : e.Filename = f := keyed_get merged hmerged.1 f e hme
    have hnotwin : ∀ s, w.metaStore.FileMetaMap.get f = some s →
        serverWins desired s = false := by
      intro s hs
      cases hsw : serverWins desired s with
      | false => rfl
      | true =>
        have hms := hA f s hs hsw
        rw [hme] at hms
        simp only [Option.some.injEq] at hms
        subst hms
        simp only [localWins, hname, hs, decide_eq_true_eq] at hlw
        exact absurd hlw (lt_irrefl _)
    have hde : desired.get f = some e := by
      rw [← hB f hnotwin]; exact hme
    refine ⟨?_, e, hde, hme, fun hne => ?_⟩
    · show w1.metaStore.FileMetaMap.get f = _
      exact hkeep (by rw [← hc]; exact hall1)
    · show (LoadMetaFromMetaFile (WriteMetaFile merged)).get f = some e
      exact LoadMetaFromMetaFile_get merged hmerged.1 hmerged.2 f e hme hne

/-- C16, amended, at the client whose index records `a.txt` at version 2 and whose file has
changed, with a server that holds `a.txt` at version 1: the pass uploads `a.txt`, its one
`UpdateFile` is rejected, the server keeps version 1 and the index read back holds the
desired-local entry `(a.txt, 3, [h1])`. -/
theorem clientSync_rejected_upload_witness :
    (0 < 2) ∧ keyedMap [("a.txt", (⟨"a.txt", 1, ["h0"]⟩ : FileMetaData))] ∧
    (∀ kv ∈ [("a.txt", (⟨"a.txt", 1, ["h0"]⟩ : FileMetaData))],
      isFileName kv.2.Filename = true) ∧
    (∀ fi ∈ [(⟨"a.txt", false, [1]⟩ : FileInfo)], isFileName fi.Name = true) ∧
    (∀ r ∈ [(⟨"a.txt", 2, 0, "hx"⟩ : IndexRow)], isFileName r.fileName = true) ∧
    (∀ kv ∈ [("a.txt", (⟨"a.txt", 1, ["h0"]⟩ : FileMetaData))],
      Dir.isDir [⟨"a.txt", false, [1]⟩] kv.2.Filename = false) ∧
    (ClientSync exampleHash 2
        { dir := [⟨"a.txt", false, [1]⟩], index := [⟨"a.txt", 2, 0, "hx"⟩],
          metaStore := { FileMetaMap := [("a.txt", ⟨"a.txt", 1, ["h0"]⟩)],
                         BlockStoreAddr := "addr" },
          blockStore := NewBlockStore, trace := [] }).map
      (fun w => (uploadsOf w.trace, updatesOf "a.txt" w.trace,
        w.metaStore.FileMetaMap.get "a.txt", (LoadMetaFromMetaFile w.index).get "a.txt"))
      = some (["a.txt"], [false], some ⟨"a.txt", 1, ["h0"]⟩, some ⟨"a.txt", 3, ["h1"]⟩) ∧
    ∃ desired w2 written,
      LocalSyncDB exampleHash 2 [⟨"a.txt", false, [1]⟩]
        (LoadMetaFromMetaFile [⟨"a.txt", 2, 0, "hx"⟩]) = some desired ∧
      ClientSync exampleHash 2
        { dir := [⟨"a.txt", false, [1]⟩], index := [⟨"a.txt", 2, 0, "hx"⟩],
          metaStore := { FileMetaMap := [("a.txt", ⟨"a.txt", 1, ["h0"]⟩)],
                         BlockStoreAddr := "addr" },
          blockStore := NewBlockStore, trace := [] } = some w2 ∧
      w2.index = WriteMetaFile written ∧
      ∀ f, f ∈ uploadsOf w2.trace → updatesOf f w2.trace ≠ [] →
        (∀ a ∈ updatesOf f w2.trace, a = false) →
        w2.metaStore.FileMetaMap.get f
          = GoMap.get [("a.txt", (⟨"a.txt", 1, ["h0"]⟩ : FileMetaData))] f ∧
        ∃ e, desired.get f = some e ∧ written.get f = some e ∧
          (e.BlockHashList ≠ [] → (LoadMetaFromMetaFile w2.index).get f = some e) :=
  ⟨by decide, by decide, by decide, by decide, by decide, by decide, by decide,
    clientSync_rejected_upload exampleHash 2
      { dir := [⟨"a.txt", false, [1]⟩], index := [⟨"a.txt", 2, 0, "hx"⟩],
        metaStore := { FileMetaMap := [("a.txt", ⟨"a.txt", 1, ["h0"]⟩)],
                       BlockStoreAddr := "addr" },
        blockStore := NewBlockStore, trace := [] }
      (by decide) (by decide) (by decide) (by decide) (by decide) (by decide) rfl⟩

end SurfStore
